import Mathlib

/-! # FMC FRU EEPROM programmer: host-side command line tool and firmware

Shallow embedding of `fmc_fru_eeprom_programmer.c` (the protocol client,
the burst transfer tasks `d_task` / `u_task` and the memory autodetection
`m_task` / `TestIfSizeIs`).

Conventions of the embedding:

* a byte is a `Nat`, reduced `% 256` wherever the C code stores it into an
  `unsigned char` / `char` object; `unsigned int` arithmetic is reduced
  `% 2 ^ 32`;
* `(x >> 8) & 0xFF` is written `x / 256 % 256`, `x & 0xFF` is `x % 256`,
  `(x & 0x04) >> 2` is `x / 4 % 2`;
* a C array is a function `Nat → Nat` from index to content; the content
  an uninitialised local has on entry is a parameter of the model;
* the serial port handle `hComm` is a `Link` together with its state.
-/

namespace FmcFru

/-- Size of the host receive buffers (`RX_BUFFER_SIZE`). -/
def RX_BUFFER_SIZE : Nat := 128

/-- Size of the host transmit buffers (`TX_BUFFER_SIZE`). -/
def TX_BUFFER_SIZE : Nat := 128

/-- The serial port as the host sees it: `xfer s tx n` is one `WriteFile`
of the frame `tx` followed by one `ReadFile` that asks for at most `n`
bytes. It yields the bytes received and the next state of whatever sits
behind the port. -/
structure Link (σ : Type) where
  xfer : σ → List Nat → Nat → List Nat × σ

/-- Effect of `ReadFile` on a receive buffer: the received bytes overwrite
the start of the buffer, the rest keeps its previous content. -/
def fill (rxbuffer : Nat → Nat) (rx : List Nat) : Nat → Nat :=
  fun i => if i < rx.length then rx.getD i 0 % 256 else rxbuffer i

/-- One `WriteFile(tx)` / `ReadFile(rxbuffer, n, &read_N)` pair: the new
buffer, `read_N` and the next link state. -/
def exchange {σ : Type} (T : Link σ) (s : σ) (tx : List Nat) (n : Nat)
    (rxbuffer : Nat → Nat) : (Nat → Nat) × Nat × σ :=
  (fill rxbuffer ((T.xfer s tx n).1.take n), ((T.xfer s tx n).1.take n).length,
    (T.xfer s tx n).2)

/-- Frame of `read_from_eeprom`: `'r'`, device address, 1-byte memory address. -/
def frame_r (i2c_addr addr : Nat) : List Nat :=
  [0x72, i2c_addr % 256, addr % 256]

/-- Frame of `Read_from_eeprom`: `'R'`, device address, address MSB, address LSB. -/
def frame_R (i2c_addr addr : Nat) : List Nat :=
  [0x52, i2c_addr % 256, addr / 256 % 256, addr % 256]

/-- Frame of `write_to_eeprom_burst` (and of `write_to_eeprom` for one byte). -/
def frame_w (i2c_addr addr : Nat) (data : List Nat) : List Nat :=
  [0x77, i2c_addr % 256, addr % 256] ++ data.map (· % 256)

/-- Frame of `Write_to_eeprom_burst` (and of `Write_to_eeprom` for one byte). -/
def frame_W (i2c_addr addr : Nat) (data : List Nat) : List Nat :=
  [0x57, i2c_addr % 256, addr / 256 % 256, addr % 256] ++ data.map (· % 256)

/-- Source `read_from_eeprom`: read command with 1-byte addressing. -/
def read_from_eeprom {σ : Type} (T : Link σ) (i2c_addr addr : Nat)
    (rxbuffer : Nat → Nat) (s : σ) : (Nat → Nat) × Nat × σ :=
  exchange T s (frame_r i2c_addr addr) RX_BUFFER_SIZE rxbuffer

/-- Source `Read_from_eeprom`: read command with 2-byte addressing. -/
def Read_from_eeprom {σ : Type} (T : Link σ) (i2c_addr addr : Nat)
    (rxbuffer : Nat → Nat) (s : σ) : (Nat → Nat) × Nat × σ :=
  exchange T s (frame_R i2c_addr addr) RX_BUFFER_SIZE rxbuffer

/-- Source `write_to_eeprom`: single byte write with 1-byte addressing; one
byte of response is read. -/
def write_to_eeprom {σ : Type} (T : Link σ) (i2c_addr addr txbyte : Nat)
    (rxbuffer : Nat → Nat) (s : σ) : (Nat → Nat) × Nat × σ :=
  exchange T s (frame_w i2c_addr addr [txbyte]) 1 rxbuffer

/-- Source `Write_to_eeprom`: single byte write with 2-byte addressing. -/
def Write_to_eeprom {σ : Type} (T : Link σ) (i2c_addr addr txbyte : Nat)
    (rxbuffer : Nat → Nat) (s : σ) : (Nat → Nat) × Nat × σ :=
  exchange T s (frame_W i2c_addr addr [txbyte]) 1 rxbuffer

/-- Source `write_to_eeprom_burst`: the first `N_txbyte` bytes of `txbyte`
written in one command, 1-byte addressing. -/
def write_to_eeprom_burst {σ : Type} (T : Link σ) (i2c_addr addr : Nat)
    (txbyte : Nat → Nat) (N_txbyte : Nat) (rxbuffer : Nat → Nat) (s : σ) :
    (Nat → Nat) × Nat × σ :=
  exchange T s (frame_w i2c_addr addr ((List.range N_txbyte).map txbyte)) 1 rxbuffer

/-- Source `Write_to_eeprom_burst`: the first `N_txbyte` bytes of `txbyte`
written in one command, 2-byte addressing. -/
def Write_to_eeprom_burst {σ : Type} (T : Link σ) (i2c_addr addr : Nat)
    (txbyte : Nat → Nat) (N_txbyte : Nat) (rxbuffer : Nat → Nat) (s : σ) :
    (Nat → Nat) × Nat × σ :=
  exchange T s (frame_W i2c_addr addr ((List.range N_txbyte).map txbyte)) 1 rxbuffer

/-- Source `readOk`: `read_N` when at least two bytes came back and the
first is ACK `0x06`, else 0. -/
def readOk (rxbuffer : Nat → Nat) (read_N : Nat) : Nat :=
  if 2 ≤ read_N ∧ rxbuffer 0 = 0x06 then read_N else 0

/-- Source `writeOk`: `read_N` when exactly one byte came back and it is
ACK `0x06`, else 0. -/
def writeOk (rxbuffer : Nat → Nat) (read_N : Nat) : Nat :=
  if read_N = 1 ∧ rxbuffer 0 = 0x06 then read_N else 0

/-- Source `TestIfSizeIs`: the probe of AN690, "does address `n` alias
address 0". The result is the C return value with the link state after the
commands issued. The local `rxbuffer` is only ever inspected at indices a
response has just filled, so its initial content is taken as zero. -/
def TestIfSizeIs {σ : Type} (T : Link σ) (n i2c_addr addressing : Nat) (s : σ) :
    Nat × σ :=
  if addressing = 0x01 then
    let a := read_from_eeprom T i2c_addr 0x00 (fun _ => 0) s
    if readOk a.1 a.2.1 ≠ 0 then
      let TEMP0 := a.1 1
      let b := read_from_eeprom T i2c_addr n a.1 a.2.2
      if readOk b.1 b.2.1 ≠ 0 then
        let TEMPN := b.1 1
        if TEMPN = TEMP0 then
          let c := write_to_eeprom T i2c_addr 0x00 (TEMP0 + 1) b.1 b.2.2
          if writeOk c.1 c.2.1 ≠ 0 then
            let d := read_from_eeprom T i2c_addr n c.1 c.2.2
            if readOk d.1 d.2.1 ≠ 0 then
              let TEMPN2 := d.1 1
              let e := write_to_eeprom T i2c_addr 0x00 TEMP0 d.1 d.2.2
              if writeOk e.1 e.2.1 ≠ 0 then
                if TEMPN2 % 256 = (TEMP0 + 1) % 256 then (1, e.2.2) else (0, e.2.2)
              else (0, e.2.2)
            else (0, d.2.2)
          else (0, c.2.2)
        else (0, b.2.2)
      else (0, b.2.2)
    else (0, a.2.2)
  else if addressing = 0x02 then
    let a := Read_from_eeprom T i2c_addr 0x0000 (fun _ => 0) s
    if readOk a.1 a.2.1 ≠ 0 then
      let TEMP0 := a.1 1
      let b := Read_from_eeprom T i2c_addr (n % 65536) a.1 a.2.2
      if readOk b.1 b.2.1 ≠ 0 then
        let TEMPN := b.1 1
        if TEMPN = TEMP0 then
          let c := Write_to_eeprom T i2c_addr 0x0000 (TEMP0 + 1) b.1 b.2.2
          if writeOk c.1 c.2.1 ≠ 0 then
            let d := Read_from_eeprom T i2c_addr (n % 65536) c.1 c.2.2
            if readOk d.1 d.2.1 ≠ 0 then
              let TEMPN2 := d.1 1
              let e := Write_to_eeprom T i2c_addr 0x0000 TEMP0 d.1 d.2.2
              if writeOk e.1 e.2.1 ≠ 0 then
                if TEMPN2 % 256 = (TEMP0 + 1) % 256 then (1, e.2.2) else (0, e.2.2)
              else (0, e.2.2)
            else (0, d.2.2)
          else (0, c.2.2)
        else (0, b.2.2)
      else (0, b.2.2)
    else (0, a.2.2)
  else (0, s)

/-- Variables of `m_task`: the link state behind `hComm`, the algorithm
state, the locals and the two out-parameters `*N_addr`, `*N_bytes`. -/
structure MVars (σ : Type) where
  st : σ
  state : Nat
  ret : Nat
  rxbuffer : Nat → Nat
  read_N : Nat
  read_value_1byteaddr_x00 : Nat
  read_value_1byteaddr_x01 : Nat
  read_value_2byteaddr : Nat
  MODEL : Nat
  L : Nat
  N_addr : Nat
  N_bytes : Nat

/-- Store the outcome of a command (`rxbuffer`, `read_N`, link state). -/
def MVars.recv {σ : Type} (v : MVars σ) (r : (Nat → Nat) × Nat × σ) : MVars σ :=
  { v with rxbuffer := r.1, read_N := r.2.1, st := r.2.2 }

/-- Address width derived from the device address:
`((i2c_addr & 0x04) >> 2) + 1`. -/
def N_addr_default (i2c_addr : Nat) : Nat :=
  i2c_addr % 256 / 4 % 2 + 1

/-- Block `if (state == 1)` of `m_task`: reads (1.A) and (1.B) with 1-byte
addressing. Both reads are issued one after the other; each sets
`state = 2` when it is acknowledged. -/
def m_state1 {σ : Type} (T : Link σ) (i2c_addr : Nat) (v : MVars σ) : MVars σ :=
  if v.state = 1 then
    let va := v.recv (read_from_eeprom T i2c_addr 0x00 v.rxbuffer v.st)
    let va := if readOk va.rxbuffer va.read_N ≠ 0 then
        { va with read_value_1byteaddr_x00 := va.rxbuffer 1, state := 2 } else va
    let vb := va.recv (read_from_eeprom T i2c_addr 0x01 va.rxbuffer va.st)
    if readOk vb.rxbuffer vb.read_N ≠ 0 then
      { vb with read_value_1byteaddr_x01 := vb.rxbuffer 1, state := 2 } else vb
  else v

/-- Block `if (state == 2)`: read of address 0x0000 with 2-byte addressing. -/
def m_state2 {σ : Type} (T : Link σ) (i2c_addr : Nat) (v : MVars σ) : MVars σ :=
  if v.state = 2 then
    let va := v.recv (Read_from_eeprom T i2c_addr 0x0000 v.rxbuffer v.st)
    if readOk va.rxbuffer va.read_N ≠ 0 then
      { va with read_value_2byteaddr := va.rxbuffer 1, state := 3 } else va
  else v

/-- Block `if (state == 3)`: write of 0x01 to address 0x0000 with 2-byte
addressing. -/
def m_state3 {σ : Type} (T : Link σ) (i2c_addr : Nat) (v : MVars σ) : MVars σ :=
  if v.state = 3 then
    let va := v.recv (Write_to_eeprom T i2c_addr 0x0000 0x01 v.rxbuffer v.st)
    if writeOk va.rxbuffer va.read_N ≠ 0 then { va with state := 4 } else va
  else v

/-- Block `if (state == 4)`: read back of address 0x0000 with 2-byte
addressing. -/
def m_state4 {σ : Type} (T : Link σ) (i2c_addr : Nat) (v : MVars σ) : MVars σ :=
  if v.state = 4 then
    let va := v.recv (Read_from_eeprom T i2c_addr 0x0000 v.rxbuffer v.st)
    if readOk va.rxbuffer va.read_N ≠ 0 then { va with state := 5 } else va
  else v

/-- Block `if (state == 5)`: the width is inferred from the byte read back
and the saved values are written back. -/
def m_state5 {σ : Type} (T : Link σ) (i2c_addr : Nat) (v : MVars σ) : MVars σ :=
  if v.state = 5 then
    if v.rxbuffer 1 = 0x01 then
      let va := v.recv
        (Write_to_eeprom T i2c_addr 0x0000 v.read_value_2byteaddr v.rxbuffer v.st)
      if writeOk va.rxbuffer va.read_N ≠ 0 then
        { va with N_addr := 2, state := 6 } else va
    else
      let va := v.recv
        (write_to_eeprom T i2c_addr 0x00 v.read_value_1byteaddr_x00 v.rxbuffer v.st)
      if writeOk va.rxbuffer va.read_N ≠ 0 then
        let vb := va.recv
          (write_to_eeprom T i2c_addr 0x01 va.read_value_1byteaddr_x01 va.rxbuffer va.st)
        if writeOk vb.rxbuffer vb.read_N ≠ 0 then
          { vb with N_addr := 1, state := 6 } else vb
      else va
  else v

/-- The `do { ... } while (L<=65536)` loop of state 6. `fuel` bounds the
number of iterations; `none` is returned when it runs out. -/
def m_scan {σ : Type} (T : Link σ) (i2c_addr : Nat) : Nat → MVars σ → Option (MVars σ)
  | 0, _ => none
  | fuel + 1, v =>
    if (TestIfSizeIs T v.L i2c_addr v.N_addr v.st).1 ≠ 0 then
      some { v with st := (TestIfSizeIs T v.L i2c_addr v.N_addr v.st).2,
                    state := 7, N_bytes := v.L }
    else if v.L * 2 ≤ 65536 then
      m_scan T i2c_addr fuel
        { v with st := (TestIfSizeIs T v.L i2c_addr v.N_addr v.st).2,
                 L := v.L * 2, MODEL := v.MODEL * 2 }
    else
      some { v with st := (TestIfSizeIs T v.L i2c_addr v.N_addr v.st).2,
                    L := v.L * 2, MODEL := v.MODEL * 2 }

/-- Block `if (state == 6)`: the capacity search from `L = 128`. -/
def m_state6 {σ : Type} (T : Link σ) (fuel i2c_addr : Nat) (v : MVars σ) :
    Option (MVars σ) :=
  if v.state = 6 then m_scan T i2c_addr fuel { v with L := 128, MODEL := 1 }
  else some v

/-- The final `switch (state)` of `m_task`: states 1 to 6 reset `*N_addr` to
the address-derived default and give `ret = 0`; state 7 gives `ret = 1`. -/
def m_switch {σ : Type} (i2c_addr : Nat) (v : MVars σ) : MVars σ :=
  if v.state = 1 ∨ v.state = 2 ∨ v.state = 3 ∨ v.state = 4 ∨ v.state = 5 ∨ v.state = 6
  then { v with N_addr := N_addr_default i2c_addr, ret := 0 }
  else if v.state = 7 then { v with ret := 1 }
  else v

/-- States 1 to 5 of `m_task`, from the entry values `v` (link state,
`*N_addr`, `*N_bytes` and the indeterminate content of the uninitialised
locals); `ret = 0` and `state = 1` are the initialisers of the source. -/
def m_states_1_5 {σ : Type} (T : Link σ) (i2c_addr : Nat) (v : MVars σ) : MVars σ :=
  m_state5 T i2c_addr (m_state4 T i2c_addr (m_state3 T i2c_addr
    (m_state2 T i2c_addr (m_state1 T i2c_addr { v with ret := 0, state := 1 }))))

/-- Source `m_task`: memory autodetection. The result carries the return
value `ret`, the final `state`, `*N_addr`, `*N_bytes` and the link state. -/
def m_task {σ : Type} (T : Link σ) (fuel i2c_addr : Nat) (v : MVars σ) :
    Option (MVars σ) :=
  (m_state6 T fuel i2c_addr (m_states_1_5 T i2c_addr v)).map (m_switch i2c_addr)

/-- Entry values of `m_task` with every uninitialised local holding `g`. -/
def MVars.entry {σ : Type} (s : σ) (N_addr N_bytes g : Nat) : MVars σ :=
  { st := s, state := g, ret := g, rxbuffer := fun _ => g, read_N := g,
    read_value_1byteaddr_x00 := g, read_value_1byteaddr_x01 := g,
    read_value_2byteaddr := g, MODEL := g, L := g, N_addr := N_addr, N_bytes := N_bytes }

/-- What `d_task` leaves behind: its return value, `*N_addr`, `*N_bytes`,
the bytes of the output file and the link state. -/
structure DResult (σ : Type) where
  ret : Nat
  N_addr : Nat
  N_bytes : Nat
  file : List Nat
  st : σ

/-- The `for (addr = 0; addr < *N_bytes; addr = addr + read_burst)` loop of
`d_task`, entered at `addr` with receive buffer `rxbuffer` and the bytes
`fp` already in the output file. `fuel` bounds the number of times the body
runs; `none` is returned when it runs out. A `break` ends the loop with the
file as it is. -/
def d_loop {σ : Type} (T : Link σ) (i2c_addr N_addr N_bytes read_burst : Nat) :
    Nat → Nat → (Nat → Nat) → List Nat → σ → Option (List Nat × σ)
  | fuel, addr, rxbuffer, fp, s =>
    if addr < N_bytes then
      match fuel with
      | 0 => none
      | fuel + 1 =>
        if N_addr = 2 then
          let r := Read_from_eeprom T i2c_addr addr rxbuffer s
          if readOk r.1 r.2.1 ≠ 0 then
            d_loop T i2c_addr N_addr N_bytes read_burst fuel ((addr + read_burst) % 2 ^ 32)
              r.1 (fp ++ (List.range read_burst).map (fun i => r.1 (1 + i))) r.2.2
          else some (fp, r.2.2)
        else if N_addr = 1 then
          let r := read_from_eeprom T i2c_addr addr rxbuffer s
          if readOk r.1 r.2.1 ≠ 0 then
            d_loop T i2c_addr N_addr N_bytes read_burst fuel ((addr + read_burst) % 2 ^ 32)
              r.1 (fp ++ (List.range read_burst).map (fun i => r.1 (1 + i))) r.2.2
          else some (fp, r.2.2)
        else some (fp, s)
    else some (fp, s)

/-- Address width `d_task` and `u_task` work with: the address-derived
default when `*N_addr` is 0 on entry. -/
def width_or_default (i2c_addr N_addr : Nat) : Nat :=
  if N_addr = 0x00 then N_addr_default i2c_addr else N_addr

/-- Capacity `d_task` works with: 256 or 4096 by address width when
`*N_bytes` is 0 on entry. -/
def bytes_or_default (N_addr N_bytes : Nat) : Nat :=
  if N_bytes = 0 then
    if N_addr = 1 then 256 else if N_addr = 2 then 4096 else 0
  else N_bytes

/-- Source `d_task`: download. `rxbuffer` is the indeterminate initial
content of the receive buffer; the output file is opened empty. The
function returns 1 on every path. -/
def d_task {σ : Type} (T : Link σ) (fuel i2c_addr N_addr N_bytes read_burst : Nat)
    (rxbuffer : Nat → Nat) (s : σ) : Option (DResult σ) :=
  (d_loop T i2c_addr (width_or_default i2c_addr N_addr)
      (bytes_or_default (width_or_default i2c_addr N_addr) N_bytes) read_burst
      fuel 0 rxbuffer [] s).map
    (fun r => { ret := 1, N_addr := width_or_default i2c_addr N_addr,
                N_bytes := bytes_or_default (width_or_default i2c_addr N_addr) N_bytes,
                file := r.1, st := r.2 })

/-- Variables of the upload loop of `u_task`. -/
structure UVars (σ : Type) where
  st : σ
  i : Nat
  mem_addr : Nat
  cnt_download : Nat
  writebuffer : Nat → Nat
  rxbuffer : Nat → Nat
  read_N : Nat

/-- Store the outcome of a command (`rxbuffer`, `read_N`, link state). -/
def UVars.recv {σ : Type} (v : UVars σ) (r : (Nat → Nat) × Nat × σ) : UVars σ :=
  { v with rxbuffer := r.1, read_N := r.2.1, st := r.2.2 }

/-- The `while (c = fgetc(fp), c != EOF)` loop of `u_task` over the bytes
still to come from the input file. The response to a write is received
into `rxbuffer` and never inspected. A `break` (address width neither 1
nor 2) ends the loop. -/
def u_loop {σ : Type} (T : Link σ) (i2c_addr N_addr write_burst filesize : Nat) :
    List Nat → UVars σ → UVars σ
  | [], v => v
  | c :: rest, v =>
    let v1 : UVars σ :=
      { v with cnt_download := (v.cnt_download + 1) % 2 ^ 32,
               writebuffer := fun k => if k = v.i - 1 then c % 256 else v.writebuffer k }
    if v1.i % write_burst = 0 then
      if N_addr = 2 then
        let v2 := ({ v1 with i := 1 }).recv
          (Write_to_eeprom_burst T i2c_addr ((v1.mem_addr + 2 ^ 32 - write_burst + 1) % 2 ^ 32)
            v1.writebuffer write_burst v1.rxbuffer v1.st)
        u_loop T i2c_addr N_addr write_burst filesize rest
          { v2 with mem_addr := (v2.mem_addr + 1) % 2 ^ 32 }
      else if N_addr = 1 then
        let v2 := ({ v1 with i := 1 }).recv
          (write_to_eeprom_burst T i2c_addr ((v1.mem_addr + 2 ^ 32 - write_burst + 1) % 2 ^ 32)
            v1.writebuffer write_burst v1.rxbuffer v1.st)
        u_loop T i2c_addr N_addr write_burst filesize rest
          { v2 with mem_addr := (v2.mem_addr + 1) % 2 ^ 32 }
      else { v1 with i := 1 }
    else if filesize - filesize % write_burst ≤ v1.mem_addr then
      if N_addr = 2 then
        let v2 := v1.recv
          (Write_to_eeprom T i2c_addr v1.mem_addr (c % 256) v1.rxbuffer v1.st)
        u_loop T i2c_addr N_addr write_burst filesize rest
          { v2 with i := v2.i + 1, mem_addr := (v2.mem_addr + 1) % 2 ^ 32 }
      else if N_addr = 1 then
        let v2 := v1.recv
          (write_to_eeprom T i2c_addr v1.mem_addr (c % 256) v1.rxbuffer v1.st)
        u_loop T i2c_addr N_addr write_burst filesize rest
          { v2 with i := v2.i + 1, mem_addr := (v2.mem_addr + 1) % 2 ^ 32 }
      else v1
    else
      u_loop T i2c_addr N_addr write_burst filesize rest
        { v1 with i := v1.i + 1, mem_addr := (v1.mem_addr + 1) % 2 ^ 32 }

/-- The capacity hint of `u_task`, `(unsigned int)pow(2, ceil(log(filesize)/log(2.0)))`,
with the floating point evaluated exactly: the next power of two from
`filesize` on, and 0 for an empty file. The source keeps the logarithm in a
single-precision `float`; the exact value is what it yields as long as the
rounding to `float` does not reach the integer below, which holds for file
sizes up to 2 ^ 20 = 1048576. -/
def capacity_hint (filesize : Nat) : Nat :=
  if filesize = 0 then 0 else 2 ^ Nat.clog 2 filesize

/-- What `u_task` leaves behind: its return value, `*N_addr`, `*N_bytes` and
the link state. -/
structure UResult (σ : Type) where
  ret : Nat
  N_addr : Nat
  N_bytes : Nat
  st : σ

/-- Source `u_task`: upload of the bytes of the input file (`none`: the
file cannot be opened). `writebuffer` and `rxbuffer` are the indeterminate
initial contents of the two local buffers. -/
def u_task {σ : Type} (T : Link σ) (i2c_addr N_addr N_bytes write_burst : Nat)
    (file : Option (List Nat)) (writebuffer rxbuffer : Nat → Nat) (s : σ) : UResult σ :=
  match file with
  | none => { ret := 0, N_addr := N_addr, N_bytes := N_bytes, st := s }
  | some bytes =>
    { ret := 1, N_addr := width_or_default i2c_addr N_addr,
      N_bytes := capacity_hint bytes.length,
      st := (u_loop T i2c_addr (width_or_default i2c_addr N_addr) write_burst bytes.length
        bytes { st := s, i := 1, mem_addr := 0, cnt_download := 0,
                writebuffer := writebuffer, rxbuffer := rxbuffer, read_N := 0 }).st }

/-! ## Devices behind the link -/

/-- A link that answers the `j`-th command it receives (counted from 0)
with `resp j`, whatever the command, and records the frames it was sent.
Every behaviour a device can show to the deterministic host is one such
sequence of responses. -/
def scripted (resp : Nat → List Nat) : Link (List (List Nat)) where
  xfer log tx _ := (resp log.length, log ++ [tx])

/-- Static description of a simulated EEPROM behind the programmer:
native address width, capacity, read-burst length of the programmer and
the data seen by reads that use the other address width. -/
structure Chip where
  width : Nat
  cap : Nat
  burst : Nat
  alt : Nat → Nat

/-- Store `data` at consecutive addresses from `a`, modulo the capacity. -/
def store (cap : Nat) (mem : Nat → Nat) (a : Nat) : List Nat → Nat → Nat
  | [] => mem
  | x :: rest => store cap (fun i => if i = a % cap then x else mem i) (a + 1) rest

/-- Ideal memory: every command is acknowledged; commands of the native
width address the memory modulo its capacity, a read returns `burst` bytes
from consecutive addresses, a write stores its bytes at consecutive
addresses; commands of the other width are acknowledged and leave the
memory alone. Any other frame gets NACK. -/
def ideal (c : Chip) : Link (Nat → Nat) where
  xfer mem tx _ :=
    match tx with
    | [0x72, _, a] =>
      if c.width = 1 then
        (0x06 :: (List.range c.burst).map (fun i => mem ((a + i) % c.cap)), mem)
      else (0x06 :: (List.range c.burst).map (fun i => c.alt (a + i)), mem)
    | [0x52, _, hi, lo] =>
      if c.width = 2 then
        (0x06 :: (List.range c.burst).map (fun i => mem ((hi * 256 + lo + i) % c.cap)), mem)
      else (0x06 :: (List.range c.burst).map (fun i => c.alt (hi * 256 + lo + i)), mem)
    | 0x77 :: _ :: a :: x :: data =>
      if c.width = 1 then ([0x06], store c.cap mem a (x :: data)) else ([0x06], mem)
    | 0x57 :: _ :: hi :: lo :: x :: data =>
      if c.width = 2 then ([0x06], store c.cap mem (hi * 256 + lo) (x :: data))
      else ([0x06], mem)
    | _ => ([0x3F], mem)

/-- A link on which one command gets lost: with `some k` in the state the
`k`-th coming command (from 0) never reaches the device and nothing is
received for it; all other commands pass through to `T`. -/
def flaky {σ : Type} (T : Link σ) : Link (σ × Option Nat) where
  xfer s tx n :=
    match s.2 with
    | none => ((T.xfer s.1 tx n).1, ((T.xfer s.1 tx n).2, none))
    | some 0 => ([], (s.1, none))
    | some (k + 1) => ((T.xfer s.1 tx n).1, ((T.xfer s.1 tx n).2, some k))

/-- A 2-byte-addressed 512-byte memory behind a programmer with read-burst 8. -/
def chip512 : Chip := { width := 2, cap := 512, burst := 8, alt := fun _ => 0 }

/-- The write frame the host sends for address width `N_addr` (2: `'W'`,
otherwise `'w'`). -/
def write_frame (N_addr i2c_addr addr : Nat) (data : List Nat) : List Nat :=
  if N_addr = 2 then frame_W i2c_addr addr data else frame_w i2c_addr addr data

/-- Specification of the upload: the frames announced once the first `m`
bytes of the file `F` have been consumed with write burst `wb`: one burst
per complete group of `wb` bytes below the last multiple of `wb`, then one
single-byte write per byte of the tail. -/
def sent_after (N_addr i2c_addr wb : Nat) (F : List Nat) (m : Nat) : List (List Nat) :=
  (List.range (min m (F.length / wb * wb) / wb)).map
      (fun j => write_frame N_addr i2c_addr (j * wb)
        ((List.range wb).map (fun k => F.getD (j * wb + k) 0))) ++
  (List.range (m - F.length / wb * wb)).map
      (fun t => write_frame N_addr i2c_addr (F.length / wb * wb + t)
        [F.getD (F.length / wb * wb + t) 0])


/-- Ten bytes `0x11, 0x22, ...` used as a sample input file. -/
def sampleFile : List Nat := [0x11, 0x22, 0x33, 0x44, 0x55, 0x66, 0x77, 0x88, 0x99, 0xAA]

/-- Responses of a programmer that never answers the first command and
acknowledges every later one, its tenth answer carrying the data byte 2
and all others the data byte 1. -/
def lostFirst : Nat → List Nat :=
  fun j => if j = 0 then [] else if j = 9 then [0x06, 0x02] else [0x06, 0x01]

/-- An acknowledged read response carrying 24 data bytes. -/
def ack24 : List Nat := 0x06 :: List.replicate 24 0xAB

/-- The read frame the host sends for address width `N_addr` (2: `'R'`,
otherwise `'r'`). -/
def read_frame (N_addr i2c_addr addr : Nat) : List Nat :=
  if N_addr = 2 then frame_R i2c_addr addr else frame_r i2c_addr addr

/-- The response `r` to a read command is classified ok by `readOk` once it
has been received into the receive buffer. -/
def read_acked (r : List Nat) : Prop :=
  readOk (fill (fun _ => 0) (r.take RX_BUFFER_SIZE)) (r.take RX_BUFFER_SIZE).length ≠ 0

instance (r : List Nat) : Decidable (read_acked r) := by
  unfold read_acked; exact inferInstance

/-- Content of the receive buffer of `d_task` before its `j`-th read
command (from 0), when the `i`-th read was answered by `resp i` and the
buffer held `rx0` at the start. -/
def rx_before (resp : Nat → List Nat) (rx0 : Nat → Nat) : Nat → Nat → Nat
  | 0 => rx0
  | j + 1 => fill (rx_before resp rx0 j) ((resp j).take RX_BUFFER_SIZE)

/-- The `read_burst` bytes `d_task` appends to the file after its `j`-th
read: the receive buffer from index 1 on, as it is once the response has
been received. -/
def chunk (resp : Nat → List Nat) (rx0 : Nat → Nat) (read_burst j : Nat) : List Nat :=
  (List.range read_burst).map (fun i => rx_before resp rx0 (j + 1) (1 + i))

/-- Responses of a programmer that answers NACK to the third command and
acknowledges every other one with 24 data bytes. -/
def nackThird : Nat → List Nat :=
  fun j => if j = 2 then [0x3F] else ack24

/-- Link state before the probe of candidate `128 * 2 ^ i` in the capacity
search that starts in link state `s`: the probes of the smaller candidates
have run one after the other. -/
def probe_state {σ : Type} (T : Link σ) (i2c_addr N_addr : Nat) (s : σ) : Nat → σ
  | 0 => s
  | i + 1 =>
    (TestIfSizeIs T (128 * 2 ^ i) i2c_addr N_addr (probe_state T i2c_addr N_addr s i)).2

/-- What `TestIfSizeIs` returns for candidate `128 * 2 ^ i` in the capacity
search that starts in link state `s`. -/
def probe_result {σ : Type} (T : Link σ) (i2c_addr N_addr : Nat) (s : σ) (i : Nat) : Nat :=
  (TestIfSizeIs T (128 * 2 ^ i) i2c_addr N_addr (probe_state T i2c_addr N_addr s i)).1

/-- A 1-byte-addressed 256-byte memory behind a programmer with read-burst 8. -/
def chip256 : Chip := { width := 1, cap := 256, burst := 8, alt := fun _ => 0 }

/-- Variables of `m_task` on entry to state 6 with inferred width `N_addr`
over link state `s` (all other variables 0). -/
def at_state6 {σ : Type} (s : σ) (N_addr : Nat) : MVars σ :=
  { (MVars.entry s N_addr 0 0 : MVars σ) with state := 6 }

/-- Link state after the write command `tx` has been sent in state `s` (one
byte of response is asked for). -/
def send {σ : Type} (T : Link σ) (s : σ) (tx : List Nat) : σ :=
  (T.xfer s tx 1).2

/-- Number of commands a probe of candidate `n` issues on the ideal
2-byte-addressed memory `mem` when none is lost: the two reads, and the
write, read back and restoring write when the two reads agree. -/
def probe_len (c : Chip) (mem : Nat → Nat) (n : Nat) : Nat :=
  if mem (n % 65536 % c.cap) % 256 = mem 0 % 256 then 5 else 2

/-- The part of `TestIfSizeIs` (2-byte addressing) that follows the two
reads when they agree: probe write, read back, restoring write, verdict. -/
def probe_tail2 {σ : Type} (T : Link σ) (n i2c_addr TEMP0 : Nat) (rx : Nat → Nat) (s : σ) :
    Nat × σ :=
  let c := Write_to_eeprom T i2c_addr 0x0000 (TEMP0 + 1) rx s
  if writeOk c.1 c.2.1 ≠ 0 then
    let d := Read_from_eeprom T i2c_addr (n % 65536) c.1 c.2.2
    if readOk d.1 d.2.1 ≠ 0 then
      let TEMPN2 := d.1 1
      let e := Write_to_eeprom T i2c_addr 0x0000 TEMP0 d.1 d.2.2
      if writeOk e.1 e.2.1 ≠ 0 then
        if TEMPN2 % 256 = (TEMP0 + 1) % 256 then (1, e.2.2) else (0, e.2.2)
      else (0, e.2.2)
    else (0, d.2.2)
  else (0, c.2.2)

/-- The command that is lost `j` commands into the capacity search, the
search being at candidate `L` with `p` candidates left, is one of the first
three commands of a probe (first read, second read, probe write), or the
search is over before any command is lost. -/
def loss_safe (c : Chip) (mem : Nat → Nat) : Nat → Nat → Nat → Prop
  | 0, _, _ => True
  | p + 1, L, j =>
    if j < probe_len c mem L then j ≤ 2
    else if L % 65536 % c.cap = 0 then True
    else loss_safe c mem p (L * 2) (j - probe_len c mem L)

/-- The response `r` to a write command is classified ok by `writeOk` once
its first byte has been received. -/
def write_acked (r : List Nat) : Prop :=
  writeOk (fill (fun _ => 0) (r.take 1)) (r.take 1).length ≠ 0

/-! ## Firmware: bus driver (`i2c.c`), pins (`fru_programmer.c`) and command
dispatcher (`main.c`)

The microcontroller hardware is a `Board`: the registers the firmware
touches, each write or read stepping the hardware state. The LED outputs
(`set_led`) are left out. -/

/-- `UART_ACK`. -/
def UART_ACK : Nat := 0x06

/-- `UART_NACK`, the character `'?'`. -/
def UART_NACK : Nat := 0x3F

/-- `UART_END`. -/
def UART_END : Nat := 0xFF

/-- `I2C_BUFFERSIZE`. -/
def I2C_BUFFERSIZE : Nat := 67

/-- `I2C_DEFAULT_READ`. -/
def I2C_DEFAULT_READ : Nat := 8

/-- `I2C_MAX_READ`. -/
def I2C_MAX_READ : Nat := 64

/-- `I2C_DEFAULT_WRITE`. -/
def I2C_DEFAULT_WRITE : Nat := 1

/-- `I2C_EEPROM_ADDR_7BIT`. -/
def I2C_EEPROM_ADDR_7BIT : Nat := 0x50

/-- `FRU_PROGRAMMER_FW_REL_MAJ`. -/
def FRU_PROGRAMMER_FW_REL_MAJ : Nat := 0x01

/-- `FRU_PROGRAMMER_FW_REL_MIN`. -/
def FRU_PROGRAMMER_FW_REL_MIN : Nat := 0x01

/-- `FRU_PROGRAMMER_FW_BUILD`. -/
def FRU_PROGRAMMER_FW_BUILD : Nat := 0x01

/-- `WR_ON`. -/
def WR_ON : Nat := 0x01

/-- `WR_OFF`. -/
def WR_OFF : Nat := 0x00

/-- `WR_TOGGLE`. -/
def WR_TOGGLE : Nat := 0x02

/-- `INPUT_LOW`. -/
def INPUT_LOW : Nat := 0x00

/-- `INPUT_HIGH`. -/
def INPUT_HIGH : Nat := 0x01

/-- The ATmega32U4 as the firmware sees it. `setTWCR`, `setTWDR`, `setPORTD`
are register writes; `readTWCR` is one read of `TWCR` in the bounded poll
loop of `i2c_read` (time passes, so the state steps); `waitTWINT` is the
unbounded `while (!(TWCR & (1 << TWINT)));` of the driver, which is taken to
end (the driver relies on the hardware there); `TWDR`, `TWSR`, `PORTD`,
`PIND`, `PINE` are register reads. Bit numbers are those of the AVR
headers: `TWINT` 7, `TWEA` 6, `TWSTA` 5, `TWSTO` 4, `TWEN` 2, `PD4` 4,
`PD5` 5, `PD3` 3, `PD2` 2, `PE6` 6. -/
structure Board (β : Type) where
  setTWCR : β → Nat → β
  setTWDR : β → Nat → β
  readTWCR : β → Nat × β
  waitTWINT : β → β
  TWDR : β → Nat
  TWSR : β → Nat
  PORTD : β → Nat
  setPORTD : β → Nat → β
  PIND : β → Nat
  PINE : β → Nat

/-- Source `set_writepin`: toggle, clear or set bit `PD4` of `PORTD`; any
other argument leaves the port alone. -/
def set_writepin {β : Type} (H : Board β) (b : β) (state : Nat) : β :=
  if state = WR_TOGGLE then H.setPORTD b (H.PORTD b ^^^ 16)
  else if state = WR_OFF then H.setPORTD b (H.PORTD b &&& (255 - 16))
  else if state = WR_ON then H.setPORTD b (H.PORTD b ||| 16)
  else b

/-- Source `get_prsnt_state`. -/
def get_prsnt_state {β : Type} (H : Board β) (b : β) : Nat :=
  if H.PINE b &&& 64 ≠ 0 then INPUT_HIGH else INPUT_LOW

/-- Source `get_wrpol_state`. -/
def get_wrpol_state {β : Type} (H : Board β) (b : β) : Nat :=
  if H.PIND b &&& 32 ≠ 0 then INPUT_HIGH else INPUT_LOW

/-- Source `get_GA_state`: `GA1` (bit `PD2`) and `GA0` (bit `PD3`) as a 2-bit
value. -/
def get_GA_state {β : Type} (H : Board β) (b : β) : Nat :=
  ((if H.PIND b &&& 4 ≠ 0 then 1 else 0) <<< 1) ||| (if H.PIND b &&& 8 ≠ 0 then 1 else 0)

/-- Source `i2c_writeByte`. -/
def i2c_writeByte {β : Type} (H : Board β) (data : Nat) (b : β) : β :=
  H.waitTWINT (H.setTWCR (H.setTWDR b (data % 256)) 0x84)

/-- Source `i2c_startCondition`. -/
def i2c_startCondition {β : Type} (H : Board β) (b : β) : β :=
  H.waitTWINT (H.setTWCR b 0xA4)

/-- Source `i2c_stopCondition`. -/
def i2c_stopCondition {β : Type} (H : Board β) (b : β) : β :=
  H.setTWCR b 0x94

/-- Source `i2c_write`: start, address with write intent, the first `length`
bytes of `buffer`, stop. -/
def i2c_write {β : Type} (H : Board β) (address : Nat) (buffer : Nat → Nat) (length : Nat)
    (b : β) : β :=
  i2c_stopCondition H
    ((List.range length).foldl (fun b i => i2c_writeByte H (buffer i) b)
      (i2c_writeByte H (2 * address) (i2c_startCondition H b)))

/-- The bounded wait of `i2c_read`, `while (!(TWCR & (1 << TWINT)))` with the
counter `timeout`: `polls` is the number of reads of `TWCR` still allowed
(50001 at the start: the 50001-st read that finds the flag clear makes
`timeout > 50000`). The result tells whether the flag was seen set. -/
def i2c_read_wait {β : Type} (H : Board β) : Nat → β → Bool × β
  | 0, b => (false, b)
  | polls + 1, b =>
    if (H.readTWCR b).1 &&& 128 ≠ 0 then (true, (H.readTWCR b).2)
    else i2c_read_wait H polls (H.readTWCR b).2

/-- The `for (int i = 0; i < length; i++)` loop of `i2c_read` with `todo`
bytes still to come: acknowledge is requested for every byte but the last;
a timeout returns 0 at once (no stop condition); after the last byte the
stop condition is issued and 1 returned. -/
def i2c_read_bytes {β : Type} (H : Board β) (length : Nat) :
    Nat → Nat → (Nat → Nat) → β → Nat × (Nat → Nat) × β
  | 0, _, buffer, b => (1, buffer, i2c_stopCondition H b)
  | todo + 1, i, buffer, b =>
    if (i2c_read_wait H 50001 (H.setTWCR b (if i + 1 = length then 0x84 else 0xC4))).1 then
      i2c_read_bytes H length todo (i + 1)
        (fun k => if k = i then
            H.TWDR (i2c_read_wait H 50001
              (H.setTWCR b (if i + 1 = length then 0x84 else 0xC4))).2 % 256
          else buffer k)
        (i2c_read_wait H 50001 (H.setTWCR b (if i + 1 = length then 0x84 else 0xC4))).2
    else
      (0, buffer,
        (i2c_read_wait H 50001 (H.setTWCR b (if i + 1 = length then 0x84 else 0xC4))).2)

/-- Source `i2c_read`: the return value (1, or 0 on timeout), the buffer and
the hardware state afterwards. -/
def i2c_read {β : Type} (H : Board β) (address : Nat) (buffer : Nat → Nat) (length : Nat)
    (b : β) : Nat × (Nat → Nat) × β :=
  i2c_read_bytes H length length 0 buffer
    (i2c_writeByte H (2 * address + 1) (i2c_startCondition H b))

/-- Source `i2c_scan`: 1 when the address byte is acknowledged
(`(TWSR & 0xF8) == 0x18`), else 0. -/
def i2c_scan {β : Type} (H : Board β) (address : Nat) (b : β) : Nat × β :=
  if H.TWSR (H.waitTWINT (H.setTWCR (H.setTWDR (i2c_startCondition H b)
      (2 * address % 256)) 0x84)) &&& 0xF8 ≠ 0x18 then
    (0, i2c_stopCondition H (H.waitTWINT (H.setTWCR (H.setTWDR (i2c_startCondition H b)
      (2 * address % 256)) 0x84)))
  else
    (1, i2c_stopCondition H (H.waitTWINT (H.setTWCR (H.setTWDR (i2c_startCondition H b)
      (2 * address % 256)) 0x84)))

/-- Variables of the firmware `main`: the hardware, the USB serial input
buffer `rx`, the bytes sent to the host `tx`, and the locals. -/
structure Fw (β : Type) where
  hw : β
  rx : List Nat
  tx : List Nat
  i : Nat
  task : Nat
  i2c_addr : Nat
  bytes_to_read : Nat
  bytes_to_write : Nat
  fru_addr_msb : Nat
  fru_addr_lsb : Nat
  fru_data : Nat
  i2c_buf : Nat → Nat

/-- Modelled from the spec: `usb_serial_available` of the USB serial library
(not among the sources), the number of bytes buffered on the transport
input. -/
def usb_serial_available {β : Type} (s : Fw β) : Nat :=
  s.rx.length

/-- Modelled from the spec: `usb_serial_getchar` of the USB serial library,
which takes the next buffered byte off the transport input (-1, stored as
255 in a `uint8_t`, when there is none). -/
def usb_serial_getchar {β : Type} (s : Fw β) : Nat × Fw β :=
  (s.rx.headD 255 % 256, { s with rx := s.rx.tail })

/-- Modelled from the spec: `usb_serial_putchar` of the USB serial library,
which sends one byte to the host. -/
def usb_serial_putchar {β : Type} (s : Fw β) (c : Nat) : Fw β :=
  { s with tx := s.tx ++ [c % 256] }

/-- Modelled from the spec: `usb_serial_flush_input` of the USB serial
library, which discards all buffered input. -/
def usb_serial_flush_input {β : Type} (s : Fw β) : Fw β :=
  { s with rx := [] }

/-- The loop `for (i=0;i<bytes_to_read;i++) usb_serial_putchar(i2c_buf[i]);`
of the read commands. -/
def send_i2c_buf {β : Type} (s : Fw β) : Fw β :=
  { s with tx := s.tx ++ (List.range s.bytes_to_read).map (fun k => s.i2c_buf k % 256),
           i := s.bytes_to_read }

/-- The loop `for (i=0;i<bytes_to_write;i++)` of the write commands with
`todo` bytes still to fetch: the next input byte goes to `fru_data` and to
`i2c_buf[offset+i]`. -/
def fetch_data {β : Type} (offset : Nat) : Nat → Fw β → Fw β
  | 0, s => s
  | todo + 1, s =>
    fetch_data offset todo
      { (usb_serial_getchar s).2 with
        fru_data := (usb_serial_getchar s).1,
        i2c_buf := fun k => if k = offset + s.i then (usb_serial_getchar s).1
                            else s.i2c_buf k,
        i := s.i + 1 }

/-- `case 'b'` of the dispatcher: read-burst length. -/
def case_b {β : Type} (s : Fw β) : Fw β :=
  if usb_serial_available s = 1 then
    let s1 : Fw β := { (usb_serial_getchar s).2 with i := (usb_serial_getchar s).1 }
    if 1 ≤ s1.i ∧ s1.i ≤ I2C_MAX_READ then
      usb_serial_putchar (usb_serial_putchar { s1 with bytes_to_read := s1.i } UART_ACK) s1.i
    else
      usb_serial_putchar { s1 with bytes_to_read := I2C_DEFAULT_READ } UART_NACK
  else if usb_serial_available s = 0 then
    usb_serial_putchar s s.bytes_to_read
  else
    usb_serial_putchar s UART_NACK

/-- `case 'r'` of the dispatcher: read with 1-byte addressing. The value
`i2c_read` returns is not used. -/
def case_r {β : Type} (H : Board β) (s : Fw β) : Fw β :=
  if usb_serial_available s = 2 then
    let s1 := usb_serial_putchar s UART_ACK
    let s2 : Fw β := { (usb_serial_getchar s1).2 with i2c_addr := (usb_serial_getchar s1).1 }
    let s3 : Fw β := { (usb_serial_getchar s2).2 with fru_addr_msb := (usb_serial_getchar s2).1 }
    let s4 : Fw β := { s3 with i2c_buf := fun k => if k = 0 then s3.fru_addr_msb else s3.i2c_buf k }
    let s5 : Fw β := { s4 with hw := set_writepin H s4.hw WR_TOGGLE }
    let s6 : Fw β := { s5 with hw := i2c_write H s5.i2c_addr s5.i2c_buf 1 s5.hw }
    let s7 : Fw β :=
      { s6 with i2c_buf := (i2c_read H s6.i2c_addr s6.i2c_buf s6.bytes_to_read s6.hw).2.1,
                hw := (i2c_read H s6.i2c_addr s6.i2c_buf s6.bytes_to_read s6.hw).2.2 }
    send_i2c_buf { s7 with hw := set_writepin H s7.hw WR_TOGGLE }
  else
    usb_serial_putchar s UART_NACK

/-- `case 'R'` of the dispatcher: read with 2-byte addressing. The value
`i2c_read` returns is not used. -/
def case_R {β : Type} (H : Board β) (s : Fw β) : Fw β :=
  if usb_serial_available s = 3 then
    let s1 := usb_serial_putchar s UART_ACK
    let s2 : Fw β := { (usb_serial_getchar s1).2 with i2c_addr := (usb_serial_getchar s1).1 }
    let s3 : Fw β := { (usb_serial_getchar s2).2 with fru_addr_msb := (usb_serial_getchar s2).1 }
    let s3b : Fw β := { (usb_serial_getchar s3).2 with fru_addr_lsb := (usb_serial_getchar s3).1 }
    let s4 : Fw β :=
      { s3b with i2c_buf := fun k => if k = 1 then s3b.fru_addr_lsb
                                     else if k = 0 then s3b.fru_addr_msb else s3b.i2c_buf k }
    let s5 : Fw β := { s4 with hw := set_writepin H s4.hw WR_TOGGLE }
    let s6 : Fw β := { s5 with hw := i2c_write H s5.i2c_addr s5.i2c_buf 2 s5.hw }
    let s7 : Fw β :=
      { s6 with i2c_buf := (i2c_read H s6.i2c_addr s6.i2c_buf s6.bytes_to_read s6.hw).2.1,
                hw := (i2c_read H s6.i2c_addr s6.i2c_buf s6.bytes_to_read s6.hw).2.2 }
    send_i2c_buf { s7 with hw := set_writepin H s7.hw WR_TOGGLE }
  else
    usb_serial_putchar s UART_NACK

/-- The loop of `case 's'` over the addresses `0x50 | i` with `todo`
addresses still to scan. -/
def scan_loop {β : Type} (H : Board β) : Nat → Fw β → Fw β
  | 0, s => s
  | todo + 1, s =>
    let a := I2C_EEPROM_ADDR_7BIT ||| s.i
    let s1 : Fw β := { s with i2c_addr := a, hw := (i2c_scan H a s.hw).2 }
    scan_loop H todo
      { (if (i2c_scan H a s.hw).1 = 1 then usb_serial_putchar s1 a else s1) with i := s.i + 1 }

/-- `case 's'` of the dispatcher: scan for EEPROM addresses. -/
def case_s {β : Type} (H : Board β) (s : Fw β) : Fw β :=
  usb_serial_putchar (scan_loop H 8 { s with i := 0 }) UART_END

/-- `case 'v'` of the dispatcher: firmware version. -/
def case_v {β : Type} (s : Fw β) : Fw β :=
  usb_serial_putchar (usb_serial_putchar (usb_serial_putchar (usb_serial_putchar s
    FRU_PROGRAMMER_FW_REL_MAJ) FRU_PROGRAMMER_FW_REL_MIN) FRU_PROGRAMMER_FW_BUILD) UART_END

/-- `case 'w'` of the dispatcher: write with 1-byte addressing. -/
def case_w {β : Type} (H : Board β) (s : Fw β) : Fw β :=
  if 3 ≤ usb_serial_available s then
    let s0 : Fw β := { s with bytes_to_write := (usb_serial_available s - 2) % 256 }
    let s1 := usb_serial_putchar s0 UART_ACK
    let s2 : Fw β := { (usb_serial_getchar s1).2 with i2c_addr := (usb_serial_getchar s1).1 }
    let s3 : Fw β := { (usb_serial_getchar s2).2 with fru_addr_msb := (usb_serial_getchar s2).1 }
    let s4 : Fw β := { s3 with i2c_buf := fun k => if k = 0 then s3.fru_addr_msb else s3.i2c_buf k }
    let s5 := fetch_data 1 s4.bytes_to_write { s4 with i := 0 }
    let s6 : Fw β := { s5 with hw := set_writepin H s5.hw WR_TOGGLE }
    let s7 : Fw β :=
      { s6 with hw := i2c_write H s6.i2c_addr s6.i2c_buf ((1 + s6.bytes_to_write) % 256) s6.hw }
    { s7 with hw := set_writepin H s7.hw WR_TOGGLE }
  else
    usb_serial_putchar s UART_NACK

/-- `case 'W'` of the dispatcher: write with 2-byte addressing. -/
def case_W {β : Type} (H : Board β) (s : Fw β) : Fw β :=
  if 4 ≤ usb_serial_available s then
    let s0 : Fw β := { s with bytes_to_write := (usb_serial_available s - 3) % 256 }
    let s1 := usb_serial_putchar s0 UART_ACK
    let s2 : Fw β := { (usb_serial_getchar s1).2 with i2c_addr := (usb_serial_getchar s1).1 }
    let s3 : Fw β := { (usb_serial_getchar s2).2 with fru_addr_msb := (usb_serial_getchar s2).1 }
    let s3b : Fw β := { (usb_serial_getchar s3).2 with fru_addr_lsb := (usb_serial_getchar s3).1 }
    let s4 : Fw β :=
      { s3b with i2c_buf := fun k => if k = 1 then s3b.fru_addr_lsb
                                     else if k = 0 then s3b.fru_addr_msb else s3b.i2c_buf k }
    let s5 := fetch_data 2 s4.bytes_to_write { s4 with i := 0 }
    let s6 : Fw β := { s5 with hw := set_writepin H s5.hw WR_TOGGLE }
    let s7 : Fw β :=
      { s6 with hw := i2c_write H s6.i2c_addr s6.i2c_buf ((2 + s6.bytes_to_write) % 256) s6.hw }
    { s7 with hw := set_writepin H s7.hw WR_TOGGLE }
  else
    usb_serial_putchar s UART_NACK

/-- The `switch(task)` of the dispatcher; a byte that is no command does
nothing. -/
def dispatch {β : Type} (H : Board β) (s : Fw β) : Fw β :=
  if s.task = 0x62 then case_b s
  else if s.task = 0x66 then usb_serial_putchar s 0xFF
  else if s.task = 0x67 then
    usb_serial_putchar { s with i2c_addr := get_GA_state H s.hw } (get_GA_state H s.hw)
  else if s.task = 0x70 then
    (if get_prsnt_state H s.hw = INPUT_LOW then usb_serial_putchar s 0x01
     else usb_serial_putchar s 0x00)
  else if s.task = 0x50 then
    (if get_wrpol_state H s.hw = INPUT_LOW then usb_serial_putchar s 0x00
     else usb_serial_putchar s 0x01)
  else if s.task = 0x72 then case_r H s
  else if s.task = 0x52 then case_R H s
  else if s.task = 0x73 then case_s H s
  else if s.task = 0x76 then case_v s
  else if s.task = 0x77 then case_w H s
  else if s.task = 0x57 then case_W H s
  else s

/-- The write pin put to its idle level at the top of the main loop: `WR_ON`
when `WR_POL` reads low, else `WR_OFF`. -/
def idle_writepin {β : Type} (H : Board β) (b : β) : β :=
  if get_wrpol_state H b = INPUT_LOW then set_writepin H b WR_ON else set_writepin H b WR_OFF

/-- One turn of the `while (1)` loop of the firmware `main`: the write pin
is put to its idle level; when input is available the first byte is taken
as the command, the command is serviced and the rest of the input is
flushed. -/
def main_loop {β : Type} (H : Board β) (s : Fw β) : Fw β :=
  let s1 : Fw β := { s with hw := idle_writepin H s.hw }
  if 0 < usb_serial_available s1 then
    usb_serial_flush_input
      (dispatch H { (usb_serial_getchar s1).2 with task := (usb_serial_getchar s1).1 })
  else s1

/-- The dispatcher receiving the buffered input `rx`: one turn of the main
loop with `rx` on the transport and nothing sent yet; the response is the
field `tx` of the result. -/
def serve {β : Type} (H : Board β) (s : Fw β) (rx : List Nat) : Fw β :=
  main_loop H { s with rx := rx, tx := [] }

/-- The variables of `main` when the main loop is entered after power-on:
input flushed, `bytes_to_read = I2C_DEFAULT_READ`,
`bytes_to_write = I2C_DEFAULT_WRITE`; the other locals hold `g`. -/
def Fw.power_on {β : Type} (b : β) (g : Nat) : Fw β :=
  { hw := b, rx := [], tx := [], i := g, task := g, i2c_addr := g,
    bytes_to_read := I2C_DEFAULT_READ, bytes_to_write := I2C_DEFAULT_WRITE,
    fru_addr_msb := g, fru_addr_lsb := g, fru_data := g, i2c_buf := fun _ => g }

/-- A simulated board for concrete runs: the port and pin registers, the
value a read of `TWDR` gives, the status in `TWSR`, whether the bounded
poll of `i2c_read` finds `TWINT` set, and the list of register writes
(0: `TWCR`, 1: `TWDR`, 2: `PORTD`) in the order they were made. -/
structure Sim where
  PORTD : Nat
  PIND : Nat
  PINE : Nat
  TWDR : Nat
  TWSR : Nat
  ready : Bool
  log : List (Nat × Nat)

/-- The simulated board. -/
def simBoard : Board Sim where
  setTWCR b x := { b with log := b.log ++ [(0, x)] }
  setTWDR b x := { b with log := b.log ++ [(1, x)] }
  readTWCR b := (if b.ready then 0x80 else 0x00, b)
  waitTWINT b := b
  TWDR b := b.TWDR
  TWSR b := b.TWSR
  PORTD b := b.PORTD
  setPORTD b x := { b with PORTD := x, log := b.log ++ [(2, x)] }
  PIND b := b.PIND
  PINE b := b.PINE

/-- A simulated board at rest: ports zero, a device that answers every bus
read with the byte 0xA5 when `ready`. -/
def simIdle (ready : Bool) : Sim :=
  { PORTD := 0, PIND := 0, PINE := 0, TWDR := 0xA5, TWSR := 0x18, ready := ready, log := [] }

/-- The programmer as the host sees it on the serial port: the frame the
host writes is buffered in full when the dispatcher takes its turn, and
what the dispatcher sends is what the host can read. -/
def programmer {β : Type} (H : Board β) : Link (Fw β) where
  xfer s tx _ := ((serve H s tx).tx, serve H s tx)

/-- The dispatcher's buffer after `i2c_buf[0] = fru_addr_msb` of the command
`r` (or `w`) with the memory address byte `a`. -/
def with_addr1 (i2c_buf : Nat → Nat) (a : Nat) : Nat → Nat :=
  fun k => if k = 0 then a % 256 else i2c_buf k

/-- The dispatcher's buffer after `i2c_buf[0] = fru_addr_msb; i2c_buf[1] =
fru_addr_lsb` of the command `R` (or `W`) with the address bytes `m`, `l`. -/
def with_addr2 (i2c_buf : Nat → Nat) (m l : Nat) : Nat → Nat :=
  fun k => if k = 1 then l % 256 else if k = 0 then m % 256 else i2c_buf k

/-- The bus transactions of an accepted command `r` with device address `d`
and memory address byte `a`, from the hardware state `b`: toggle of the
write pin, one `i2c_write` of the address byte, one `i2c_read` of `n` bytes.
The components are what `i2c_read` returns, the buffer it leaves and the
hardware state. -/
def bus_r {β : Type} (H : Board β) (b : β) (i2c_buf : Nat → Nat) (d a n : Nat) :
    Nat × (Nat → Nat) × β :=
  i2c_read H (d % 256) (with_addr1 i2c_buf a) n
    (i2c_write H (d % 256) (with_addr1 i2c_buf a) 1 (set_writepin H b WR_TOGGLE))

/-- The bus transactions of an accepted command `R` with device address `d`
and memory address bytes `m`, `l`: toggle of the write pin, one `i2c_write`
of the two address bytes, MSB first, one `i2c_read` of `n` bytes. -/
def bus_R {β : Type} (H : Board β) (b : β) (i2c_buf : Nat → Nat) (d m l n : Nat) :
    Nat × (Nat → Nat) × β :=
  i2c_read H (d % 256) (with_addr2 i2c_buf m l) n
    (i2c_write H (d % 256) (with_addr2 i2c_buf m l) 2 (set_writepin H b WR_TOGGLE))

/-! ## Host: option parsing of `main` and port detection -/

/-- `case 'a'` of the option switch of the host `main`: the value stored in
`N_addr` for the numeric argument `opt_num`. -/
def main_opt_a (opt_num : Int) : Nat :=
  if opt_num = 1 then 0x01 else if opt_num = 2 then 0x02 else 0x00

/-- `case 'l'` of the option switch: the value stored in `N_bytes` for a size
given in bits. -/
def main_opt_l (opt_num : Int) : Nat :=
  if 0 < opt_num ∧ opt_num ≤ 524288 ∧ Int.tmod opt_num 1024 = 0 then
    (Int.tdiv opt_num 8).toNat % 2 ^ 32
  else 0

/-- `case 'L'` of the option switch: the value stored in `N_bytes` for a size
given in bytes. -/
def main_opt_L (opt_num : Int) : Nat :=
  if 0 < opt_num ∧ opt_num ≤ 65536 ∧ Int.tmod opt_num 128 = 0 then opt_num.toNat % 2 ^ 32
  else 0

/-- `case 'r'` of the option switch: the value stored in the `unsigned char`
`read_burst`. -/
def main_opt_r (opt_num : Int) : Nat :=
  if (0 < opt_num ∧ opt_num ≤ 64 ∧ Int.tmod opt_num 8 = 0) ∨ opt_num = 1 then
    (opt_num % 256).toNat
  else 0x08

/-- `case 'w'` of the option switch: the value stored in the `unsigned char`
`write_burst`. -/
def main_opt_w (opt_num : Int) : Nat :=
  if opt_num = 1 ∨ opt_num = 8 ∨ opt_num = 16 ∨ opt_num = 32 then (opt_num % 256).toNat
  else 0x08

/-- Source `init_serial_port`, from the port `COMn` on: `opened` tells
whether `CreateFile` gave a valid handle (then the port is configured, the
command `v` is sent and the response is read into the local `rxbuffer`).
The result is the return value and the state behind the port. -/
def init_serial_port {σ : Type} (T : Link σ) (opened : Bool) (rxbuffer : Nat → Nat) (s : σ) :
    Nat × σ :=
  if opened then
    if (exchange T s [0x76] RX_BUFFER_SIZE rxbuffer).2.1 = 4 ∧
        (exchange T s [0x76] RX_BUFFER_SIZE rxbuffer).1
          ((exchange T s [0x76] RX_BUFFER_SIZE rxbuffer).2.1 - 1) = 0xFF then
      (1, (exchange T s [0x76] RX_BUFFER_SIZE rxbuffer).2.2)
    else (0, (exchange T s [0x76] RX_BUFFER_SIZE rxbuffer).2.2)
  else (0, s)

/-- The legal read-burst values of the option `-r`. -/
def legal_read_bursts : List Int := [1, 8, 16, 24, 32, 40, 48, 56, 64]

/-- The legal write-burst values of the option `-w`. -/
def legal_write_bursts : List Int := [1, 8, 16, 32]

/-- Hardware state before the `i`-th pass of the loop of `case 's'`, from
the state `b` at the start of the loop: the addresses `0x50 | 0` to
`0x50 | (i-1)` have been scanned. -/
def scan_hw {β : Type} (H : Board β) (b : β) : Nat → β
  | 0 => b
  | i + 1 => (i2c_scan H (I2C_EEPROM_ADDR_7BIT ||| i) (scan_hw H b i)).2

/-- The address `0x50 | i` acknowledges in the `i`-th pass of the loop of
`case 's'`: `i2c_scan` returns 1 for it. -/
def scan_ack {β : Type} (H : Board β) (b : β) (i : Nat) : Bool :=
  decide ((i2c_scan H (I2C_EEPROM_ADDR_7BIT ||| i) (scan_hw H b i)).1 = 1)

/-- Address byte last written to `TWDR` on the simulated board, as a 7-bit
address. -/
def Sim.addressed (b : Sim) : Nat :=
  (((b.log.filter (fun e => e.1 = 1)).getLast?).map (fun e => e.2)).getD 0 / 2

/-- The simulated board with a bus on which exactly the addresses `a` with
`ack a` acknowledge: after an address byte the status in `TWSR` is 0x18 for
them and 0x20 for the others. -/
def ackBoard (ack : Nat → Bool) : Board Sim :=
  { simBoard with TWSR := fun b => if ack b.addressed then 0x18 else 0x20 }

/-- The loop of `d_task` with the branch for an address width that is
neither 1 nor 2 left out: every pass sends the read command of the width. -/
def d_loop_reads {σ : Type} (T : Link σ) (i2c_addr N_addr N_bytes read_burst : Nat) :
    Nat → Nat → (Nat → Nat) → List Nat → σ → Option (List Nat × σ)
  | fuel, addr, rxbuffer, fp, s =>
    if addr < N_bytes then
      match fuel with
      | 0 => none
      | fuel + 1 =>
        let r := exchange T s (read_frame N_addr i2c_addr addr) RX_BUFFER_SIZE rxbuffer
        if readOk r.1 r.2.1 ≠ 0 then
          d_loop_reads T i2c_addr N_addr N_bytes read_burst fuel ((addr + read_burst) % 2 ^ 32)
            r.1 (fp ++ (List.range read_burst).map (fun i => r.1 (1 + i))) r.2.2
        else some (fp, r.2.2)
    else some (fp, s)

/-- The loop of `u_task` with the two branches for an address width that is
neither 1 nor 2 left out: a full group is sent as the burst write of the
width, a byte of the tail as the single write of the width. -/
def u_loop_writes {σ : Type} (T : Link σ) (i2c_addr N_addr write_burst filesize : Nat) :
    List Nat → UVars σ → UVars σ
  | [], v => v
  | c :: rest, v =>
    let v1 : UVars σ :=
      { v with cnt_download := (v.cnt_download + 1) % 2 ^ 32,
               writebuffer := fun k => if k = v.i - 1 then c % 256 else v.writebuffer k }
    if v1.i % write_burst = 0 then
      let v2 := ({ v1 with i := 1 }).recv
        (exchange T v1.st
          (write_frame N_addr i2c_addr ((v1.mem_addr + 2 ^ 32 - write_burst + 1) % 2 ^ 32)
            ((List.range write_burst).map v1.writebuffer)) 1 v1.rxbuffer)
      u_loop_writes T i2c_addr N_addr write_burst filesize rest
        { v2 with mem_addr := (v2.mem_addr + 1) % 2 ^ 32 }
    else if filesize - filesize % write_burst ≤ v1.mem_addr then
      let v2 := v1.recv
        (exchange T v1.st (write_frame N_addr i2c_addr v1.mem_addr [c % 256]) 1 v1.rxbuffer)
      u_loop_writes T i2c_addr N_addr write_burst filesize rest
        { v2 with i := v2.i + 1, mem_addr := (v2.mem_addr + 1) % 2 ^ 32 }
    else
      u_loop_writes T i2c_addr N_addr write_burst filesize rest
        { v1 with i := v1.i + 1, mem_addr := (v1.mem_addr + 1) % 2 ^ 32 }

instance (r : List Nat) : Decidable (write_acked r) := by
  unfold write_acked; exact inferInstance

/-- The five commands of a capacity probe for candidate `n` in the order of
the description: read of address 0, read of address `n`, write of `v + 1`
to address 0, read of address `n` again, write of `v` back to address 0
(the frames carry the address and the data modulo their width). -/
def probe_commands (addressing i2c_addr n v : Nat) : List (List Nat) :=
  [read_frame addressing i2c_addr 0,
   read_frame addressing i2c_addr (if addressing = 2 then n % 65536 else n),
   write_frame addressing i2c_addr 0 [v + 1],
   read_frame addressing i2c_addr (if addressing = 2 then n % 65536 else n),
   write_frame addressing i2c_addr 0 [v]]

/-- First data byte of a response to a read command. -/
def data_byte (r : List Nat) : Nat :=
  r.getD 1 0 % 256

/-- Number of commands of a capacity probe that are issued when the `j`-th
command is answered by `resp j`: the probe ends after the first command
that is not acknowledged, and after the second read when the two reads
differ in their first data byte. -/
def probe_issued (resp : Nat → List Nat) : Nat :=
  if ¬ read_acked (resp 0) then 1
  else if ¬ read_acked (resp 1) ∨ data_byte (resp 1) ≠ data_byte (resp 0) then 2
  else if ¬ write_acked (resp 2) then 3
  else if ¬ read_acked (resp 3) then 4
  else 5

/-- A device behind the link on which, for the address width `N_addr`, every
read command is acknowledged and leaves the byte at address 0 alone, the
read of address 0 returns the byte at address 0 as its first data byte, and
every single-byte write to address 0 is acknowledged and stores its byte
there; `cell s` is the byte at address 0 in the device state `s`. -/
def remembers0 {σ : Type} (T : Link σ) (i2c_addr N_addr : Nat) (cell : σ → Nat) : Prop :=
  (∀ (s : σ) (a : Nat) (rx : Nat → Nat),
    readOk (exchange T s (read_frame N_addr i2c_addr a) RX_BUFFER_SIZE rx).1
      (exchange T s (read_frame N_addr i2c_addr a) RX_BUFFER_SIZE rx).2.1 ≠ 0 ∧
    cell (exchange T s (read_frame N_addr i2c_addr a) RX_BUFFER_SIZE rx).2.2 = cell s) ∧
  (∀ (s : σ) (rx : Nat → Nat),
    (exchange T s (read_frame N_addr i2c_addr 0) RX_BUFFER_SIZE rx).1 1 = cell s) ∧
  (∀ (s : σ) (x : Nat) (rx : Nat → Nat),
    writeOk (exchange T s (write_frame N_addr i2c_addr 0 [x]) 1 rx).1
      (exchange T s (write_frame N_addr i2c_addr 0 [x]) 1 rx).2.1 ≠ 0 ∧
    cell (exchange T s (write_frame N_addr i2c_addr 0 [x]) 1 rx).2.2 = x % 256)

/-- A 1-byte-addressed memory of 1024 bytes behind a programmer with
read-burst 8. -/
def chip1024 : Chip := { width := 1, cap := 1024, burst := 8, alt := fun _ => 0 }

/-- The wait `while (!(TWCR & (1 << TWINT)));` of `i2c_startCondition` and
`i2c_writeByte` read by read: `fuel` bounds the number of reads of `TWCR`,
`none` is returned when the flag has not been seen set within it. The
source has no bound here. -/
def wait_TWINT {β : Type} (H : Board β) : Nat → β → Option β
  | 0, _ => none
  | fuel + 1, b =>
    if (H.readTWCR b).1 &&& 128 ≠ 0 then some (H.readTWCR b).2
    else wait_TWINT H fuel (H.readTWCR b).2

/-- Source `i2c_read` with the waits of the start condition and of the
address byte carried out read by read (`wait_TWINT`): `none` when one of
them does not end within `fuel` reads of `TWCR`. -/
def i2c_read_polled {β : Type} (H : Board β) (fuel address : Nat) (buffer : Nat → Nat)
    (length : Nat) (b : β) : Option (Nat × (Nat → Nat) × β) :=
  match wait_TWINT H fuel (H.setTWCR b 0xA4) with
  | none => none
  | some b1 =>
    match wait_TWINT H fuel (H.setTWCR (H.setTWDR b1 ((2 * address + 1) % 256)) 0x84) with
    | none => none
    | some b2 => some (i2c_read_bytes H length length 0 buffer b2)

/-- State of a two-wire interface whose completion flag follows a given
course: the number `w` of writes to `TWCR` so far, the number `k` of reads
of `TWCR` since the last of them, the values written to `TWCR` in order, and
for every write to `TWCR` the number of reads of `TWCR` that went before it
since the write before. -/
structure Twi where
  w : Nat
  k : Nat
  requests : List Nat
  counts : List Nat

/-- The course of the completion flag: `fs k` is the flag at the `k`-th
read of `TWCR` (from 0) after the start condition was requested, `fa k`
after the address byte, `fb i k` after the request for data byte `i`. -/
def flag_at (fs fa : Nat → Bool) (fb : Nat → Nat → Bool) (w k : Nat) : Bool :=
  if w = 1 then fs k else if w = 2 then fa k else fb (w - 3) k

/-- A two-wire interface whose completion flag follows the course `fs`,
`fa`, `fb` whatever it is, and whose data register holds `data i` once data
byte `i` is complete. `waitTWINT` is not used by `i2c_read_polled`. -/
def flagBoard (fs fa : Nat → Bool) (fb : Nat → Nat → Bool) (data : Nat → Nat) : Board Twi where
  setTWCR b x :=
    { w := b.w + 1, k := 0, requests := b.requests ++ [x], counts := b.counts ++ [b.k] }
  setTWDR b _ := b
  readTWCR b := (if flag_at fs fa fb b.w b.k then 0x80 else 0x00, { b with k := b.k + 1 })
  waitTWINT b := b
  TWDR b := data (b.w - 3)
  TWSR _ := 0
  PORTD _ := 0
  setPORTD b _ := b
  PIND _ := 0
  PINE _ := 0

/-- The two-wire interface before the first access. -/
def Twi.idle : Twi := { w := 0, k := 0, requests := [], counts := [] }

/-- The value written to `TWCR` to request data byte `i` of `length`:
acknowledge (`TWEA`) is set for every byte but the last. -/
def byte_request (length i : Nat) : Nat :=
  if i + 1 = length then 0x84 else 0xC4

/-! # Verification -/

/-! ## Autodetection: return contract -/

section Autodetect

variable {σ : Type}

theorem m_state1_frame (T : Link σ) (i2c_addr : Nat) (v : MVars σ) (h : v.state = 1) :
    ((m_state1 T i2c_addr v).state = 1 ∨ (m_state1 T i2c_addr v).state = 2) ∧
    (m_state1 T i2c_addr v).N_bytes = v.N_bytes ∧
    (m_state1 T i2c_addr v).ret = v.ret := by
  simp only [m_state1, MVars.recv, h, if_true]
  split_ifs <;> simp

theorem m_state2_frame (T : Link σ) (i2c_addr : Nat) (v : MVars σ) :
    ((m_state2 T i2c_addr v).state = v.state ∨
      (v.state = 2 ∧ (m_state2 T i2c_addr v).state = 3)) ∧
    (m_state2 T i2c_addr v).N_bytes = v.N_bytes ∧
    (m_state2 T i2c_addr v).ret = v.ret := by
  simp only [m_state2, MVars.recv]
  split_ifs <;> simp [*]

theorem m_state3_frame (T : Link σ) (i2c_addr : Nat) (v : MVars σ) :
    ((m_state3 T i2c_addr v).state = v.state ∨
      (v.state = 3 ∧ (m_state3 T i2c_addr v).state = 4)) ∧
    (m_state3 T i2c_addr v).N_bytes = v.N_bytes ∧
    (m_state3 T i2c_addr v).ret = v.ret := by
  simp only [m_state3, MVars.recv]
  split_ifs <;> simp [*]

theorem m_state4_frame (T : Link σ) (i2c_addr : Nat) (v : MVars σ) :
    ((m_state4 T i2c_addr v).state = v.state ∨
      (v.state = 4 ∧ (m_state4 T i2c_addr v).state = 5)) ∧
    (m_state4 T i2c_addr v).N_bytes = v.N_bytes ∧
    (m_state4 T i2c_addr v).ret = v.ret := by
  simp only [m_state4, MVars.recv]
  split_ifs <;> simp [*]

theorem m_state5_frame (T : Link σ) (i2c_addr : Nat) (v : MVars σ) :
    ((m_state5 T i2c_addr v).state = v.state ∨
      (v.state = 5 ∧ (m_state5 T i2c_addr v).state = 6 ∧
        ((m_state5 T i2c_addr v).N_addr = 1 ∨ (m_state5 T i2c_addr v).N_addr = 2))) ∧
    (m_state5 T i2c_addr v).N_bytes = v.N_bytes ∧
    (m_state5 T i2c_addr v).ret = v.ret := by
  simp only [m_state5, MVars.recv]
  split_ifs <;> simp [*]

/-- After states 1 to 5 the state is one of 1..6, `*N_bytes` is untouched
and state 6 is only entered with an inferred width of 1 or 2. -/
theorem m_states_1_5_frame (T : Link σ) (i2c_addr : Nat) (v : MVars σ) :
    1 ≤ (m_states_1_5 T i2c_addr v).state ∧ (m_states_1_5 T i2c_addr v).state ≤ 6 ∧
    (m_states_1_5 T i2c_addr v).N_bytes = v.N_bytes ∧
    ((m_states_1_5 T i2c_addr v).state = 6 →
      (m_states_1_5 T i2c_addr v).N_addr = 1 ∨ (m_states_1_5 T i2c_addr v).N_addr = 2) := by
  unfold m_states_1_5
  have h1 := m_state1_frame T i2c_addr { v with ret := 0, state := 1 } rfl
  generalize m_state1 T i2c_addr { v with ret := 0, state := 1 } = v1 at h1 ⊢
  have h2 := m_state2_frame T i2c_addr v1
  generalize m_state2 T i2c_addr v1 = v2 at h2 ⊢
  have h3 := m_state3_frame T i2c_addr v2
  generalize m_state3 T i2c_addr v2 = v3 at h3 ⊢
  have h4 := m_state4_frame T i2c_addr v3
  generalize m_state4 T i2c_addr v3 = v4 at h4 ⊢
  have h5 := m_state5_frame T i2c_addr v4
  generalize m_state5 T i2c_addr v4 = v5 at h5 ⊢
  simp only at h1
  refine ⟨by omega, by omega, by omega, ?_⟩
  intro h6
  rcases h5.1 with h | h
  · omega
  · exact h.2.2

/-- The capacity search started at candidate `128 * 2 ^ j` with fuel for
the `10 - j` candidates left returns: either in state 7 with the confirmed
candidate in `*N_bytes`, or in state 6 with `*N_bytes` untouched. -/
theorem m_scan_returns (T : Link σ) (i2c_addr : Nat) :
    ∀ (fuel j : Nat) (v : MVars σ), v.L = 128 * 2 ^ j → j < 10 → 10 ≤ fuel + j →
      v.state = 6 →
      ∃ r, m_scan T i2c_addr fuel v = some r ∧ r.N_addr = v.N_addr ∧ r.ret = v.ret ∧
        ((r.state = 7 ∧ r.N_bytes = r.L ∧ ∃ k, j ≤ k ∧ k < 10 ∧ r.L = 128 * 2 ^ k) ∨
         (r.state = 6 ∧ r.N_bytes = v.N_bytes)) := by
  intro fuel
  induction fuel with
  | zero => intro j v _ hj hf _; omega
  | succ fuel ih =>
    intro j v hL hj hf hs
    unfold m_scan
    split_ifs with ht hle
    · exact ⟨_, rfl, rfl, rfl, Or.inl ⟨rfl, rfl, j, le_refl j, hj, hL⟩⟩
    · have hj1 : j + 1 < 10 := by
        by_contra hc
        have h9 : j = 9 := by omega
        subst h9
        rw [hL] at hle
        norm_num at hle
      obtain ⟨r, hr, ha, hret, hcase⟩ := ih (j + 1)
        { v with st := (TestIfSizeIs T v.L i2c_addr v.N_addr v.st).2,
                 L := v.L * 2, MODEL := v.MODEL * 2 }
        (by simp only [hL, pow_succ]; ring) hj1 (by omega) hs
      refine ⟨r, hr, ha, hret, ?_⟩
      rcases hcase with ⟨h7, hb, k, hk, hk10, hrl⟩ | h6
      · exact Or.inl ⟨h7, hb, k, by omega, hk10, hrl⟩
      · exact Or.inr h6
    · exact ⟨_, rfl, rfl, rfl, Or.inr ⟨hs, rfl⟩⟩

end Autodetect

/-- Claim C5. With fuel for the ten candidates `m_task` returns; it returns
1 exactly when it ends in state 7 and 0 otherwise; when it returns 0,
`*N_addr` is the address-derived default `((i2c_addr & 0x04) >> 2) + 1`,
which is 1 or 2 and never 0, and `*N_bytes` is what it was on entry; when it
returns 1, `*N_addr` is the width inferred in state 5 (1 or 2) and
`*N_bytes` is the confirmed candidate `L`, one of 128, 256, ..., 65536. -/
theorem m_task_return_contract {σ : Type} (T : Link σ) (fuel i2c_addr : Nat)
    (v : MVars σ) (hf : 10 ≤ fuel) :
    ∃ r, m_task T fuel i2c_addr v = some r ∧
      (r.ret = 1 ↔ r.state = 7) ∧ (r.ret = 0 ∨ r.ret = 1) ∧
      (r.ret = 0 →
        r.N_addr = N_addr_default i2c_addr ∧ (r.N_addr = 1 ∨ r.N_addr = 2) ∧
        r.N_bytes = v.N_bytes) ∧
      (r.ret = 1 →
        r.N_addr = (m_states_1_5 T i2c_addr v).N_addr ∧ (r.N_addr = 1 ∨ r.N_addr = 2) ∧
        r.N_bytes = r.L ∧ ∃ k, k < 10 ∧ r.L = 128 * 2 ^ k) := by
  obtain ⟨h1, h6, hb, hw⟩ := m_states_1_5_frame T i2c_addr v
  have hdef : N_addr_default i2c_addr = 1 ∨ N_addr_default i2c_addr = 2 := by
    unfold N_addr_default; omega
  unfold m_task m_state6
  generalize m_states_1_5 T i2c_addr v = w at h1 h6 hb hw ⊢
  by_cases hs : w.state = 6
  · obtain ⟨r, hr, ha, _, hcase⟩ := m_scan_returns T i2c_addr fuel 0
      { w with L := 128, MODEL := 1 } (by simp) (by omega) (by omega) hs
    rw [if_pos hs, hr, Option.map_some']
    refine ⟨_, rfl, ?_⟩
    rcases hcase with ⟨h7, hn, k, _, hk, hL⟩ | ⟨hs6, hn⟩
    · have hsw : m_switch i2c_addr r = { r with ret := 1 } := by
        simp [m_switch, h7]
      rw [hsw]
      simp only [h7, true_iff, one_ne_zero, or_true, false_imp_iff, true_and, forall_true_left]
      simp only at ha
      exact ⟨ha, by rw [ha]; exact hw hs, hn, k, hk, hL⟩
    · have hsw : m_switch i2c_addr r = { r with N_addr := N_addr_default i2c_addr, ret := 0 } := by
        simp [m_switch, hs6]
      rw [hsw]
      simp only at hn
      simp [hs6, hdef, hn, hb]
  · rw [if_neg hs, Option.map_some']
    refine ⟨_, rfl, ?_⟩
    have hsw : m_switch i2c_addr w = { w with N_addr := N_addr_default i2c_addr, ret := 0 } := by
      have : w.state = 1 ∨ w.state = 2 ∨ w.state = 3 ∨ w.state = 4 ∨ w.state = 5 ∨ w.state = 6 := by
        omega
      simp [m_switch, this]
    rw [hsw]
    have h7 : w.state ≠ 7 := by omega
    simp [h7, hdef, hb]

/-- Witness for C5 on the ideal 512-byte memory at device address 0x54. -/
theorem m_task_return_contract_witness :
    10 ≤ 10 ∧
    ∃ r, m_task (ideal chip512) 10 0x54 (MVars.entry (fun _ => 0) 0 0 0) = some r ∧
      (r.ret = 1 ↔ r.state = 7) ∧ (r.ret = 0 ∨ r.ret = 1) ∧
      (r.ret = 0 →
        r.N_addr = N_addr_default 0x54 ∧ (r.N_addr = 1 ∨ r.N_addr = 2) ∧
        r.N_bytes = (MVars.entry (fun _ => 0) 0 0 0 : MVars (Nat → Nat)).N_bytes) ∧
      (r.ret = 1 →
        r.N_addr = (m_states_1_5 (ideal chip512) 0x54 (MVars.entry (fun _ => 0) 0 0 0)).N_addr ∧
        (r.N_addr = 1 ∨ r.N_addr = 2) ∧
        r.N_bytes = r.L ∧ ∃ k, k < 10 ∧ r.L = 128 * 2 ^ k) :=
  ⟨by decide, m_task_return_contract (ideal chip512) 10 0x54 _ (by decide)⟩

/-! ## Upload: the sequence of write commands -/

theorem exchange_send {σ : Type} (T : Link σ) (s : σ) (tx : List Nat) (rx : Nat → Nat) :
    (exchange T s tx 1 rx).2.2 = send T s tx := rfl

theorem foldl_send_scripted (resp : Nat → List Nat) (frames log : List (List Nat)) :
    frames.foldl (send (scripted resp)) log = log ++ frames := by
  induction frames generalizing log with
  | nil => simp
  | cons tx rest ih =>
    rw [List.foldl_cons, ih]
    simp [send, scripted]

theorem drop_cons_facts {F : List Nat} {m c : Nat} {rest : List Nat}
    (h : F.drop m = c :: rest) : m < F.length ∧ F.getD m 0 = c ∧ F.drop (m + 1) = rest := by
  have hm : m < F.length := by
    by_contra hc
    rw [List.drop_of_length_le (by omega)] at h
    cases h
  refine ⟨hm, ?_, ?_⟩
  · have h0 : (F.drop m)[0]? = some c := by rw [h]; simp
    rw [List.getElem?_drop] at h0
    simp only [add_zero] at h0
    simp [List.getD_eq_getElem?_getD, h0]
  · have := congrArg List.tail h
    simpa [List.tail_drop] using this


theorem sent_after_burst (N_addr i2c_addr wb : Nat) (F : List Nat)
    (hwb : wb = 1 ∨ wb = 8 ∨ wb = 16 ∨ wb = 32) (m : Nat) (hm : m < F.length)
    (h : (m % wb + 1) % wb = 0) :
    sent_after N_addr i2c_addr wb F (m + 1) =
      sent_after N_addr i2c_addr wb F m ++
        [write_frame N_addr i2c_addr (m + 1 - wb)
          ((List.range wb).map (fun k => F.getD (m + 1 - wb + k) 0))] := by
  unfold sent_after
  have e1 : min (m + 1) (F.length / wb * wb) / wb = min m (F.length / wb * wb) / wb + 1 := by
    rcases hwb with rfl | rfl | rfl | rfl <;> omega
  have e2 : m + 1 - F.length / wb * wb = 0 := by
    rcases hwb with rfl | rfl | rfl | rfl <;> omega
  have e3 : m - F.length / wb * wb = 0 := by omega
  have e4 : min m (F.length / wb * wb) / wb * wb = m + 1 - wb := by
    rcases hwb with rfl | rfl | rfl | rfl <;> omega
  rw [e1, e2, e3, List.range_succ, List.map_append]
  simp [e4]

theorem sent_after_single (N_addr i2c_addr wb : Nat) (F : List Nat)
    (hwb : wb = 1 ∨ wb = 8 ∨ wb = 16 ∨ wb = 32) (m : Nat)
    (h : F.length - F.length % wb ≤ m) :
    sent_after N_addr i2c_addr wb F (m + 1) =
      sent_after N_addr i2c_addr wb F m ++
        [write_frame N_addr i2c_addr m [F.getD m 0]] := by
  unfold sent_after
  have e1 : min (m + 1) (F.length / wb * wb) = min m (F.length / wb * wb) := by
    rcases hwb with rfl | rfl | rfl | rfl <;> omega
  have e2 : m + 1 - F.length / wb * wb = (m - F.length / wb * wb) + 1 := by
    rcases hwb with rfl | rfl | rfl | rfl <;> omega
  have e4 : F.length / wb * wb + (m - F.length / wb * wb) = m := by
    rcases hwb with rfl | rfl | rfl | rfl <;> omega
  rw [e1, e2, List.range_succ, List.map_append]
  simp [e4]

theorem sent_after_skip (N_addr i2c_addr wb : Nat) (F : List Nat)
    (hwb : wb = 1 ∨ wb = 8 ∨ wb = 16 ∨ wb = 32) (m : Nat)
    (h1 : (m % wb + 1) % wb ≠ 0) (h : ¬ F.length - F.length % wb ≤ m) :
    sent_after N_addr i2c_addr wb F (m + 1) = sent_after N_addr i2c_addr wb F m := by
  unfold sent_after
  have e1 : min (m + 1) (F.length / wb * wb) / wb = min m (F.length / wb * wb) / wb := by
    rcases hwb with rfl | rfl | rfl | rfl <;> omega
  have e2 : m + 1 - F.length / wb * wb = 0 := by
    rcases hwb with rfl | rfl | rfl | rfl <;> omega
  have e3 : m - F.length / wb * wb = 0 := by omega
  rw [e1, e2, e3]


theorem write_frame_payload_congr (N_addr i2c_addr a : Nat) (n : Nat) (f g : Nat → Nat)
    (h : ∀ k, k < n → f k % 256 = g k % 256) :
    write_frame N_addr i2c_addr a ((List.range n).map f) =
      write_frame N_addr i2c_addr a ((List.range n).map g) := by
  have : ((List.range n).map f).map (· % 256) = ((List.range n).map g).map (· % 256) := by
    simp only [List.map_map]
    apply List.map_congr_left
    intro k hk
    exact h k (List.mem_range.mp hk)
  unfold write_frame frame_W frame_w
  rw [this]

/-- Loop invariant of the upload: once `m` bytes of the file are consumed
the link has seen exactly the frames `sent_after ... m`, whatever it
answered. -/
theorem u_loop_sends {σ : Type} (T : Link σ) (s0 : σ) (i2c_addr N_addr wb : Nat)
    (F : List Nat)
    (hwb : wb = 1 ∨ wb = 8 ∨ wb = 16 ∨ wb = 32) (hN : N_addr = 1 ∨ N_addr = 2)
    (hL : F.length < 2 ^ 32) :
    ∀ (rest : List Nat) (m : Nat) (v : UVars σ),
      F.drop m = rest → m ≤ F.length → v.mem_addr = m → v.i = m % wb + 1 →
      (∀ k, k < m % wb → v.writebuffer k = F.getD (m - m % wb + k) 0 % 256) →
      v.st = (sent_after N_addr i2c_addr wb F m).foldl (send T) s0 →
      (u_loop T i2c_addr N_addr wb F.length rest v).st =
        (sent_after N_addr i2c_addr wb F F.length).foldl (send T) s0 := by
  intro rest
  induction rest with
  | nil =>
    intro m v hd hml _ _ _ hs
    have : F.length ≤ m := List.drop_eq_nil_iff.mp hd
    have hm : m = F.length := by omega
    subst hm
    simpa [u_loop] using hs
  | cons c rest ih =>
    intro m v hd _ hm hi hb hs
    obtain ⟨hlt, hc, hd1⟩ := drop_cons_facts hd
    have hbuf : ∀ k, k < m % wb + 1 →
        (fun k => if k = m % wb + 1 - 1 then c % 256 else v.writebuffer k) k % 256 =
          F.getD (m - m % wb + k) 0 % 256 := by
      intro k hk
      by_cases hkm : k = m % wb
      · have : m - m % wb + k = m := by
          have := Nat.mod_le m wb
          omega
        rw [this, hc]
        simp [hkm]
      · have hk2 : k < m % wb := by omega
        have : ¬ k = m % wb + 1 - 1 := by omega
        simp only [this, if_false, hb k hk2, Nat.mod_mod]
    by_cases h1 : (m % wb + 1) % wb = 0
    · have haddr : (m + 2 ^ 32 - wb + 1) % 2 ^ 32 = m + 1 - wb := by
        rcases hwb with rfl | rfl | rfl | rfl <;> omega
      have hwm : m % wb + 1 = wb := by
        rcases hwb with rfl | rfl | rfl | rfl <;> omega
      have hbase : m - m % wb = m + 1 - wb := by omega
      have hnext : (m + 1) % wb = 0 := by
        rcases hwb with rfl | rfl | rfl | rfl <;> omega
      have hfr : ∀ wf : Nat → List Nat → List Nat,
          wf = write_frame N_addr i2c_addr →
          sent_after N_addr i2c_addr wb F m ++
            [wf (m + 1 - wb)
              ((List.range wb).map
                (fun k => if k = m % wb + 1 - 1 then c % 256 else v.writebuffer k))] =
          sent_after N_addr i2c_addr wb F (m + 1) := by
        intro wf hwf
        subst hwf
        rw [sent_after_burst N_addr i2c_addr wb F hwb m hlt h1]
        congr 2
        apply write_frame_payload_congr
        intro k hk
        have := hbuf k (by omega)
        rw [hbase] at this
        exact this
      rcases hN with rfl | rfl
      · rw [u_loop]
        simp only [hi, h1, if_true, hm, haddr, UVars.recv, write_to_eeprom_burst,
          exchange_send, OfNat.ofNat_ne_one, if_false]
        apply ih (m + 1) _ hd1 (by omega)
        · simp
          omega
        · simp [hnext]
        · intro k hk
          omega
        · rw [← hfr (frame_w i2c_addr) (by funext a d; simp [write_frame]),
            List.foldl_append, ← hs]
          rfl
      · rw [u_loop]
        simp only [hi, h1, if_true, hm, haddr, UVars.recv, Write_to_eeprom_burst,
          exchange_send]
        apply ih (m + 1) _ hd1 (by omega)
        · simp
          omega
        · simp [hnext]
        · intro k hk
          omega
        · rw [← hfr (frame_W i2c_addr) (by funext a d; simp [write_frame]),
            List.foldl_append, ← hs]
          rfl
    · have hnext : (m + 1) % wb = m % wb + 1 := by
        rcases hwb with rfl | rfl | rfl | rfl <;> omega
      have hbase : m + 1 - (m % wb + 1) = m - m % wb := by omega
      have hbuf1 : ∀ k, k < (m + 1) % wb →
          (fun k => if k = m % wb + 1 - 1 then c % 256 else v.writebuffer k) k =
            F.getD (m + 1 - (m + 1) % wb + k) 0 % 256 := by
        intro k hk
        rw [hnext] at hk ⊢
        rw [hbase]
        by_cases hkm : k = m % wb
        · have : m - m % wb + k = m := by
            have := Nat.mod_le m wb
            omega
          rw [this, hc]
          simp [hkm]
        · have hk2 : k < m % wb := by omega
          have : ¬ k = m % wb + 1 - 1 := by omega
          simp only [this, if_false, hb k hk2]
      by_cases h2 : F.length - F.length % wb ≤ m
      · have hlog := sent_after_single N_addr i2c_addr wb F hwb m h2
        rw [hc] at hlog
        rcases hN with rfl | rfl
        · rw [u_loop]
          simp only [hi, h1, if_false, hm, h2, if_true, UVars.recv, write_to_eeprom,
            exchange_send, OfNat.ofNat_ne_one]
          apply ih (m + 1) _ hd1 (by omega)
          · simp
            omega
          · simp [hnext]
          · exact hbuf1
          · rw [hlog, List.foldl_append, ← hs]
            simp [write_frame, frame_w]
        · rw [u_loop]
          simp only [hi, h1, if_false, hm, h2, if_true, UVars.recv, Write_to_eeprom,
            exchange_send]
          apply ih (m + 1) _ hd1 (by omega)
          · simp
            omega
          · simp [hnext]
          · exact hbuf1
          · rw [hlog, List.foldl_append, ← hs]
            simp [write_frame, frame_W]
      · have hlog := sent_after_skip N_addr i2c_addr wb F hwb m h1 h2
        rw [u_loop]
        simp only [hi, h1, if_false, hm, h2]
        apply ih (m + 1) _ hd1 (by omega)
        · simp
          omega
        · simp [hnext]
        · exact hbuf1
        · simp only [hs, hlog]


/-- Claim C7. For a file `F` (shorter than 2^32 bytes), write burst 1, 8,
16 or 32 and address width 1 or 2, whatever the programmer answers, the
commands `u_task` sends are, in order: `F.length / wb` burst writes, the
`j`-th at address `j * wb` with the `wb` file bytes `j*wb .. j*wb+wb-1`,
then `F.length % wb` single-byte writes at the addresses from
`F.length / wb * wb` to `F.length - 1`, each with the file byte at that
offset (the frame carries the address modulo 256 resp. 65536). All burst
bytes are file bytes, so no burst is short, and the offsets covered are
exactly `0 .. F.length - 1`, each once. -/
theorem u_task_write_sequence (resp : Nat → List Nat)
    (i2c_addr N_addr N_bytes wb : Nat) (F : List Nat) (writebuffer rxbuffer : Nat → Nat)
    (hwb : wb = 1 ∨ wb = 8 ∨ wb = 16 ∨ wb = 32) (hN : N_addr = 1 ∨ N_addr = 2)
    (hL : F.length < 2 ^ 32) :
    (u_task (scripted resp) i2c_addr N_addr N_bytes wb (some F) writebuffer rxbuffer []).st =
      (List.range (F.length / wb)).map
          (fun j => write_frame N_addr i2c_addr (j * wb)
            ((List.range wb).map (fun k => F.getD (j * wb + k) 0))) ++
      (List.range (F.length % wb)).map
          (fun t => write_frame N_addr i2c_addr (F.length / wb * wb + t)
            [F.getD (F.length / wb * wb + t) 0]) ∧
    (∀ j k, j < F.length / wb → k < wb → j * wb + k < F.length / wb * wb) ∧
    (∀ t, t < F.length % wb → F.length / wb * wb + t < F.length) ∧
    (∀ o, o < F.length →
      (o < F.length / wb * wb ∧ o / wb < F.length / wb ∧ o % wb < wb ∧
        o = o / wb * wb + o % wb) ∨
      (F.length / wb * wb ≤ o ∧ o - F.length / wb * wb < F.length % wb)) := by
  have hw : width_or_default i2c_addr N_addr = N_addr := by
    unfold width_or_default
    rcases hN with rfl | rfl <;> simp
  refine ⟨?_, ?_, ?_, ?_⟩
  · have key := u_loop_sends (scripted resp) [] i2c_addr N_addr wb F hwb hN hL F 0
      { st := [], i := 1, mem_addr := 0, cnt_download := 0,
        writebuffer := writebuffer, rxbuffer := rxbuffer, read_N := 0 }
      rfl (Nat.zero_le _) rfl
      (by rcases hwb with rfl | rfl | rfl | rfl <;> rfl)
      (by intro k hk; simp at hk)
      (by simp [sent_after])
    simp only [u_task, hw, key, foldl_send_scripted, List.nil_append, sent_after]
    have e1 : min F.length (F.length / wb * wb) / wb = F.length / wb := by
      rcases hwb with rfl | rfl | rfl | rfl <;> omega
    have e2 : F.length - F.length / wb * wb = F.length % wb := by
      rcases hwb with rfl | rfl | rfl | rfl <;> omega
    rw [e1, e2]
  · intro j k hj hk
    rcases hwb with rfl | rfl | rfl | rfl <;> omega
  · intro t ht
    rcases hwb with rfl | rfl | rfl | rfl <;> omega
  · intro o ho
    rcases hwb with rfl | rfl | rfl | rfl <;> omega

/-- Witness for C7: the ten sample bytes, device 0x50, 1-byte addressing,
write burst 8. -/
theorem u_task_write_sequence_witness :
    ((8 : Nat) = 1 ∨ (8 : Nat) = 8 ∨ (8 : Nat) = 16 ∨ (8 : Nat) = 32) ∧
    ((1 : Nat) = 1 ∨ (1 : Nat) = 2) ∧ sampleFile.length < 2 ^ 32 ∧
    (u_task (scripted (fun _ => [0x06])) 0x50 1 0 8 (some sampleFile)
        (fun _ => 0) (fun _ => 0) []).st =
      (List.range (sampleFile.length / 8)).map
          (fun j => write_frame 1 0x50 (j * 8)
            ((List.range 8).map (fun k => sampleFile.getD (j * 8 + k) 0))) ++
      (List.range (sampleFile.length % 8)).map
          (fun t => write_frame 1 0x50 (sampleFile.length / 8 * 8 + t)
            [sampleFile.getD (sampleFile.length / 8 * 8 + t) 0]) :=
  ⟨by decide, by decide, by decide,
    (u_task_write_sequence (fun _ => [0x06]) 0x50 1 0 8 sampleFile (fun _ => 0) (fun _ => 0)
      (by decide) (by decide) (by decide)).1⟩

/-! ## Evaluations at concrete inputs -/

/-- Claim C2, evaluated at the failing input: the programmer does not
answer the very first command, the read (1.A) of state 1, so `readOk` gives
0 for it. `m_task` nevertheless sends the read (1.B) and ten more commands,
walks through the states up to 7 and returns 1 with width 2 and capacity
128. -/
theorem m_task_goes_on_after_unacknowledged_read :
    readOk (fill (fun _ => 0) ((lostFirst 0).take RX_BUFFER_SIZE))
      ((lostFirst 0).take RX_BUFFER_SIZE).length = 0 ∧
    (m_task (scripted lostFirst) 10 0x54 (MVars.entry [] 0 0 0)).map
        (fun r => (r.ret, r.state, r.N_addr, r.N_bytes, r.st)) =
      some (1, 7, 2, 128,
        [frame_r 0x54 0, frame_r 0x54 1, frame_R 0x54 0, frame_W 0x54 0 [1], frame_R 0x54 0,
         frame_W 0x54 0 [1], frame_R 0x54 0, frame_R 0x54 128, frame_W 0x54 0 [2],
         frame_R 0x54 128, frame_W 0x54 0 [1]]) := by
  decide

/-- Claim C8, evaluated at the failing input: the programmer answers NACK
(0x3F) to every command, so `writeOk` gives 0 for the first write already;
`u_task` still sends the writes for all three bytes of the file and returns
1. -/
theorem u_task_goes_on_after_failed_write :
    writeOk (fill (fun _ => 0) ([0x3F].take 1)) ([0x3F].take 1).length = 0 ∧
    (u_task (scripted (fun _ => [0x3F])) 0x50 1 0 1 (some [0x11, 0x22, 0x33])
        (fun _ => 0) (fun _ => 0) []).st =
      [frame_w 0x50 0 [0x11], frame_w 0x50 1 [0x22], frame_w 0x50 2 [0x33]] ∧
    (u_task (scripted (fun _ => [0x3F])) 0x50 1 0 1 (some [0x11, 0x22, 0x33])
        (fun _ => 0) (fun _ => 0) []).ret = 1 := by
  decide

/-- Claim C1 is false as stated: on the ideal 512-byte memory holding 0
everywhere, with exactly one command lost, the read back of state 4,
`m_task` returns 0 from state 4 and address 0 holds the probe value 1
instead of the original 0. -/
theorem m_task_lost_readback_leaves_probe_value :
    (fun _ => 0 : Nat → Nat) 0 = 0 ∧
    (m_task (flaky (ideal chip512)) 10 0x54 (MVars.entry (fun _ => 0, some 4) 0 0 0)).map
        (fun r => (r.ret, r.state, r.st.1 0, r.st.2)) = some (0, 4, 1, none) := by
  decide

set_option maxRecDepth 100000 in
/-- Claim C9 is false as stated: capacity 128 (accepted by `-L`), read
burst 24 (accepted by `-r`), 1-byte addressing and every read acknowledged
with 24 data bytes: six reads are issued, at offsets 0, 24, ..., 120, and
the output file has 144 bytes, not 128. -/
theorem d_task_overshoots_capacity :
    readOk (fill (fun _ => 0) (ack24.take RX_BUFFER_SIZE)) (ack24.take RX_BUFFER_SIZE).length ≠ 0 ∧
    (d_task (scripted (fun _ => ack24)) 128 0x50 1 128 24 (fun _ => 0) []).map
        (fun r => (r.ret, r.N_bytes, r.file.length, r.st)) =
      some (1, 128, 144,
        [frame_r 0x50 0, frame_r 0x50 24, frame_r 0x50 48, frame_r 0x50 72, frame_r 0x50 96,
         frame_r 0x50 120]) := by
  decide

/-! ## Download -/

theorem readOk_fill (rx : Nat → Nat) (r : List Nat) :
    readOk (fill rx r) r.length = readOk (fill (fun _ => 0) r) r.length := by
  unfold readOk fill
  by_cases h : 2 ≤ r.length
  · have h0 : 0 < r.length := by omega
    simp [h, h0]
  · simp [h]

theorem d_loop_exit (resp : Nat → List Nat) (i2c_addr N_addr N_bytes rb fuel addr : Nat)
    (rx : Nat → Nat) (fp : List Nat) (log : List (List Nat)) (h : ¬ addr < N_bytes) :
    d_loop (scripted resp) i2c_addr N_addr N_bytes rb fuel addr rx fp log = some (fp, log) := by
  unfold d_loop
  simp [h]

theorem d_loop_ok_step (resp : Nat → List Nat) (i2c_addr N_addr N_bytes rb fuel addr : Nat)
    (rx : Nat → Nat) (fp : List Nat) (log : List (List Nat))
    (hN : N_addr = 1 ∨ N_addr = 2) (h : addr < N_bytes) (hok : read_acked (resp log.length)) :
    d_loop (scripted resp) i2c_addr N_addr N_bytes rb (fuel + 1) addr rx fp log =
      d_loop (scripted resp) i2c_addr N_addr N_bytes rb fuel ((addr + rb) % 2 ^ 32)
        (fill rx ((resp log.length).take RX_BUFFER_SIZE))
        (fp ++ (List.range rb).map
          (fun i => fill rx ((resp log.length).take RX_BUFFER_SIZE) (1 + i)))
        (log ++ [read_frame N_addr i2c_addr addr]) := by
  unfold read_acked at hok
  rw [← readOk_fill rx] at hok
  rw [d_loop]
  rcases hN with rfl | rfl
  · simp only [h, if_true, OfNat.ofNat_ne_one, if_false, read_from_eeprom, exchange, scripted,
      read_frame]
    rw [if_pos hok]
    simp
  · simp only [h, if_true, Read_from_eeprom, exchange, scripted, read_frame]
    rw [if_pos hok]

theorem d_loop_fail_step (resp : Nat → List Nat) (i2c_addr N_addr N_bytes rb fuel addr : Nat)
    (rx : Nat → Nat) (fp : List Nat) (log : List (List Nat))
    (hN : N_addr = 1 ∨ N_addr = 2) (h : addr < N_bytes) (hok : ¬ read_acked (resp log.length)) :
    d_loop (scripted resp) i2c_addr N_addr N_bytes rb (fuel + 1) addr rx fp log =
      some (fp, log ++ [read_frame N_addr i2c_addr addr]) := by
  unfold read_acked at hok
  rw [← readOk_fill rx] at hok
  rw [d_loop]
  rcases hN with rfl | rfl
  · simp only [h, if_true, OfNat.ofNat_ne_one, if_false, read_from_eeprom, exchange, scripted,
      read_frame]
    rw [if_neg hok]
    simp
  · simp only [h, if_true, Read_from_eeprom, exchange, scripted, read_frame]
    rw [if_neg hok]

/-- As long as the responses are classified ok, `n` turns of the download
loop from its `j0`-th read on send `n` read commands, at the offsets
`j0 * rb, (j0 + 1) * rb, ...`, and append one chunk each. -/
theorem d_loop_ok_steps (resp : Nat → List Nat) (i2c_addr N_addr N_bytes rb : Nat)
    (rx0 : Nat → Nat) (hN : N_addr = 1 ∨ N_addr = 2) :
    ∀ (n j0 fuel : Nat) (fp : List Nat) (log : List (List Nat)),
      log.length = j0 →
      (∀ j, j0 ≤ j → j < j0 + n → read_acked (resp j)) →
      (∀ j, j0 ≤ j → j < j0 + n → j * rb < N_bytes) →
      (j0 + n) * rb < 2 ^ 32 →
      d_loop (scripted resp) i2c_addr N_addr N_bytes rb (fuel + n) (j0 * rb)
          (rx_before resp rx0 j0) fp log =
        d_loop (scripted resp) i2c_addr N_addr N_bytes rb fuel ((j0 + n) * rb)
          (rx_before resp rx0 (j0 + n))
          (fp ++ (List.range' j0 n).flatMap (chunk resp rx0 rb))
          (log ++ (List.range' j0 n).map (fun j => read_frame N_addr i2c_addr (j * rb))) := by
  intro n
  induction n with
  | zero => intro j0 fuel fp log _ _ _ _; simp
  | succ n ih =>
    intro j0 fuel fp log hlen hok hlt hmax
    have hstep := d_loop_ok_step resp i2c_addr N_addr N_bytes rb (fuel + n) (j0 * rb)
      (rx_before resp rx0 j0) fp log hN (hlt j0 (le_refl _) (by omega))
      (by rw [hlen]; exact hok j0 (le_refl _) (by omega))
    rw [hlen] at hstep
    have hmul : (j0 + 1) * rb = j0 * rb + rb := by ring
    have hmul2 : (j0 + (n + 1)) * rb = (j0 + 1 + n) * rb := by ring_nf
    have hle2 : (j0 + 1) * rb ≤ (j0 + (n + 1)) * rb := Nat.mul_le_mul_right rb (by omega)
    have hwrap : (j0 * rb + rb) % 2 ^ 32 = (j0 + 1) * rb := by
      rw [hmul] at hle2
      rw [Nat.mod_eq_of_lt (by omega), hmul]
    rw [show fuel + (n + 1) = fuel + n + 1 by omega, hstep, hwrap]
    have hih := ih (j0 + 1) fuel (fp ++ chunk resp rx0 rb j0)
      (log ++ [read_frame N_addr i2c_addr (j0 * rb)]) (by simp [hlen])
      (fun j h1 h2 => hok j (by omega) (by omega))
      (fun j h1 h2 => hlt j (by omega) (by omega))
      (by rw [← hmul2]; exact hmax)
    have hchunk : (List.range rb).map
        (fun i => fill (rx_before resp rx0 j0) ((resp j0).take RX_BUFFER_SIZE) (1 + i)) =
        chunk resp rx0 rb j0 := rfl
    have hrx : fill (rx_before resp rx0 j0) ((resp j0).take RX_BUFFER_SIZE) =
        rx_before resp rx0 (j0 + 1) := rfl
    rw [hchunk, hrx, hih, List.range'_succ, List.flatMap_cons, List.map_cons]
    simp only [List.append_assoc, List.singleton_append, hmul2]
    rw [show j0 + (n + 1) = j0 + 1 + n by omega]

theorem length_flatMap_chunk (resp : Nat → List Nat) (rx0 : Nat → Nat) (rb : Nat)
    (l : List Nat) : (l.flatMap (chunk resp rx0 rb)).length = l.length * rb := by
  induction l with
  | nil => simp
  | cons a l ih =>
    simp only [List.flatMap_cons, List.length_append, ih, List.length_cons]
    simp only [chunk, List.length_map, List.length_range]
    ring

/-- Claim C10. A download with address width 1 or 2 in which read number `k`
(from 0) is the first whose response is not classified ok by `readOk`:
`d_task` returns after exactly the `k + 1` read commands for the offsets
`0, rb, ..., k * rb` (none follows the failed one) and the output file
consists of the `k` chunks appended for the reads `0 .. k-1`, in order,
which are `k * read_burst` bytes. -/
theorem d_task_stops_at_first_failed_read (resp : Nat → List Nat)
    (fuel i2c_addr N_addr N_bytes rb k : Nat) (rx0 : Nat → Nat)
    (hN : N_addr = 1 ∨ N_addr = 2) (hB : N_bytes < 2 ^ 32)
    (hk : k * rb < bytes_or_default N_addr N_bytes)
    (hok : ∀ j, j < k → read_acked (resp j)) (hfail : ¬ read_acked (resp k))
    (hfuel : k < fuel) :
    ∃ r, d_task (scripted resp) fuel i2c_addr N_addr N_bytes rb rx0 [] = some r ∧
      r.st = (List.range (k + 1)).map (fun j => read_frame N_addr i2c_addr (j * rb)) ∧
      r.file = (List.range k).flatMap (chunk resp rx0 rb) ∧
      r.file.length = k * rb := by
  have hw : width_or_default i2c_addr N_addr = N_addr := by
    unfold width_or_default
    rcases hN with rfl | rfl <;> simp
  have hB2 : bytes_or_default N_addr N_bytes < 2 ^ 32 := by
    unfold bytes_or_default
    split_ifs <;> omega
  obtain ⟨f, rfl⟩ : ∃ f, fuel = f + 1 + k := ⟨fuel - 1 - k, by omega⟩
  have hsteps := d_loop_ok_steps resp i2c_addr N_addr (bytes_or_default N_addr N_bytes) rb rx0 hN
    k 0 (f + 1) [] [] rfl (fun j _ h => hok j (by omega))
    (fun j _ h => lt_of_le_of_lt (Nat.mul_le_mul_right rb (by omega)) hk)
    (by simp only [zero_add]; omega)
  simp only [zero_mul, zero_add, List.nil_append, rx_before] at hsteps
  have hlast := d_loop_fail_step resp i2c_addr N_addr (bytes_or_default N_addr N_bytes) rb f
    (k * rb) (rx_before resp rx0 k) ((List.range' 0 k).flatMap (chunk resp rx0 rb))
    ((List.range' 0 k).map (fun j => read_frame N_addr i2c_addr (j * rb))) hN hk
    (by simpa using hfail)
  unfold d_task
  rw [hw, hsteps, hlast]
  refine ⟨_, rfl, ?_, ?_, ?_⟩
  · simp [List.range_succ, List.range_eq_range']
  · simp [List.range_eq_range']
  · show ((List.range' 0 k).flatMap (chunk resp rx0 rb)).length = k * rb
    rw [length_flatMap_chunk, List.length_range']

/-- When the response to read `j` carries at least `rb` data bytes after the
ACK (and they fit the receive buffer), the chunk appended for it consists of
exactly these data bytes. -/
theorem chunk_eq_data (resp : Nat → List Nat) (rx0 : Nat → Nat) (rb j : Nat)
    (hlen : rb + 1 ≤ (resp j).length) (hbuf : rb + 1 ≤ RX_BUFFER_SIZE) :
    chunk resp rx0 rb j = (List.range rb).map (fun i => (resp j).getD (1 + i) 0 % 256) := by
  unfold chunk
  apply List.map_congr_left
  intro i hi
  have hi2 : i < rb := List.mem_range.mp hi
  have h1 : 1 + i < ((resp j).take RX_BUFFER_SIZE).length := by
    rw [List.length_take]
    omega
  show fill (rx_before resp rx0 j) ((resp j).take RX_BUFFER_SIZE) (1 + i) = _
  unfold fill
  rw [if_pos h1]
  congr 1
  rw [List.getD_eq_getElem?_getD, List.getD_eq_getElem?_getD, List.getElem?_take_of_lt (by omega)]

/-- Claim C9 as amended. A download with address width 1 or 2 whose
capacity (the given `N_bytes`, or the default 256 / 4096 when it is 0) is a
multiple of the read burst `rb`, as it is for every accepted capacity when
`rb` is 1, 8, 16, 32 or 64, and in which every read is classified ok:
`d_task` sends the reads for the offsets `0, rb, 2*rb, ...` below the
capacity, returns 1, and the output file has exactly `N_bytes` bytes: the
chunks of the reads in order, chunk `j` being the `rb` data bytes of the
response to the read at offset `j * rb` whenever that response carries them. -/
theorem d_task_full_download (resp : Nat → List Nat)
    (fuel i2c_addr N_addr N_bytes rb : Nat) (rx0 : Nat → Nat)
    (hN : N_addr = 1 ∨ N_addr = 2) (hB : N_bytes < 2 ^ 32) (hrb : 0 < rb)
    (hdiv : rb ∣ bytes_or_default N_addr N_bytes)
    (hok : ∀ j, j < bytes_or_default N_addr N_bytes / rb → read_acked (resp j))
    (hfuel : bytes_or_default N_addr N_bytes / rb ≤ fuel) :
    ∃ r, d_task (scripted resp) fuel i2c_addr N_addr N_bytes rb rx0 [] = some r ∧
      r.ret = 1 ∧ r.N_bytes = bytes_or_default N_addr N_bytes ∧
      r.st = (List.range (r.N_bytes / rb)).map (fun j => read_frame N_addr i2c_addr (j * rb)) ∧
      r.file = (List.range (r.N_bytes / rb)).flatMap (chunk resp rx0 rb) ∧
      r.file.length = r.N_bytes ∧
      (∀ j, j < r.N_bytes / rb → rb + 1 ≤ (resp j).length → rb + 1 ≤ RX_BUFFER_SIZE →
        chunk resp rx0 rb j = (List.range rb).map (fun i => (resp j).getD (1 + i) 0 % 256)) := by
  have hw : width_or_default i2c_addr N_addr = N_addr := by
    unfold width_or_default
    rcases hN with rfl | rfl <;> simp
  have hB2 : bytes_or_default N_addr N_bytes < 2 ^ 32 := by
    unfold bytes_or_default
    split_ifs <;> omega
  generalize hcap : bytes_or_default N_addr N_bytes = cap at *
  obtain ⟨n, rfl⟩ := hdiv
  have hn : rb * n / rb = n := Nat.mul_div_cancel_left n hrb
  rw [hn] at hok hfuel
  obtain ⟨f, rfl⟩ : ∃ f, fuel = f + n := ⟨fuel - n, by omega⟩
  have hsteps := d_loop_ok_steps resp i2c_addr N_addr (rb * n) rb rx0 hN
    n 0 f [] [] rfl (fun j _ h => hok j (by omega))
    (fun j _ h => by
      have : j * rb < n * rb := Nat.mul_lt_mul_of_pos_right (by omega) hrb
      rw [Nat.mul_comm rb n]; exact this)
    (by simp only [zero_add]; rw [Nat.mul_comm n rb]; exact hB2)
  simp only [zero_mul, zero_add, List.nil_append, rx_before] at hsteps
  have hexit := d_loop_exit resp i2c_addr N_addr (rb * n) rb f (n * rb) (rx_before resp rx0 n)
    ((List.range' 0 n).flatMap (chunk resp rx0 rb))
    ((List.range' 0 n).map (fun j => read_frame N_addr i2c_addr (j * rb)))
    (by rw [Nat.mul_comm n rb]; omega)
  unfold d_task
  rw [hw, hcap, hsteps, hexit]
  refine ⟨_, rfl, rfl, rfl, ?_, ?_, ?_, ?_⟩
  · simp only [hn, List.range_eq_range']
  · simp only [hn, List.range_eq_range']
  · show ((List.range' 0 n).flatMap (chunk resp rx0 rb)).length = rb * n
    rw [length_flatMap_chunk, List.length_range', Nat.mul_comm]
  · intro j _ hlen hbuf
    exact chunk_eq_data resp rx0 rb j hlen hbuf

/-- Witness for C10: read burst 24, capacity 128, the third read answered
by NACK. -/
theorem d_task_stops_at_first_failed_read_witness :
    ((1 : Nat) = 1 ∨ (1 : Nat) = 2) ∧ 128 < 2 ^ 32 ∧ 2 * 24 < bytes_or_default 1 128 ∧
    (∀ j, j < 2 → read_acked (nackThird j)) ∧ ¬ read_acked (nackThird 2) ∧ 2 < 10 ∧
    ∃ r, d_task (scripted nackThird) 10 0x50 1 128 24 (fun _ => 0) [] = some r ∧
      r.st = (List.range (2 + 1)).map (fun j => read_frame 1 0x50 (j * 24)) ∧
      r.file = (List.range 2).flatMap (chunk nackThird (fun _ => 0) 24) ∧
      r.file.length = 2 * 24 :=
  ⟨by decide, by decide, by decide, by decide, by decide, by decide,
    d_task_stops_at_first_failed_read nackThird 10 0x50 1 128 24 2 (fun _ => 0)
      (by decide) (by decide) (by decide) (by decide) (by decide) (by decide)⟩

/-- Witness for the amended C9: 1-byte addressing, default capacity 256,
read burst 8, every read acknowledged. -/
theorem d_task_full_download_witness :
    ((1 : Nat) = 1 ∨ (1 : Nat) = 2) ∧ 0 < 2 ^ 32 ∧ 0 < 8 ∧ 8 ∣ bytes_or_default 1 0 ∧
    (∀ j, j < bytes_or_default 1 0 / 8 → read_acked ((fun _ => ack24) j)) ∧
    bytes_or_default 1 0 / 8 ≤ 32 ∧
    ∃ r, d_task (scripted (fun _ => ack24)) 32 0x50 1 0 8 (fun _ => 0) [] = some r ∧
      r.ret = 1 ∧ r.N_bytes = bytes_or_default 1 0 ∧
      r.st = (List.range (r.N_bytes / 8)).map (fun j => read_frame 1 0x50 (j * 8)) ∧
      r.file = (List.range (r.N_bytes / 8)).flatMap (chunk (fun _ => ack24) (fun _ => 0) 8) ∧
      r.file.length = r.N_bytes ∧
      (∀ j, j < r.N_bytes / 8 → 8 + 1 ≤ ((fun _ => ack24) j).length → 8 + 1 ≤ RX_BUFFER_SIZE →
        chunk (fun _ => ack24) (fun _ => 0) 8 j =
          (List.range 8).map (fun i => ((fun _ => ack24) j).getD (1 + i) 0 % 256)) :=
  ⟨by decide, by decide, by decide, by decide, fun _ _ => (by decide : read_acked ack24), by decide,
    d_task_full_download (fun _ => ack24) 32 0x50 1 0 8 (fun _ => 0)
      (by decide) (by decide) (by decide) (by decide) (fun _ _ => (by decide : read_acked ack24)) (by decide)⟩

/-! ## Autodetection on the ideal memory -/

theorem fill_ack_zero (rx : Nat → Nat) (l : List Nat) :
    fill rx (0x06 :: l) 0 = 0x06 := by
  simp [fill]

theorem take_buf_cons (x : Nat) (l : List Nat) :
    (x :: l).take RX_BUFFER_SIZE = x :: l.take 127 := rfl

theorem Read_ideal_st (c : Chip) (i2c_addr a : Nat) (rx : Nat → Nat) (mem : Nat → Nat) :
    (Read_from_eeprom (ideal c) i2c_addr a rx mem).2.2 = mem := by
  simp only [Read_from_eeprom, exchange, ideal, frame_R]
  split_ifs <;> rfl

theorem Read_ideal_ok (c : Chip) (hb : 1 ≤ c.burst) (i2c_addr a : Nat) (rx : Nat → Nat)
    (mem : Nat → Nat) :
    readOk (Read_from_eeprom (ideal c) i2c_addr a rx mem).1
      (Read_from_eeprom (ideal c) i2c_addr a rx mem).2.1 ≠ 0 := by
  obtain ⟨b, hb2⟩ : ∃ b, c.burst = b + 1 := ⟨c.burst - 1, by omega⟩
  simp only [Read_from_eeprom, exchange, ideal, frame_R, readOk]
  split_ifs <;> simp_all [take_buf_cons, fill, List.range_succ_eq_map]

theorem Read_ideal_val (c : Chip) (hw : c.width = 2) (hb : 1 ≤ c.burst) (i2c_addr a : Nat)
    (rx : Nat → Nat) (mem : Nat → Nat) :
    (Read_from_eeprom (ideal c) i2c_addr a rx mem).1 1 = mem (a % 65536 % c.cap) % 256 := by
  obtain ⟨b, hb2⟩ : ∃ b, c.burst = b + 1 := ⟨c.burst - 1, by omega⟩
  have ha : a / 256 % 256 * 256 + a % 256 = a % 65536 := by omega
  simp only [Read_from_eeprom, exchange, ideal, frame_R, hw, if_true, hb2, take_buf_cons,
    List.range_succ_eq_map, List.map_cons, fill]
  simp [ha]

theorem read_ideal_st (c : Chip) (i2c_addr a : Nat) (rx : Nat → Nat) (mem : Nat → Nat) :
    (read_from_eeprom (ideal c) i2c_addr a rx mem).2.2 = mem := by
  simp only [read_from_eeprom, exchange, ideal, frame_r]
  split_ifs <;> rfl

theorem read_ideal_ok (c : Chip) (hb : 1 ≤ c.burst) (i2c_addr a : Nat) (rx : Nat → Nat)
    (mem : Nat → Nat) :
    readOk (read_from_eeprom (ideal c) i2c_addr a rx mem).1
      (read_from_eeprom (ideal c) i2c_addr a rx mem).2.1 ≠ 0 := by
  obtain ⟨b, hb2⟩ : ∃ b, c.burst = b + 1 := ⟨c.burst - 1, by omega⟩
  simp only [read_from_eeprom, exchange, ideal, frame_r, readOk]
  split_ifs <;> simp_all [take_buf_cons, fill, List.range_succ_eq_map]

theorem read_ideal_val (c : Chip) (hw : c.width = 1) (hb : 1 ≤ c.burst) (i2c_addr a : Nat)
    (rx : Nat → Nat) (mem : Nat → Nat) :
    (read_from_eeprom (ideal c) i2c_addr a rx mem).1 1 = mem (a % 256 % c.cap) % 256 := by
  obtain ⟨b, hb2⟩ : ∃ b, c.burst = b + 1 := ⟨c.burst - 1, by omega⟩
  simp only [read_from_eeprom, exchange, ideal, frame_r, hw, if_true, hb2, take_buf_cons,
    List.range_succ_eq_map, List.map_cons, fill]
  simp

theorem Write_ideal_st (c : Chip) (hw : c.width = 2) (i2c_addr x : Nat) (rx : Nat → Nat)
    (mem : Nat → Nat) :
    (Write_to_eeprom (ideal c) i2c_addr 0 x rx mem).2.2 =
      fun i => if i = 0 then x % 256 else mem i := by
  simp [Write_to_eeprom, exchange, ideal, frame_W, hw, store]

theorem Write_ideal_ok (c : Chip) (i2c_addr a x : Nat) (rx : Nat → Nat) (mem : Nat → Nat) :
    writeOk (Write_to_eeprom (ideal c) i2c_addr a x rx mem).1
      (Write_to_eeprom (ideal c) i2c_addr a x rx mem).2.1 ≠ 0 := by
  simp only [Write_to_eeprom, exchange, ideal, frame_W, writeOk]
  split_ifs <;> simp_all [fill]

theorem write_ideal_st (c : Chip) (hw : c.width = 1) (i2c_addr x : Nat) (rx : Nat → Nat)
    (mem : Nat → Nat) :
    (write_to_eeprom (ideal c) i2c_addr 0 x rx mem).2.2 =
      fun i => if i = 0 then x % 256 else mem i := by
  simp [write_to_eeprom, exchange, ideal, frame_w, hw, store]

theorem write_ideal_ok (c : Chip) (i2c_addr a x : Nat) (rx : Nat → Nat) (mem : Nat → Nat) :
    writeOk (write_to_eeprom (ideal c) i2c_addr a x rx mem).1
      (write_to_eeprom (ideal c) i2c_addr a x rx mem).2.1 ≠ 0 := by
  simp only [write_to_eeprom, exchange, ideal, frame_w, writeOk]
  split_ifs <;> simp_all [fill]

theorem restore_zero (mem g : Nat → Nat) (h0 : mem 0 < 256) (hg : ∀ i, i ≠ 0 → g i = mem i) :
    (fun i => if i = 0 then mem 0 % 256 else g i) = mem := by
  funext i
  by_cases hi : i = 0
  · subst hi
    simp
    omega
  · simp [hi, hg i hi]

/-- The probe on the ideal 2-byte-addressed memory: it answers 1 exactly
when the candidate aliases address 0, and leaves the memory as it found it. -/
theorem TestIfSizeIs_ideal2 (c : Chip) (hw : c.width = 2) (hb : 1 ≤ c.burst)
    (n i2c_addr : Nat) (mem : Nat → Nat) (h0 : mem 0 < 256) :
    TestIfSizeIs (ideal c) n i2c_addr 2 mem =
      (if n % 65536 % c.cap = 0 then 1 else 0, mem) := by
  have hr1 := restore_zero mem (fun i => if i = 0 then (mem 0 % 256 + 1) % 256 else mem i) h0
    (fun i hi => by simp [hi])
  have hr2 := restore_zero mem mem h0 (fun i _ => rfl)
  simp only [TestIfSizeIs, OfNat.ofNat_ne_one, if_false, if_true, Read_ideal_ok c hb,
    Read_ideal_st, Read_ideal_val c hw hb, Write_ideal_ok, Write_ideal_st c hw, ne_eq,
    not_false_eq_true, Nat.zero_mod, Nat.mod_mod]
  by_cases ha : n % 65536 % c.cap = 0
  · simp only [ha, if_true, hr1, Nat.mod_mod]
  · simp only [ha, if_false, hr1]
    split_ifs with h1 h2
    · exfalso
      omega
    · rfl
    · rfl

/-- States 1 to 5 on the ideal 2-byte-addressed memory end in state 6 with
width 2 and the memory as it was. -/
theorem m_states_1_5_ideal2 (c : Chip) (hw : c.width = 2) (hb : 1 ≤ c.burst)
    (i2c_addr : Nat) (v : MVars (Nat → Nat)) (h0 : v.st 0 < 256) :
    (m_states_1_5 (ideal c) i2c_addr v).state = 6 ∧
    (m_states_1_5 (ideal c) i2c_addr v).N_addr = 2 ∧
    (m_states_1_5 (ideal c) i2c_addr v).st = v.st ∧
    (m_states_1_5 (ideal c) i2c_addr v).N_bytes = v.N_bytes := by
  have hr1 := restore_zero v.st (fun i => if i = 0 then 1 % 256 else v.st i) h0
    (fun i hi => by simp [hi])
  simp only [m_states_1_5, m_state1, m_state2, m_state3, m_state4, m_state5, MVars.recv,
    if_true, read_ideal_ok c hb, read_ideal_st, Read_ideal_ok c hb,
    Read_ideal_st, Read_ideal_val c hw hb, Write_ideal_ok, Write_ideal_st c hw, ne_eq,
    not_false_eq_true, Nat.zero_mod, Nat.mod_mod, OfNat.ofNat_ne_one, if_false,
    Nat.reduceEqDiff, Nat.one_mod, hr1, Nat.reduceMod, and_self]

theorem m_scan_ideal2 (c : Chip) (hw : c.width = 2) (hb : 1 ≤ c.burst) (e : Nat)
    (hcap : c.cap = 2 ^ e) (he : e ≤ 16) (i2c_addr : Nat) (mem : Nat → Nat)
    (h0 : mem 0 < 256) :
    ∀ (fuel j : Nat) (v : MVars (Nat → Nat)), v.L = 128 * 2 ^ j → 7 + j ≤ e →
      e < 7 + j + fuel → v.N_addr = 2 → v.st = mem →
      ∃ r, m_scan (ideal c) i2c_addr fuel v = some r ∧ r.state = 7 ∧ r.N_bytes = c.cap ∧
        r.N_addr = 2 ∧ r.st = mem := by
  intro fuel
  induction fuel with
  | zero => intro j v _ _ hf _ _; omega
  | succ fuel ih =>
    intro j v hL hj hf hN hst
    have hLe : v.L = 2 ^ (7 + j) := by rw [hL, pow_add]; norm_num
    have hle : (2 : Nat) ^ (7 + j) ≤ 2 ^ e := Nat.pow_le_pow_right (by norm_num) hj
    have h16 : (2 : Nat) ^ e ≤ 2 ^ 16 := Nat.pow_le_pow_right (by norm_num) he
    unfold m_scan
    rw [hN, hst, TestIfSizeIs_ideal2 c hw hb v.L i2c_addr mem h0]
    by_cases hje : 7 + j = e
    · have halias : v.L % 65536 % c.cap = 0 := by
        rw [hcap, hLe, hje]
        by_cases h65 : (2 : Nat) ^ e = 65536
        · rw [h65]
        · rw [Nat.mod_eq_of_lt (show 2 ^ e < 65536 by omega), Nat.mod_self]
      simp only [halias, if_true]
      refine ⟨_, rfl, rfl, ?_, rfl, rfl⟩
      simp [hLe, hje, hcap]
    · have hlt : (2 : Nat) ^ (7 + j) < 2 ^ e :=
        Nat.pow_lt_pow_right (by norm_num) (by omega)
      have hno : ¬ v.L % 65536 % c.cap = 0 := by
        rw [hcap, hLe, Nat.mod_eq_of_lt (show 2 ^ (7 + j) < 65536 by omega),
          Nat.mod_eq_of_lt hlt]
        exact (Nat.pos_pow_of_pos _ (by norm_num)).ne'
      have hnext : v.L * 2 ≤ 65536 := by
        have : (2 : Nat) ^ (7 + j + 1) ≤ 2 ^ e := Nat.pow_le_pow_right (by norm_num) (by omega)
        rw [pow_succ] at this
        omega
      simp only [hno, if_false, hnext, if_true, ne_eq, not_true_eq_false]
      exact ih (j + 1) _ (by simp only [hL, pow_succ]; ring) (by omega) (by omega) rfl rfl

theorem m_task_ideal2_run (c : Chip) (e : Nat) (hw : c.width = 2) (hb : 1 ≤ c.burst)
    (hcap : c.cap = 2 ^ e) (he7 : 7 ≤ e) (he : e ≤ 16) (fuel i2c_addr : Nat)
    (v : MVars (Nat → Nat)) (h0 : v.st 0 < 256) (hf : 10 ≤ fuel) :
    ∃ r, m_task (ideal c) fuel i2c_addr v = some r ∧ r.ret = 1 ∧ r.N_addr = 2 ∧
      r.N_bytes = c.cap ∧ r.st = v.st := by
  obtain ⟨h6, hN, hst, _⟩ := m_states_1_5_ideal2 c hw hb i2c_addr v h0
  unfold m_task m_state6
  generalize m_states_1_5 (ideal c) i2c_addr v = w at h6 hN hst ⊢
  obtain ⟨r, hr, h7, hbytes, hN2, hst2⟩ := m_scan_ideal2 c hw hb e hcap he i2c_addr v.st h0
    fuel 0 { w with L := 128, MODEL := 1 } (by simp) (by omega) (by omega) hN hst
  rw [if_pos h6, hr, Option.map_some']
  refine ⟨_, rfl, ?_⟩
  have hsw : m_switch i2c_addr r = { r with ret := 1 } := by
    simp [m_switch, h7]
  rw [hsw]
  exact ⟨rfl, hN2, hbytes, hst2⟩

/-- Claim C3. On the ideal 2-byte-addressed memory of capacity `2 ^ e`,
`7 ≤ e ≤ 16`, holding bytes (every command acknowledged, 2-byte addresses
wrapping modulo the capacity, reads with 1-byte addressing answered with
arbitrary data `alt` and leaving the memory alone), whatever the entry
values: `m_task` returns 1 with address width 2 and the capacity in
`*N_bytes`, the memory afterwards is the memory before, and a second run on
the resulting device, from any entry values, returns the same width and
capacity and again leaves the memory as it was. -/
theorem m_task_ideal2_detects (c : Chip) (e : Nat) (hw : c.width = 2) (hb : 1 ≤ c.burst)
    (hcap : c.cap = 2 ^ e) (he7 : 7 ≤ e) (he : e ≤ 16) (fuel i2c_addr : Nat)
    (v : MVars (Nat → Nat)) (hmem : ∀ a, v.st a < 256) (hf : 10 ≤ fuel) :
    ∃ r, m_task (ideal c) fuel i2c_addr v = some r ∧ r.ret = 1 ∧ r.N_addr = 2 ∧
      r.N_bytes = c.cap ∧ r.st = v.st ∧
      ∀ w : MVars (Nat → Nat), w.st = r.st →
        ∃ r2, m_task (ideal c) fuel i2c_addr w = some r2 ∧ r2.ret = 1 ∧
          r2.N_addr = r.N_addr ∧ r2.N_bytes = r.N_bytes ∧ r2.st = v.st := by
  obtain ⟨r, hr, h1, hN, hB, hst⟩ :=
    m_task_ideal2_run c e hw hb hcap he7 he fuel i2c_addr v (hmem 0) hf
  refine ⟨r, hr, h1, hN, hB, hst, ?_⟩
  intro w hwst
  obtain ⟨r2, hr2, h12, hN2, hB2, hst2⟩ :=
    m_task_ideal2_run c e hw hb hcap he7 he fuel i2c_addr w
      (by rw [hwst, hst]; exact hmem 0) hf
  exact ⟨r2, hr2, h12, by rw [hN2, hN], by rw [hB2, hB], by rw [hst2, hwst, hst]⟩

/-- Witness for C3: the 512-byte memory holding 0 everywhere. -/
theorem m_task_ideal2_detects_witness :
    chip512.width = 2 ∧ 1 ≤ chip512.burst ∧ chip512.cap = 2 ^ 9 ∧ 7 ≤ 9 ∧ 9 ≤ 16 ∧
    (∀ a, (MVars.entry (fun _ => 0) 0 0 0 : MVars (Nat → Nat)).st a < 256) ∧ 10 ≤ 10 ∧
    ∃ r, m_task (ideal chip512) 10 0x54 (MVars.entry (fun _ => 0) 0 0 0) = some r ∧
      r.ret = 1 ∧ r.N_addr = 2 ∧ r.N_bytes = chip512.cap ∧
      r.st = (MVars.entry (fun _ => 0) 0 0 0 : MVars (Nat → Nat)).st ∧
      ∀ w : MVars (Nat → Nat), w.st = r.st →
        ∃ r2, m_task (ideal chip512) 10 0x54 w = some r2 ∧ r2.ret = 1 ∧
          r2.N_addr = r.N_addr ∧ r2.N_bytes = r.N_bytes ∧
          r2.st = (MVars.entry (fun _ => 0) 0 0 0 : MVars (Nat → Nat)).st :=
  ⟨by decide, by decide, by decide, by decide, by decide, fun _ => (by decide : (0 : Nat) < 256), by decide,
    m_task_ideal2_detects chip512 9 (by decide) (by decide) (by decide) (by decide) (by decide)
      10 0x54 (MVars.entry (fun _ => 0) 0 0 0) (fun _ => (by decide : (0 : Nat) < 256)) (by decide)⟩

/-! ## The capacity search -/

theorem m_scan_first_hit {σ : Type} (T : Link σ) (i2c_addr N_addr : Nat) (s0 : σ) :
    ∀ (fuel j : Nat) (v : MVars σ), v.L = 128 * 2 ^ j → j < 10 → 10 ≤ fuel + j →
      v.state = 6 → v.N_addr = N_addr → v.st = probe_state T i2c_addr N_addr s0 j →
      (∀ i, i < j → probe_result T i2c_addr N_addr s0 i = 0) →
      ∃ r, m_scan T i2c_addr fuel v = some r ∧
        ((∃ k, k < 10 ∧ r.state = 7 ∧ r.N_bytes = 128 * 2 ^ k ∧
            probe_result T i2c_addr N_addr s0 k ≠ 0 ∧
            ∀ i, i < k → probe_result T i2c_addr N_addr s0 i = 0) ∨
         (r.state = 6 ∧ r.N_bytes = v.N_bytes ∧
            ∀ i, i < 10 → probe_result T i2c_addr N_addr s0 i = 0)) := by
  intro fuel
  induction fuel with
  | zero => intro j v _ hj hf _ _ _ _; omega
  | succ fuel ih =>
    intro j v hL hj hf hs hN hst hprev
    have hres : (TestIfSizeIs T v.L i2c_addr v.N_addr v.st).1 =
        probe_result T i2c_addr N_addr s0 j := by
      rw [hL, hN, hst]; rfl
    have hnxt : (TestIfSizeIs T v.L i2c_addr v.N_addr v.st).2 =
        probe_state T i2c_addr N_addr s0 (j + 1) := by
      rw [hL, hN, hst]; rfl
    unfold m_scan
    split_ifs with ht hle
    · refine ⟨_, rfl, Or.inl ⟨j, hj, rfl, hL, ?_, hprev⟩⟩
      rw [← hres]; exact ht
    · have hj1 : j + 1 < 10 := by
        by_contra hc
        have h9 : j = 9 := by omega
        subst h9
        rw [hL] at hle
        norm_num at hle
      have hzero : probe_result T i2c_addr N_addr s0 j = 0 := by
        rw [← hres]; exact not_not.mp ht
      obtain ⟨r, hr, hcase⟩ := ih (j + 1)
        { v with st := (TestIfSizeIs T v.L i2c_addr v.N_addr v.st).2,
                 L := v.L * 2, MODEL := v.MODEL * 2 }
        (by simp only [hL, pow_succ]; ring) hj1 (by omega) hs hN hnxt
        (fun i hi => by
          by_cases hij : i = j
          · rw [hij]; exact hzero
          · exact hprev i (by omega))
      exact ⟨r, hr, hcase⟩
    · have h9 : j = 9 := by
        by_contra hc
        have hj8 : j ≤ 8 := by omega
        have : (2 : Nat) ^ j ≤ 2 ^ 8 := Nat.pow_le_pow_right (by norm_num) hj8
        rw [hL] at hle
        omega
      have hzero : probe_result T i2c_addr N_addr s0 j = 0 := by
        rw [← hres]; exact not_not.mp ht
      refine ⟨_, rfl, Or.inr ⟨hs, rfl, ?_⟩⟩
      intro i hi
      by_cases hij : i = j
      · rw [hij]; exact hzero
      · exact hprev i (by omega)

theorem TestIfSizeIs_ideal1 (c : Chip) (hw : c.width = 1) (hb : 1 ≤ c.burst)
    (n i2c_addr : Nat) (mem : Nat → Nat) (h0 : mem 0 < 256) :
    TestIfSizeIs (ideal c) n i2c_addr 1 mem =
      (if n % 256 % c.cap = 0 then 1 else 0, mem) := by
  have hr1 := restore_zero mem (fun i => if i = 0 then (mem 0 % 256 + 1) % 256 else mem i) h0
    (fun i hi => by simp [hi])
  have hr2 := restore_zero mem mem h0 (fun i _ => rfl)
  simp only [TestIfSizeIs, if_true, read_ideal_ok c hb,
    read_ideal_st, read_ideal_val c hw hb, write_ideal_ok, write_ideal_st c hw, ne_eq,
    not_false_eq_true, Nat.zero_mod, Nat.mod_mod]
  by_cases ha : n % 256 % c.cap = 0
  · simp only [ha, if_true, hr1, Nat.mod_mod]
  · simp only [ha, if_false, hr1]
    split_ifs with h1 h2
    · exfalso
      omega
    · rfl
    · rfl

theorem m_state6_ideal2 (c : Chip) (e : Nat) (hw : c.width = 2) (hb : 1 ≤ c.burst)
    (hcap : c.cap = 2 ^ e) (he7 : 7 ≤ e) (he : e ≤ 16) (fuel i2c_addr : Nat)
    (w : MVars (Nat → Nat)) (h0 : w.st 0 < 256) (hs : w.state = 6) (hN : w.N_addr = 2)
    (hf : 10 ≤ fuel) :
    ∃ r, m_state6 (ideal c) fuel i2c_addr w = some r ∧ r.state = 7 ∧ r.N_bytes = c.cap ∧
      r.st = w.st := by
  obtain ⟨r, hr, h7, hbytes, _, hst2⟩ := m_scan_ideal2 c hw hb e hcap he i2c_addr w.st h0
    fuel 0 { w with L := 128, MODEL := 1 } (by simp) (by omega) (by omega) hN rfl
  unfold m_state6
  rw [if_pos hs, hr]
  exact ⟨r, rfl, h7, hbytes, hst2⟩

theorem m_state6_ideal1 (c : Chip) (hw : c.width = 1) (hb : 1 ≤ c.burst)
    (hcap : c.cap = 128 ∨ c.cap = 256) (fuel i2c_addr : Nat)
    (w : MVars (Nat → Nat)) (h0 : w.st 0 < 256) (hs : w.state = 6) (hN : w.N_addr = 1)
    (hf : 10 ≤ fuel) :
    ∃ r, m_state6 (ideal c) fuel i2c_addr w = some r ∧ r.state = 7 ∧ r.N_bytes = c.cap ∧
      r.st = w.st := by
  obtain ⟨f, rfl⟩ : ∃ f, fuel = f + 2 := ⟨fuel - 2, by omega⟩
  unfold m_state6
  rw [if_pos hs]
  rcases hcap with h | h
  · simp [m_scan, hN, TestIfSizeIs_ideal1 c hw hb _ i2c_addr w.st h0, h]
  · simp [m_scan, hN, TestIfSizeIs_ideal1 c hw hb _ i2c_addr w.st h0, h]

/-- Claim C4. The capacity search (state 6 of `m_task`) tries the candidates
128, 256, ..., 65536 in this order, each probe running on the link as the
previous probes left it. It ends in state 7 with `*N_bytes` the first
candidate for which `TestIfSizeIs` returned non-zero, all smaller
candidates having returned 0; or, when all ten candidates returned 0, it
stays in state 6 (failure) with `*N_bytes` untouched. On an ideal memory
holding bytes whose addresses wrap modulo its capacity `C`, with every
command acknowledged, the search ends in state 7 with `*N_bytes = C` and the
memory unchanged: for `C` any power of two from 128 to 65536 with 2-byte
addressing, and for `C` 128 or 256 with 1-byte addressing. -/
theorem capacity_search_reports_first_alias {σ : Type} (T : Link σ) (fuel i2c_addr : Nat)
    (v : MVars σ) (hs : v.state = 6) (hf : 10 ≤ fuel) :
    (∃ r, m_state6 T fuel i2c_addr v = some r ∧
      ((∃ k, k < 10 ∧ r.state = 7 ∧ r.N_bytes = 128 * 2 ^ k ∧
          probe_result T i2c_addr v.N_addr v.st k ≠ 0 ∧
          ∀ i, i < k → probe_result T i2c_addr v.N_addr v.st i = 0) ∨
       (r.state = 6 ∧ r.N_bytes = v.N_bytes ∧
          ∀ i, i < 10 → probe_result T i2c_addr v.N_addr v.st i = 0))) ∧
    (∀ (c : Chip) (e : Nat) (w : MVars (Nat → Nat)), c.width = 2 → 1 ≤ c.burst →
      c.cap = 2 ^ e → 7 ≤ e → e ≤ 16 → (∀ a, w.st a < 256) → w.state = 6 → w.N_addr = 2 →
      ∃ r, m_state6 (ideal c) fuel i2c_addr w = some r ∧ r.state = 7 ∧ r.N_bytes = c.cap ∧
        r.st = w.st) ∧
    (∀ (c : Chip) (w : MVars (Nat → Nat)), c.width = 1 → 1 ≤ c.burst →
      (c.cap = 128 ∨ c.cap = 256) → (∀ a, w.st a < 256) → w.state = 6 → w.N_addr = 1 →
      ∃ r, m_state6 (ideal c) fuel i2c_addr w = some r ∧ r.state = 7 ∧ r.N_bytes = c.cap ∧
        r.st = w.st) := by
  refine ⟨?_, ?_, ?_⟩
  · obtain ⟨r, hr, hcase⟩ := m_scan_first_hit T i2c_addr v.N_addr v.st fuel 0
      { v with L := 128, MODEL := 1 } (by simp) (by omega) (by omega) hs rfl rfl
      (fun i hi => by omega)
    unfold m_state6
    rw [if_pos hs, hr]
    exact ⟨r, rfl, hcase⟩
  · intro c e w hw hb hcap he7 he hmem hs6 hN
    exact m_state6_ideal2 c e hw hb hcap he7 he fuel i2c_addr w (hmem 0) hs6 hN hf
  · intro c w hw hb hcap hmem hs6 hN
    exact m_state6_ideal1 c hw hb hcap fuel i2c_addr w (hmem 0) hs6 hN hf

/-- Witness for C4: the 256-byte memory with 1-byte addressing is reported
as 256 bytes. -/
theorem capacity_search_reports_first_alias_witness :
    (at_state6 (fun _ => 0) 1 : MVars (Nat → Nat)).state = 6 ∧ 10 ≤ 10 ∧
    ∃ r, m_state6 (ideal chip256) 10 0x50 (at_state6 (fun _ => 0) 1) = some r ∧
      r.state = 7 ∧ r.N_bytes = chip256.cap ∧
      r.st = (at_state6 (fun _ => 0) 1 : MVars (Nat → Nat)).st :=
  ⟨by decide, by decide,
    (capacity_search_reports_first_alias (ideal chip256) 10 0x50 (at_state6 (fun _ => 0) 1)
      (by decide) (by decide)).2.2 chip256 (at_state6 (fun _ => 0) 1) (by decide) (by decide)
      (by decide) (fun _ => (by decide : (0 : Nat) < 256)) (by decide) (by decide)⟩

/-! ## Round trip on the ideal memory -/

theorem store_get (cap : Nat) : ∀ (data : List Nat) (mem : Nat → Nat) (a i : Nat),
    a + data.length ≤ cap →
    store cap mem a data i =
      if a ≤ i ∧ i < a + data.length then data.getD (i - a) 0 else mem i := by
  intro data
  induction data with
  | nil =>
    intro mem a i _
    have : ¬ (a ≤ i ∧ i < a + ([] : List Nat).length) := by simp
    rw [if_neg this]; rfl
  | cons x rest ih =>
    intro mem a i h
    simp only [List.length_cons] at h
    rw [store, ih _ (a + 1) i (by omega)]
    have hmod : a % cap = a := Nat.mod_eq_of_lt (by omega)
    by_cases h1 : a + 1 ≤ i ∧ i < a + 1 + rest.length
    · have h2 : a ≤ i ∧ i < a + (rest.length + 1) := by omega
      obtain ⟨d, hd⟩ : ∃ d, i - a = d + 1 := ⟨i - a - 1, by omega⟩
      have hd2 : i - (a + 1) = d := by omega
      simp only [h1, h2, and_self, if_true, List.length_cons, hd, hd2, List.getD_cons_succ]
    · by_cases h3 : i = a
      · subst h3
        simp [hmod]
      · have h2 : ¬ (a ≤ i ∧ i < a + (rest.length + 1)) := by omega
        simp only [h1, h2, if_false, List.length_cons, hmod, h3]

theorem send_ideal_write (c : Chip) (hw : c.width = 1 ∨ c.width = 2) (i2c_addr a : Nat)
    (data : List Nat) (hd : data ≠ []) (mem : Nat → Nat) :
    send (ideal c) mem (write_frame c.width i2c_addr a data) =
      store c.cap mem (if c.width = 2 then a % 65536 else a % 256) (data.map (· % 256)) := by
  obtain ⟨x, rest, rfl⟩ := List.exists_cons_of_ne_nil hd
  have ha : a / 256 % 256 * 256 + a % 256 = a % 65536 := by omega
  rcases hw with h | h
  · simp [send, ideal, write_frame, frame_w, h]
  · simp [send, ideal, write_frame, frame_W, h, ha]

theorem getD_map_range (g : Nat → Nat) (n k : Nat) (hk : k < n) :
    (((List.range n).map g).map (· % 256)).getD k 0 = g k % 256 := by
  simp [List.getD_eq_getElem?_getD, List.getElem?_range hk]

theorem range_map_ne_nil (g : Nat → Nat) (n : Nat) (hn : 0 < n) :
    (List.range n).map g ≠ [] := by
  intro h
  have := congrArg List.length h
  simp at this
  omega

theorem upload_bursts_memory (c : Chip) (hw : c.width = 1 ∨ c.width = 2)
    (i2c_addr wb : Nat) (F : List Nat) (hwb : wb = 1 ∨ wb = 8 ∨ wb = 16 ∨ wb = 32)
    (hcap : F.length ≤ c.cap) (hsp : F.length ≤ if c.width = 2 then 65536 else 256)
    (mem : Nat → Nat) :
    ∀ n, n ≤ F.length / wb → ∀ o, o < n * wb →
      (((List.range n).map
          (fun j => write_frame c.width i2c_addr (j * wb)
            ((List.range wb).map (fun k => F.getD (j * wb + k) 0)))).foldl
        (send (ideal c)) mem) o = F.getD o 0 % 256 := by
  intro n
  induction n with
  | zero => intro _ o ho; omega
  | succ n ih =>
    intro hn o ho
    have hwb0 : 0 < wb := by rcases hwb with rfl | rfl | rfl | rfl <;> omega
    have hfit : n * wb + wb ≤ F.length := by
      rcases hwb with rfl | rfl | rfl | rfl <;> omega
    have hnext : (n + 1) * wb = n * wb + wb := by ring
    have haddr : (if c.width = 2 then n * wb % 65536 else n * wb % 256) = n * wb := by
      split_ifs at hsp ⊢
      · exact Nat.mod_eq_of_lt (by omega)
      · exact Nat.mod_eq_of_lt (by omega)
    rw [List.range_succ, List.map_append, List.foldl_append]
    simp only [List.map_cons, List.map_nil, List.foldl_cons, List.foldl_nil]
    rw [send_ideal_write c hw _ _ _ (range_map_ne_nil _ wb hwb0), haddr,
      store_get _ _ _ _ _ (by simp; omega)]
    simp only [List.length_map, List.length_range]
    by_cases h1 : n * wb ≤ o
    · have h2 : n * wb ≤ o ∧ o < n * wb + wb := by omega
      rw [if_pos h2, getD_map_range _ _ _ (by omega)]
      congr 2
      omega
    · have h2 : ¬ (n * wb ≤ o ∧ o < n * wb + wb) := by omega
      rw [if_neg h2]
      exact ih (by omega) o (by omega)

theorem upload_singles_memory (c : Chip) (hw : c.width = 1 ∨ c.width = 2)
    (i2c_addr wb : Nat) (F : List Nat) (hwb : wb = 1 ∨ wb = 8 ∨ wb = 16 ∨ wb = 32)
    (hcap : F.length ≤ c.cap) (hsp : F.length ≤ if c.width = 2 then 65536 else 256)
    (mem : Nat → Nat) (hmem : ∀ o, o < F.length / wb * wb → mem o = F.getD o 0 % 256) :
    ∀ t, t ≤ F.length % wb → ∀ o, o < F.length / wb * wb + t →
      (((List.range t).map
          (fun t => write_frame c.width i2c_addr (F.length / wb * wb + t)
            [F.getD (F.length / wb * wb + t) 0])).foldl
        (send (ideal c)) mem) o = F.getD o 0 % 256 := by
  intro t
  induction t with
  | zero => intro _ o ho; exact hmem o (by omega)
  | succ t ih =>
    intro ht o ho
    have hfit : F.length / wb * wb + t < F.length := by
      rcases hwb with rfl | rfl | rfl | rfl <;> omega
    have haddr : (if c.width = 2 then (F.length / wb * wb + t) % 65536
        else (F.length / wb * wb + t) % 256) = F.length / wb * wb + t := by
      split_ifs at hsp ⊢
      · exact Nat.mod_eq_of_lt (by omega)
      · exact Nat.mod_eq_of_lt (by omega)
    rw [List.range_succ, List.map_append, List.foldl_append]
    simp only [List.map_cons, List.map_nil, List.foldl_cons, List.foldl_nil]
    rw [send_ideal_write c hw _ _ _ (by simp), haddr,
      store_get _ _ _ _ _ (by simp; omega)]
    simp only [List.length_map, List.length_cons, List.length_nil]
    by_cases h1 : F.length / wb * wb + t ≤ o
    · have ho2 : o = F.length / wb * wb + t := by omega
      subst ho2
      simp
    · have h2 : ¬ (F.length / wb * wb + t ≤ o ∧ o < F.length / wb * wb + t + (0 + 1)) := by
        omega
      rw [if_neg h2]
      exact ih (by omega) o (by omega)

/-- After the upload of `F` to an ideal memory that holds it (within the
capacity and within the reach of the address width) every address below
`F.length` holds the file byte of that offset. -/
theorem upload_memory (c : Chip) (hw : c.width = 1 ∨ c.width = 2)
    (i2c_addr wb : Nat) (F : List Nat) (hwb : wb = 1 ∨ wb = 8 ∨ wb = 16 ∨ wb = 32)
    (hcap : F.length ≤ c.cap) (hsp : F.length ≤ if c.width = 2 then 65536 else 256)
    (mem : Nat → Nat) :
    ∀ o, o < F.length →
      ((sent_after c.width i2c_addr wb F F.length).foldl (send (ideal c)) mem) o =
        F.getD o 0 % 256 := by
  intro o ho
  have e1 : min F.length (F.length / wb * wb) / wb = F.length / wb := by
    rcases hwb with rfl | rfl | rfl | rfl <;> omega
  have e2 : F.length - F.length / wb * wb = F.length % wb := by
    rcases hwb with rfl | rfl | rfl | rfl <;> omega
  have e3 : F.length / wb * wb + F.length % wb = F.length := by
    rcases hwb with rfl | rfl | rfl | rfl <;> omega
  unfold sent_after
  rw [e1, e2, List.foldl_append]
  apply upload_singles_memory c hw i2c_addr wb F hwb hcap hsp _ _ _ (le_refl _) o
    (by rw [e3]; exact ho)
  intro o2 ho2
  exact upload_bursts_memory c hw i2c_addr wb F hwb hcap hsp mem _ (le_refl _) o2 ho2

theorem read_ideal_data (c : Chip) (hw : c.width = 1) (hb : c.burst ≤ 127) (i2c_addr a : Nat)
    (rx : Nat → Nat) (mem : Nat → Nat) (i : Nat) (hi : i < c.burst) :
    (read_from_eeprom (ideal c) i2c_addr a rx mem).1 (1 + i) =
      mem ((a % 256 + i) % c.cap) % 256 := by
  have hlen : 1 + i < ((0x06 :: (List.range c.burst).map
      (fun i => mem ((a % 256 + i) % c.cap))).take RX_BUFFER_SIZE).length := by
    simp [RX_BUFFER_SIZE]; omega
  simp only [read_from_eeprom, exchange, ideal, frame_r, hw, if_true, fill]
  rw [if_pos hlen]
  congr 1
  rw [List.getD_eq_getElem?_getD, List.getElem?_take_of_lt (by simp [RX_BUFFER_SIZE]; omega)]
  rw [Nat.add_comm 1 i, List.getElem?_cons_succ, List.getElem?_map, List.getElem?_range hi]
  rfl

theorem Read_ideal_data (c : Chip) (hw : c.width = 2) (hb : c.burst ≤ 127) (i2c_addr a : Nat)
    (rx : Nat → Nat) (mem : Nat → Nat) (i : Nat) (hi : i < c.burst) :
    (Read_from_eeprom (ideal c) i2c_addr a rx mem).1 (1 + i) =
      mem ((a % 65536 + i) % c.cap) % 256 := by
  have ha : a / 256 % 256 * 256 + a % 256 = a % 65536 := by omega
  have hlen : 1 + i < ((0x06 :: (List.range c.burst).map
      (fun i => mem ((a / 256 % 256 * 256 + a % 256 + i) % c.cap))).take RX_BUFFER_SIZE).length := by
    simp [RX_BUFFER_SIZE]; omega
  simp only [Read_from_eeprom, exchange, ideal, frame_R, hw, if_true, fill]
  rw [if_pos hlen]
  congr 1
  rw [List.getD_eq_getElem?_getD, List.getElem?_take_of_lt (by simp [RX_BUFFER_SIZE]; omega)]
  rw [Nat.add_comm 1 i, List.getElem?_cons_succ, List.getElem?_map, List.getElem?_range hi, ha]
  rfl

/-- One turn of the download loop on the ideal memory: the read is
acknowledged, the memory stays as it is and the chunk appended holds the
memory content from the address sent on. -/
theorem d_loop_ideal_step (c : Chip) (hw : c.width = 1 ∨ c.width = 2) (hb1 : 1 ≤ c.burst)
    (hb : c.burst ≤ 127) (i2c_addr N_bytes fuel addr : Nat) (rx : Nat → Nat)
    (fp : List Nat) (mem : Nat → Nat) (h : addr < N_bytes) :
    ∃ rx2, d_loop (ideal c) i2c_addr c.width N_bytes c.burst (fuel + 1) addr rx fp mem =
      d_loop (ideal c) i2c_addr c.width N_bytes c.burst fuel ((addr + c.burst) % 2 ^ 32) rx2
        (fp ++ (List.range c.burst).map
          (fun i => mem (((if c.width = 2 then addr % 65536 else addr % 256) + i) % c.cap) % 256))
        mem := by
  rcases hw with h1 | h2
  · refine ⟨(read_from_eeprom (ideal c) i2c_addr addr rx mem).1, ?_⟩
    rw [d_loop]
    simp only [h, if_true, h1, OfNat.ofNat_ne_one, if_false, OfNat.one_ne_ofNat]
    rw [if_pos (read_ideal_ok c hb1 i2c_addr addr rx mem), read_ideal_st]
    congr 2
    apply List.map_congr_left
    intro i hi
    exact read_ideal_data c h1 hb i2c_addr addr rx mem i (List.mem_range.mp hi)
  · refine ⟨(Read_from_eeprom (ideal c) i2c_addr addr rx mem).1, ?_⟩
    rw [d_loop]
    simp only [h, if_true, h2]
    rw [if_pos (Read_ideal_ok c hb1 i2c_addr addr rx mem), Read_ideal_st]
    congr 2
    apply List.map_congr_left
    intro i hi
    exact Read_ideal_data c h2 hb i2c_addr addr rx mem i (List.mem_range.mp hi)

theorem getD_range_map (g : Nat → Nat) (n k : Nat) (hk : k < n) :
    ((List.range n).map g).getD k 0 = g k := by
  simp [List.getD_eq_getElem?_getD, List.getElem?_range hk]

/-- The download loop on an ideal memory whose first `F.length` addresses
hold the file `F`: it returns, the memory is untouched, and the output
holds `F` at the offsets below `F.length` that the download covers. -/
theorem d_loop_ideal (c : Chip) (hw : c.width = 1 ∨ c.width = 2) (hb1 : 1 ≤ c.burst)
    (hb : c.burst ≤ 127) (i2c_addr N_bytes : Nat) (F : List Nat) (mem : Nat → Nat)
    (hmem : ∀ o, o < F.length → mem o = F.getD o 0 % 256)
    (hbytes : ∀ x, x ∈ F → x < 256)
    (hcap : F.length ≤ c.cap) (hsp : F.length ≤ if c.width = 2 then 65536 else 256)
    (hN : N_bytes + c.burst < 2 ^ 32) :
    ∀ (fuel addr : Nat) (rx : Nat → Nat) (fp : List Nat),
      N_bytes ≤ addr + fuel → fp.length = addr →
      (∀ o, o < F.length → o < addr → fp.getD o 0 = F.getD o 0) →
      ∃ out, d_loop (ideal c) i2c_addr c.width N_bytes c.burst fuel addr rx fp mem =
          some (out, mem) ∧ N_bytes ≤ out.length ∧
        ∀ o, o < F.length → o < N_bytes → out.getD o 0 = F.getD o 0 := by
  intro fuel
  induction fuel with
  | zero =>
    intro addr rx fp hf hlen hinv
    have hnot : ¬ addr < N_bytes := by omega
    refine ⟨fp, ?_, by omega, fun o ho hoN => hinv o ho (by omega)⟩
    unfold d_loop
    simp [hnot]
  | succ fuel ih =>
    intro addr rx fp hf hlen hinv
    by_cases hlt : addr < N_bytes
    · obtain ⟨rx2, hstep⟩ :=
        d_loop_ideal_step c hw hb1 hb i2c_addr N_bytes fuel addr rx fp mem hlt
      rw [hstep, Nat.mod_eq_of_lt (show addr + c.burst < 2 ^ 32 by omega)]
      apply ih (addr + c.burst) rx2 _ (by omega) (by simp [hlen])
      intro o ho ho2
      by_cases ho3 : o < addr
      · rw [List.getD_append _ _ _ _ (by omega)]
        exact hinv o ho ho3
      · rw [List.getD_append_right _ _ _ _ (by omega), hlen,
          getD_range_map _ _ _ (by omega)]
        have haddr : (if c.width = 2 then addr % 65536 else addr % 256) = addr := by
          split_ifs at hsp ⊢
          · exact Nat.mod_eq_of_lt (by omega)
          · exact Nat.mod_eq_of_lt (by omega)
        have ho4 : addr + (o - addr) = o := by omega
        rw [haddr, ho4, Nat.mod_eq_of_lt (show o < c.cap by omega), hmem o ho, Nat.mod_mod]
        have hx : F.getD o 0 < 256 := by
          rw [List.getD_eq_getElem _ _ ho]
          exact hbytes _ (List.getElem_mem _)
        exact Nat.mod_eq_of_lt hx
    · refine ⟨fp, ?_, by omega, fun o ho hoN => hinv o ho (by omega)⟩
      unfold d_loop
      simp [hlt]

theorem take_eq_of_getD (out F : List Nat) (hlen : F.length ≤ out.length)
    (h : ∀ o, o < F.length → out.getD o 0 = F.getD o 0) : out.take F.length = F := by
  apply List.ext_getElem
  · simp [hlen]
  · intro n h1 h2
    have := h n h2
    rw [List.getD_eq_getElem _ _ (by omega), List.getD_eq_getElem _ _ h2] at this
    simp [List.getElem_take, this]

/-- Claim C6. Round trip on an ideal memory of address width 1 or 2 that
acknowledges every command, stores burst writes at consecutive addresses
and answers a read with `read_burst` bytes from consecutive addresses
(`1 ≤ read_burst ≤ 127`, which covers the legal values 1, 8, ..., 64):
for every file `F` of bytes that fits the capacity and the reach of the
address width, every write burst 1, 8, 16 or 32 and every download
capacity that covers `F.length`, `u_task` followed by `d_task` with the
same address width returns and the first `F.length` bytes of the output
file are `F`. -/
theorem upload_download_round_trip (c : Chip) (i2c_addr Nu Nd wb fuel : Nat) (F : List Nat)
    (writebuffer rx1 rx0 : Nat → Nat) (mem : Nat → Nat)
    (hw : c.width = 1 ∨ c.width = 2) (hb1 : 1 ≤ c.burst) (hb : c.burst ≤ 127)
    (hwb : wb = 1 ∨ wb = 8 ∨ wb = 16 ∨ wb = 32) (hbytes : ∀ x, x ∈ F → x < 256)
    (hcap : F.length ≤ c.cap) (hsp : F.length ≤ if c.width = 2 then 65536 else 256)
    (hNd : F.length ≤ bytes_or_default c.width Nd) (hNd2 : Nd + c.burst < 2 ^ 32)
    (hfuel : bytes_or_default c.width Nd ≤ fuel) :
    ∃ r, d_task (ideal c) fuel i2c_addr c.width Nd c.burst rx0
        (u_task (ideal c) i2c_addr c.width Nu wb (some F) writebuffer rx1 mem).st = some r ∧
      r.ret = 1 ∧ r.file.take F.length = F := by
  have hwd : width_or_default i2c_addr c.width = c.width := by
    unfold width_or_default
    rcases hw with h | h <;> simp [h]
  have hL : F.length < 2 ^ 32 := by
    split_ifs at hsp <;> omega
  have hup : (u_task (ideal c) i2c_addr c.width Nu wb (some F) writebuffer rx1 mem).st =
      (sent_after c.width i2c_addr wb F F.length).foldl (send (ideal c)) mem := by
    have key := u_loop_sends (ideal c) mem i2c_addr c.width wb F hwb hw hL F 0
      { st := mem, i := 1, mem_addr := 0, cnt_download := 0,
        writebuffer := writebuffer, rxbuffer := rx1, read_N := 0 }
      rfl (Nat.zero_le _) rfl
      (by rcases hwb with rfl | rfl | rfl | rfl <;> rfl)
      (by intro k hk; simp at hk)
      (by simp [sent_after])
    simp only [u_task, hwd, key]
  have hmem := upload_memory c hw i2c_addr wb F hwb hcap hsp mem
  rw [← hup] at hmem
  have hB : bytes_or_default c.width Nd + c.burst < 2 ^ 32 := by
    unfold bytes_or_default
    split_ifs <;> omega
  obtain ⟨out, hout, hlen, hget⟩ := d_loop_ideal c hw hb1 hb i2c_addr
    (bytes_or_default c.width Nd) F _ hmem hbytes hcap hsp hB fuel 0 rx0 []
    (by omega) rfl (fun o _ ho => by omega)
  unfold d_task
  rw [hwd, hout]
  refine ⟨_, rfl, rfl, ?_⟩
  exact take_eq_of_getD out F (by omega) (fun o ho => hget o ho (by omega))

/-- Witness for C6: device address 0x50, 1-byte addressing, capacity 256,
write burst 8, the ten sample bytes, read burst 8. -/
theorem upload_download_round_trip_witness :
    (chip256.width = 1 ∨ chip256.width = 2) ∧ 1 ≤ chip256.burst ∧ chip256.burst ≤ 127 ∧
    ((8 : Nat) = 1 ∨ (8 : Nat) = 8 ∨ (8 : Nat) = 16 ∨ (8 : Nat) = 32) ∧
    (∀ x, x ∈ sampleFile → x < 256) ∧ sampleFile.length ≤ chip256.cap ∧
    (sampleFile.length ≤ if chip256.width = 2 then 65536 else 256) ∧
    sampleFile.length ≤ bytes_or_default chip256.width 256 ∧ 256 + chip256.burst < 2 ^ 32 ∧
    bytes_or_default chip256.width 256 ≤ 256 ∧
    ∃ r, d_task (ideal chip256) 256 0x50 chip256.width 256 chip256.burst (fun _ => 0)
        (u_task (ideal chip256) 0x50 chip256.width 0 8 (some sampleFile) (fun _ => 0)
          (fun _ => 0) (fun _ => 0xFF)).st = some r ∧
      r.ret = 1 ∧ r.file.take sampleFile.length = sampleFile :=
  ⟨by decide, by decide, by decide, by decide, by decide, by decide, by decide, by decide,
    by decide, by decide,
    upload_download_round_trip chip256 0x50 0 256 8 256 sampleFile (fun _ => 0) (fun _ => 0)
      (fun _ => 0) (fun _ => 0xFF) (by decide) (by decide) (by decide) (by decide) (by decide)
      (by decide) (by decide) (by decide) (by decide) (by decide)⟩

/-! ## Autodetection with one lost command -/

section Flaky

variable {σ : Type} (T : Link σ)

theorem read_flaky_none (i2c_addr a : Nat) (rx : Nat → Nat) (s : σ) :
    read_from_eeprom (flaky T) i2c_addr a rx (s, none) =
      ((read_from_eeprom T i2c_addr a rx s).1, (read_from_eeprom T i2c_addr a rx s).2.1,
        ((read_from_eeprom T i2c_addr a rx s).2.2, none)) := rfl

theorem read_flaky_succ (i2c_addr a k : Nat) (rx : Nat → Nat) (s : σ) :
    read_from_eeprom (flaky T) i2c_addr a rx (s, some (k + 1)) =
      ((read_from_eeprom T i2c_addr a rx s).1, (read_from_eeprom T i2c_addr a rx s).2.1,
        ((read_from_eeprom T i2c_addr a rx s).2.2, some k)) := rfl

theorem read_flaky_zero (i2c_addr a : Nat) (rx : Nat → Nat) (s : σ) :
    read_from_eeprom (flaky T) i2c_addr a rx (s, some 0) = (fill rx [], 0, (s, none)) := rfl

theorem Read_flaky_none (i2c_addr a : Nat) (rx : Nat → Nat) (s : σ) :
    Read_from_eeprom (flaky T) i2c_addr a rx (s, none) =
      ((Read_from_eeprom T i2c_addr a rx s).1, (Read_from_eeprom T i2c_addr a rx s).2.1,
        ((Read_from_eeprom T i2c_addr a rx s).2.2, none)) := rfl

theorem Read_flaky_succ (i2c_addr a k : Nat) (rx : Nat → Nat) (s : σ) :
    Read_from_eeprom (flaky T) i2c_addr a rx (s, some (k + 1)) =
      ((Read_from_eeprom T i2c_addr a rx s).1, (Read_from_eeprom T i2c_addr a rx s).2.1,
        ((Read_from_eeprom T i2c_addr a rx s).2.2, some k)) := rfl

theorem Read_flaky_zero (i2c_addr a : Nat) (rx : Nat → Nat) (s : σ) :
    Read_from_eeprom (flaky T) i2c_addr a rx (s, some 0) = (fill rx [], 0, (s, none)) := rfl

theorem write_flaky_none (i2c_addr a x : Nat) (rx : Nat → Nat) (s : σ) :
    write_to_eeprom (flaky T) i2c_addr a x rx (s, none) =
      ((write_to_eeprom T i2c_addr a x rx s).1, (write_to_eeprom T i2c_addr a x rx s).2.1,
        ((write_to_eeprom T i2c_addr a x rx s).2.2, none)) := rfl

theorem write_flaky_succ (i2c_addr a x k : Nat) (rx : Nat → Nat) (s : σ) :
    write_to_eeprom (flaky T) i2c_addr a x rx (s, some (k + 1)) =
      ((write_to_eeprom T i2c_addr a x rx s).1, (write_to_eeprom T i2c_addr a x rx s).2.1,
        ((write_to_eeprom T i2c_addr a x rx s).2.2, some k)) := rfl

theorem write_flaky_zero (i2c_addr a x : Nat) (rx : Nat → Nat) (s : σ) :
    write_to_eeprom (flaky T) i2c_addr a x rx (s, some 0) = (fill rx [], 0, (s, none)) := rfl

theorem Write_flaky_none (i2c_addr a x : Nat) (rx : Nat → Nat) (s : σ) :
    Write_to_eeprom (flaky T) i2c_addr a x rx (s, none) =
      ((Write_to_eeprom T i2c_addr a x rx s).1, (Write_to_eeprom T i2c_addr a x rx s).2.1,
        ((Write_to_eeprom T i2c_addr a x rx s).2.2, none)) := rfl

theorem Write_flaky_succ (i2c_addr a x k : Nat) (rx : Nat → Nat) (s : σ) :
    Write_to_eeprom (flaky T) i2c_addr a x rx (s, some (k + 1)) =
      ((Write_to_eeprom T i2c_addr a x rx s).1, (Write_to_eeprom T i2c_addr a x rx s).2.1,
        ((Write_to_eeprom T i2c_addr a x rx s).2.2, some k)) := rfl

theorem Write_flaky_zero (i2c_addr a x : Nat) (rx : Nat → Nat) (s : σ) :
    Write_to_eeprom (flaky T) i2c_addr a x rx (s, some 0) = (fill rx [], 0, (s, none)) := rfl

end Flaky

theorem readOk_lost (rx : Nat → Nat) : readOk rx 0 = 0 := by
  simp [readOk]

theorem writeOk_lost (rx : Nat → Nat) : writeOk rx 0 = 0 := by
  simp [writeOk]

/-- On the ideal 2-byte-addressed memory behind a link that has no loss
left, the probe behaves as on the ideal memory itself. -/
theorem TestIfSizeIs_flaky_ideal2 (c : Chip) (hw : c.width = 2) (hb : 1 ≤ c.burst)
    (n i2c_addr : Nat) (mem : Nat → Nat) (h0 : mem 0 < 256) :
    TestIfSizeIs (flaky (ideal c)) n i2c_addr 2 (mem, none) =
      (if n % 65536 % c.cap = 0 then 1 else 0, (mem, none)) := by
  have hr1 := restore_zero mem (fun i => if i = 0 then (mem 0 % 256 + 1) % 256 else mem i) h0
    (fun i hi => by simp [hi])
  have hr2 := restore_zero mem mem h0 (fun i _ => rfl)
  simp only [TestIfSizeIs, OfNat.ofNat_ne_one, if_false, if_true, Read_flaky_none,
    Write_flaky_none, Read_ideal_ok c hb,
    Read_ideal_st, Read_ideal_val c hw hb, Write_ideal_ok, Write_ideal_st c hw, ne_eq,
    not_false_eq_true, Nat.zero_mod, Nat.mod_mod]
  by_cases ha : n % 65536 % c.cap = 0
  · simp only [ha, if_true, hr1, Nat.mod_mod]
  · simp only [ha, if_false, hr1]
    split_ifs with h1 h2
    · exfalso
      omega
    · rfl
    · rfl

/-- The capacity search over a link state `s` on which every probe answers
"alias" exactly for the multiples of the capacity `2 ^ e` and leaves `s` as
it is: it ends in state 7 with the capacity. -/
theorem m_scan_aliasing {σ : Type} (T : Link σ) (i2c_addr cap e : Nat) (s : σ)
    (hcap : cap = 2 ^ e) (he : e ≤ 16)
    (hprobe : ∀ n, TestIfSizeIs T n i2c_addr 2 s = (if n % 65536 % cap = 0 then 1 else 0, s)) :
    ∀ (fuel j : Nat) (v : MVars σ), v.L = 128 * 2 ^ j → 7 + j ≤ e →
      e < 7 + j + fuel → v.N_addr = 2 → v.st = s →
      ∃ r, m_scan T i2c_addr fuel v = some r ∧ r.state = 7 ∧ r.N_bytes = cap ∧
        r.N_addr = 2 ∧ r.st = s := by
  intro fuel
  induction fuel with
  | zero => intro j v _ _ hf _ _; omega
  | succ fuel ih =>
    intro j v hL hj hf hN hst
    have hLe : v.L = 2 ^ (7 + j) := by rw [hL, pow_add]; norm_num
    have hle : (2 : Nat) ^ (7 + j) ≤ 2 ^ e := Nat.pow_le_pow_right (by norm_num) hj
    have h16 : (2 : Nat) ^ e ≤ 2 ^ 16 := Nat.pow_le_pow_right (by norm_num) he
    unfold m_scan
    rw [hN, hst, hprobe v.L]
    by_cases hje : 7 + j = e
    · have halias : v.L % 65536 % cap = 0 := by
        rw [hcap, hLe, hje]
        by_cases h65 : (2 : Nat) ^ e = 65536
        · rw [h65]
        · rw [Nat.mod_eq_of_lt (show 2 ^ e < 65536 by omega), Nat.mod_self]
      simp only [halias, if_true]
      refine ⟨_, rfl, rfl, ?_, rfl, rfl⟩
      simp [hLe, hje, hcap]
    · have hlt : (2 : Nat) ^ (7 + j) < 2 ^ e :=
        Nat.pow_lt_pow_right (by norm_num) (by omega)
      have hno : ¬ v.L % 65536 % cap = 0 := by
        rw [hcap, hLe, Nat.mod_eq_of_lt (show 2 ^ (7 + j) < 65536 by omega),
          Nat.mod_eq_of_lt hlt]
        exact (Nat.pos_pow_of_pos _ (by norm_num)).ne'
      have hnext : v.L * 2 ≤ 65536 := by
        have : (2 : Nat) ^ (7 + j + 1) ≤ 2 ^ e := Nat.pow_le_pow_right (by norm_num) (by omega)
        rw [pow_succ] at this
        omega
      simp only [hno, if_false, hnext, if_true, ne_eq, not_true_eq_false]
      exact ih (j + 1) _ (by simp only [hL, pow_succ]; ring) (by omega) (by omega) rfl rfl

/-- States 2 to 5 on the ideal 2-byte-addressed memory behind a link with no
loss left: they end in state 6 with width 2 and the memory as it was. -/
theorem m_states_2_5_flaky_ideal2 (c : Chip) (hw : c.width = 2) (hb : 1 ≤ c.burst)
    (i2c_addr : Nat) (mem : Nat → Nat) (h0 : mem 0 < 256)
    (v : MVars ((Nat → Nat) × Option Nat)) (hs : v.state = 2) (hst : v.st = (mem, none)) :
    (m_state5 (flaky (ideal c)) i2c_addr (m_state4 (flaky (ideal c)) i2c_addr
      (m_state3 (flaky (ideal c)) i2c_addr (m_state2 (flaky (ideal c)) i2c_addr v)))).state = 6 ∧
    (m_state5 (flaky (ideal c)) i2c_addr (m_state4 (flaky (ideal c)) i2c_addr
      (m_state3 (flaky (ideal c)) i2c_addr (m_state2 (flaky (ideal c)) i2c_addr v)))).N_addr = 2 ∧
    (m_state5 (flaky (ideal c)) i2c_addr (m_state4 (flaky (ideal c)) i2c_addr
      (m_state3 (flaky (ideal c)) i2c_addr (m_state2 (flaky (ideal c)) i2c_addr v)))).st =
        (mem, none) := by
  have hr1 := restore_zero mem (fun i => if i = 0 then 1 % 256 else mem i) h0
    (fun i hi => by simp [hi])
  simp only [m_state2, m_state3, m_state4, m_state5, MVars.recv, hs, hst,
    if_true, Read_flaky_none, Write_flaky_none, Read_ideal_ok c hb,
    Read_ideal_st, Read_ideal_val c hw hb, Write_ideal_ok, Write_ideal_st c hw, ne_eq,
    not_false_eq_true, Nat.zero_mod, Nat.mod_mod, OfNat.ofNat_ne_one, if_false,
    Nat.reduceEqDiff, Nat.one_mod, hr1, Nat.reduceMod, and_self]

theorem m_state1_flaky_ideal (c : Chip) (hb : 1 ≤ c.burst) (i2c_addr k : Nat)
    (mem : Nat → Nat) (v : MVars ((Nat → Nat) × Option Nat)) (hs : v.state = 1)
    (hst : v.st = (mem, some k)) (hk : k ≤ 1) :
    (m_state1 (flaky (ideal c)) i2c_addr v).state = 2 ∧
    (m_state1 (flaky (ideal c)) i2c_addr v).st = (mem, none) := by
  have hk2 : k = 0 ∨ k = 1 := by omega
  rcases hk2 with rfl | rfl
  · simp only [m_state1, MVars.recv, hs, hst, if_true, read_flaky_zero, read_flaky_none,
      readOk_lost, read_ideal_ok c hb, read_ideal_st, ne_eq, not_true_eq_false, if_false,
      not_false_eq_true, and_self]
  · simp only [m_state1, MVars.recv, hs, hst, if_true, read_flaky_zero,
      read_flaky_succ (ideal c) i2c_addr 0 0, readOk_lost, read_ideal_ok c hb, read_ideal_st,
      ne_eq, not_true_eq_false, if_false, not_false_eq_true, and_self]

theorem m_task_flaky_ideal2_early (c : Chip) (e : Nat) (hw : c.width = 2) (hb : 1 ≤ c.burst)
    (hcap : c.cap = 2 ^ e) (he7 : 7 ≤ e) (he : e ≤ 16) (fuel i2c_addr k : Nat)
    (mem : Nat → Nat) (h0 : mem 0 < 256) (v : MVars ((Nat → Nat) × Option Nat))
    (hst : v.st = (mem, some k)) (hk : k ≤ 1) (hf : 10 ≤ fuel) :
    ∃ r, m_task (flaky (ideal c)) fuel i2c_addr v = some r ∧ r.st = (mem, none) := by
  obtain ⟨h2, hs2⟩ := m_state1_flaky_ideal c hb i2c_addr k mem { v with ret := 0, state := 1 }
    rfl hst hk
  unfold m_task m_states_1_5
  generalize m_state1 (flaky (ideal c)) i2c_addr { v with ret := 0, state := 1 } = v1 at h2 hs2 ⊢
  obtain ⟨h6, hN, hs6⟩ := m_states_2_5_flaky_ideal2 c hw hb i2c_addr mem h0 v1 h2 hs2
  generalize m_state5 (flaky (ideal c)) i2c_addr (m_state4 (flaky (ideal c)) i2c_addr
      (m_state3 (flaky (ideal c)) i2c_addr (m_state2 (flaky (ideal c)) i2c_addr v1))) = w
    at h6 hN hs6 ⊢
  obtain ⟨r, hr, h7, _, _, hst2⟩ := m_scan_aliasing (flaky (ideal c)) i2c_addr c.cap e
    (mem, none) hcap he
    (fun n => TestIfSizeIs_flaky_ideal2 c hw hb n i2c_addr mem h0)
    fuel 0 { w with L := 128, MODEL := 1 } (by simp) (by omega) (by omega) hN hs6
  unfold m_state6
  rw [if_pos h6, hr, Option.map_some']
  refine ⟨_, rfl, ?_⟩
  have hsw : m_switch i2c_addr r = { r with ret := 1 } := by
    simp [m_switch, h7]
  rw [hsw]
  exact hst2

theorem m_task_flaky_ideal2_state2 (c : Chip) (hb : 1 ≤ c.burst) (fuel i2c_addr : Nat)
    (mem : Nat → Nat) (v : MVars ((Nat → Nat) × Option Nat)) (hst : v.st = (mem, some 2)) :
    ∃ r, m_task (flaky (ideal c)) fuel i2c_addr v = some r ∧ r.st = (mem, none) := by
  simp [m_task, m_states_1_5, m_state1, m_state2, m_state3, m_state4, m_state5, m_state6,
    m_switch, MVars.recv, hst, Read_flaky_zero,
    read_flaky_succ (ideal c) i2c_addr 0 1, read_flaky_succ (ideal c) i2c_addr 1 0,
    readOk_lost, read_ideal_ok c hb, read_ideal_st]

theorem m_task_flaky_ideal2_state3 (c : Chip) (hb : 1 ≤ c.burst) (fuel i2c_addr : Nat)
    (mem : Nat → Nat) (v : MVars ((Nat → Nat) × Option Nat)) (hst : v.st = (mem, some 3)) :
    ∃ r, m_task (flaky (ideal c)) fuel i2c_addr v = some r ∧ r.st = (mem, none) := by
  simp [m_task, m_states_1_5, m_state1, m_state2, m_state3, m_state4, m_state5, m_state6,
    m_switch, MVars.recv, hst, Write_flaky_zero, Read_flaky_succ (ideal c) i2c_addr 0 0,
    read_flaky_succ (ideal c) i2c_addr 0 2, read_flaky_succ (ideal c) i2c_addr 1 1,
    writeOk_lost, read_ideal_ok c hb, read_ideal_st, Read_ideal_ok c hb, Read_ideal_st]

theorem TestIfSizeIs_addr2 {σ : Type} (T : Link σ) (n i2c_addr : Nat) (s : σ) :
    TestIfSizeIs T n i2c_addr 2 s =
      if readOk (Read_from_eeprom T i2c_addr 0 (fun _ => 0) s).1
          (Read_from_eeprom T i2c_addr 0 (fun _ => 0) s).2.1 ≠ 0 then
        if readOk (Read_from_eeprom T i2c_addr (n % 65536)
              (Read_from_eeprom T i2c_addr 0 (fun _ => 0) s).1
              (Read_from_eeprom T i2c_addr 0 (fun _ => 0) s).2.2).1
            (Read_from_eeprom T i2c_addr (n % 65536)
              (Read_from_eeprom T i2c_addr 0 (fun _ => 0) s).1
              (Read_from_eeprom T i2c_addr 0 (fun _ => 0) s).2.2).2.1 ≠ 0 then
          if (Read_from_eeprom T i2c_addr (n % 65536)
                (Read_from_eeprom T i2c_addr 0 (fun _ => 0) s).1
                (Read_from_eeprom T i2c_addr 0 (fun _ => 0) s).2.2).1 1 =
              (Read_from_eeprom T i2c_addr 0 (fun _ => 0) s).1 1 then
            probe_tail2 T n i2c_addr ((Read_from_eeprom T i2c_addr 0 (fun _ => 0) s).1 1)
              (Read_from_eeprom T i2c_addr (n % 65536)
                (Read_from_eeprom T i2c_addr 0 (fun _ => 0) s).1
                (Read_from_eeprom T i2c_addr 0 (fun _ => 0) s).2.2).1
              (Read_from_eeprom T i2c_addr (n % 65536)
                (Read_from_eeprom T i2c_addr 0 (fun _ => 0) s).1
                (Read_from_eeprom T i2c_addr 0 (fun _ => 0) s).2.2).2.2
          else (0, (Read_from_eeprom T i2c_addr (n % 65536)
                (Read_from_eeprom T i2c_addr 0 (fun _ => 0) s).1
                (Read_from_eeprom T i2c_addr 0 (fun _ => 0) s).2.2).2.2)
        else (0, (Read_from_eeprom T i2c_addr (n % 65536)
              (Read_from_eeprom T i2c_addr 0 (fun _ => 0) s).1
              (Read_from_eeprom T i2c_addr 0 (fun _ => 0) s).2.2).2.2)
      else (0, (Read_from_eeprom T i2c_addr 0 (fun _ => 0) s).2.2) := rfl

/-- A probe that loses one of its first three commands (`j ≤ 2` commands
pass before the loss) answers 0 and leaves the memory as it was. -/
theorem TestIfSizeIs_flaky_lost_early (c : Chip) (hw : c.width = 2) (hb : 1 ≤ c.burst)
    (n i2c_addr j : Nat) (mem : Nat → Nat) (hj : j < probe_len c mem n) (hj2 : j ≤ 2) :
    TestIfSizeIs (flaky (ideal c)) n i2c_addr 2 (mem, some j) = (0, (mem, none)) := by
  have hj3 : j = 0 ∨ j = 0 + 1 ∨ j = 0 + 1 + 1 := by omega
  rw [TestIfSizeIs_addr2]
  rcases hj3 with h | h | h
  · subst h
    simp only [Read_flaky_zero, readOk_lost, ne_eq, not_true_eq_false, if_false]
  · subst h
    simp only [Read_flaky_zero, Read_flaky_succ, readOk_lost, ne_eq, not_true_eq_false,
      Read_ideal_ok c hb, Read_ideal_st, not_false_eq_true, if_true, if_false]
  · have heq : mem (n % 65536 % c.cap) % 256 = mem 0 % 256 := by
      unfold probe_len at hj
      by_contra hne
      rw [if_neg hne] at hj
      omega
    subst h
    simp only [Read_flaky_succ, ne_eq, Read_ideal_ok c hb, Read_ideal_st,
      Read_ideal_val c hw hb, not_false_eq_true, if_true, Nat.zero_mod, Nat.mod_mod, heq]
    generalize (Read_from_eeprom (ideal c) i2c_addr (n % 65536)
      (Read_from_eeprom (ideal c) i2c_addr 0 (fun _ => 0) mem).1 mem).1 = rx
    unfold probe_tail2
    simp only [Write_flaky_zero, writeOk_lost, ne_eq, not_true_eq_false, if_false]

/-- A probe all of whose commands pass before the loss (`probe_len ≤ j`)
behaves as on the ideal memory, and the loss moves `probe_len` commands
closer. -/
theorem TestIfSizeIs_flaky_passed (c : Chip) (hw : c.width = 2) (hb : 1 ≤ c.burst)
    (n i2c_addr j : Nat) (mem : Nat → Nat) (h0 : mem 0 < 256) (hj : probe_len c mem n ≤ j) :
    TestIfSizeIs (flaky (ideal c)) n i2c_addr 2 (mem, some j) =
      (if n % 65536 % c.cap = 0 then 1 else 0, (mem, some (j - probe_len c mem n))) := by
  have hr1 := restore_zero mem (fun i => if i = 0 then (mem 0 % 256 + 1) % 256 else mem i) h0
    (fun i hi => by simp [hi])
  rw [TestIfSizeIs_addr2]
  by_cases heq : mem (n % 65536 % c.cap) % 256 = mem 0 % 256
  · have hlen : probe_len c mem n = 5 := by simp [probe_len, heq]
    rw [hlen] at hj ⊢
    obtain ⟨k, hk⟩ : ∃ k, j = k + 1 + 1 + 1 + 1 + 1 := ⟨j - 5, by omega⟩
    have hsub : j - 5 = k := by omega
    rw [hsub]
    subst hk
    simp only [Read_flaky_succ, ne_eq, Read_ideal_ok c hb, Read_ideal_st,
      Read_ideal_val c hw hb, not_false_eq_true, if_true, Nat.zero_mod, Nat.mod_mod, heq,
      probe_tail2, Write_flaky_succ, Write_ideal_ok, Write_ideal_st c hw]
    by_cases ha : n % 65536 % c.cap = 0
    · simp only [ha, if_true, hr1, Nat.mod_mod]
    · simp only [ha, if_false, hr1]
      split_ifs with h2
      · exfalso
        omega
      · rfl
  · have hlen : probe_len c mem n = 2 := by simp [probe_len, heq]
    rw [hlen] at hj ⊢
    obtain ⟨k, hk⟩ : ∃ k, j = k + 1 + 1 := ⟨j - 2, by omega⟩
    have hsub : j - 2 = k := by omega
    rw [hsub]
    subst hk
    have ha : ¬ n % 65536 % c.cap = 0 := by
      intro h
      rw [h] at heq
      exact heq rfl
    simp only [Read_flaky_succ, ne_eq, Read_ideal_ok c hb, Read_ideal_st,
      Read_ideal_val c hw hb, not_false_eq_true, if_true, Nat.zero_mod, Nat.mod_mod, heq,
      if_false, ha]

theorem m_scan_flaky_none (c : Chip) (hw : c.width = 2) (hb : 1 ≤ c.burst) (i2c_addr : Nat)
    (mem : Nat → Nat) (h0 : mem 0 < 256) :
    ∀ (fuel : Nat) (v r : MVars ((Nat → Nat) × Option Nat)), v.N_addr = 2 →
      v.st = (mem, none) → m_scan (flaky (ideal c)) i2c_addr fuel v = some r →
      r.st = (mem, none) := by
  intro fuel
  induction fuel with
  | zero => intro v r _ _ h; simp [m_scan] at h
  | succ fuel ih =>
    intro v r hN hst h
    have hT : (TestIfSizeIs (flaky (ideal c)) v.L i2c_addr v.N_addr v.st).2 = (mem, none) := by
      rw [hN, hst, TestIfSizeIs_flaky_ideal2 c hw hb v.L i2c_addr mem h0]
    unfold m_scan at h
    split_ifs at h with h1 h2
    · cases h; exact hT
    · exact ih { v with st := (TestIfSizeIs (flaky (ideal c)) v.L i2c_addr v.N_addr v.st).2,
                        L := v.L * 2, MODEL := v.MODEL * 2 } r hN hT h
    · cases h; exact hT

theorem m_scan_flaky_count (c : Chip) (hw : c.width = 2) (hb : 1 ≤ c.burst) (i2c_addr : Nat)
    (mem : Nat → Nat) (h0 : mem 0 < 256) :
    ∀ (fuel p i j : Nat) (v r : MVars ((Nat → Nat) × Option Nat)), v.N_addr = 2 →
      v.st = (mem, some j) → v.L = 128 * 2 ^ i → i + p = 10 → 0 < p →
      loss_safe c mem p v.L j →
      m_scan (flaky (ideal c)) i2c_addr fuel v = some r → r.st.1 = mem := by
  intro fuel
  induction fuel with
  | zero => intro p i j v r _ _ _ _ _ _ h; simp [m_scan] at h
  | succ fuel ih =>
    intro p i j v r hN hst hL hip hp hsafe h
    obtain ⟨q, rfl⟩ : ∃ q, p = q + 1 := ⟨p - 1, by omega⟩
    unfold loss_safe at hsafe
    unfold m_scan at h
    rw [hN, hst] at h
    by_cases hlen : j < probe_len c mem v.L
    · rw [if_pos hlen] at hsafe
      rw [TestIfSizeIs_flaky_lost_early c hw hb v.L i2c_addr j mem hlen hsafe] at h
      simp only [ne_eq, not_true_eq_false, if_false] at h
      split_ifs at h with h2
      · have := m_scan_flaky_none c hw hb i2c_addr mem h0 fuel _ r rfl rfl h
        rw [this]
      · cases h; rfl
    · rw [if_neg hlen] at hsafe
      rw [TestIfSizeIs_flaky_passed c hw hb v.L i2c_addr j mem h0 (by omega)] at h
      by_cases ha : v.L % 65536 % c.cap = 0
      · simp only [ha, if_true, ne_eq, one_ne_zero, not_false_eq_true] at h
        cases h; rfl
      · rw [if_neg ha] at hsafe
        simp only [ha, if_false, ne_eq, not_true_eq_false] at h
        split_ifs at h with h2
        · have hq : 0 < q := by
            by_contra hc
            have hi9 : i = 9 := by omega
            subst hi9
            rw [hL] at h2
            norm_num at h2
          exact ih q (i + 1) _ _ r rfl rfl (by simp only [hL, pow_succ]; ring) (by omega) hq
            hsafe h
        · cases h; rfl

theorem m_switch_st {σ : Type} (i2c_addr : Nat) (v : MVars σ) :
    (m_switch i2c_addr v).st = v.st := by
  unfold m_switch
  split_ifs <;> rfl

theorem m_task_returns_some {σ : Type} (T : Link σ) (fuel i2c_addr : Nat) (v : MVars σ)
    (hf : 10 ≤ fuel) : ∃ r, m_task T fuel i2c_addr v = some r := by
  unfold m_task m_state6
  by_cases hs : (m_states_1_5 T i2c_addr v).state = 6
  · obtain ⟨r, hr, _⟩ := m_scan_returns T i2c_addr fuel 0
      { m_states_1_5 T i2c_addr v with L := 128, MODEL := 1 } (by simp) (by omega) (by omega) hs
    rw [if_pos hs, hr]
    exact ⟨_, rfl⟩
  · rw [if_neg hs]
    exact ⟨_, rfl⟩

theorem m_state1_flaky_pass (c : Chip) (hb : 1 ≤ c.burst) (i2c_addr j : Nat)
    (mem : Nat → Nat) (v : MVars ((Nat → Nat) × Option Nat)) (hs : v.state = 1)
    (hst : v.st = (mem, some (j + 1 + 1))) :
    (m_state1 (flaky (ideal c)) i2c_addr v).state = 2 ∧
    (m_state1 (flaky (ideal c)) i2c_addr v).st = (mem, some j) := by
  simp only [m_state1, MVars.recv, hs, hst, if_true, read_flaky_succ, read_ideal_ok c hb,
    read_ideal_st, ne_eq, not_false_eq_true, and_self]

theorem m_state2_flaky_pass (c : Chip) (hw : c.width = 2) (hb : 1 ≤ c.burst)
    (i2c_addr j : Nat) (mem : Nat → Nat) (v : MVars ((Nat → Nat) × Option Nat))
    (hs : v.state = 2) (hst : v.st = (mem, some (j + 1))) :
    (m_state2 (flaky (ideal c)) i2c_addr v).state = 3 ∧
    (m_state2 (flaky (ideal c)) i2c_addr v).st = (mem, some j) ∧
    (m_state2 (flaky (ideal c)) i2c_addr v).read_value_2byteaddr = mem 0 % 256 := by
  simp only [m_state2, MVars.recv, hs, hst, if_true, Read_flaky_succ, Read_ideal_ok c hb,
    Read_ideal_st, Read_ideal_val c hw hb, ne_eq, not_false_eq_true, Nat.zero_mod, and_self]

theorem m_state3_flaky_pass (c : Chip) (hw : c.width = 2) (i2c_addr j x : Nat)
    (mem : Nat → Nat) (v : MVars ((Nat → Nat) × Option Nat)) (hs : v.state = 3)
    (hst : v.st = (mem, some (j + 1))) (hv : v.read_value_2byteaddr = x) :
    (m_state3 (flaky (ideal c)) i2c_addr v).state = 4 ∧
    (m_state3 (flaky (ideal c)) i2c_addr v).st =
      ((fun i => if i = 0 then 1 else mem i), some j) ∧
    (m_state3 (flaky (ideal c)) i2c_addr v).read_value_2byteaddr = x := by
  simp only [m_state3, MVars.recv, hs, hst, hv, if_true, Write_flaky_succ, Write_ideal_ok,
    Write_ideal_st c hw, ne_eq, not_false_eq_true, Nat.one_mod, and_self]

theorem m_state4_flaky_pass (c : Chip) (hw : c.width = 2) (hb : 1 ≤ c.burst)
    (i2c_addr j x : Nat) (mem : Nat → Nat) (v : MVars ((Nat → Nat) × Option Nat))
    (hs : v.state = 4) (hst : v.st = (mem, some (j + 1))) (hv : v.read_value_2byteaddr = x) :
    (m_state4 (flaky (ideal c)) i2c_addr v).state = 5 ∧
    (m_state4 (flaky (ideal c)) i2c_addr v).st = (mem, some j) ∧
    (m_state4 (flaky (ideal c)) i2c_addr v).read_value_2byteaddr = x ∧
    (m_state4 (flaky (ideal c)) i2c_addr v).rxbuffer 1 = mem 0 % 256 := by
  simp only [m_state4, MVars.recv, hs, hst, hv, if_true, Read_flaky_succ, Read_ideal_ok c hb,
    Read_ideal_st, Read_ideal_val c hw hb, ne_eq, not_false_eq_true, Nat.zero_mod, and_self]

theorem m_state5_flaky_pass (c : Chip) (hw : c.width = 2) (i2c_addr j x : Nat)
    (mem : Nat → Nat) (v : MVars ((Nat → Nat) × Option Nat)) (hs : v.state = 5)
    (hst : v.st = (mem, some (j + 1))) (hv : v.read_value_2byteaddr = x)
    (hrx : v.rxbuffer 1 = 1) :
    (m_state5 (flaky (ideal c)) i2c_addr v).state = 6 ∧
    (m_state5 (flaky (ideal c)) i2c_addr v).N_addr = 2 ∧
    (m_state5 (flaky (ideal c)) i2c_addr v).st =
      ((fun i => if i = 0 then x % 256 else mem i), some j) := by
  simp only [m_state5, MVars.recv, hs, hst, hv, hrx, if_true, Write_flaky_succ, Write_ideal_ok,
    Write_ideal_st c hw, ne_eq, not_false_eq_true, and_self]

/-- States 1 to 5 on the ideal 2-byte-addressed memory when the loss is at
least six commands away: they end in state 6 with width 2, the memory as it
was and the loss six commands closer. -/
theorem m_states_1_5_flaky_pass (c : Chip) (hw : c.width = 2) (hb : 1 ≤ c.burst)
    (i2c_addr j : Nat) (mem : Nat → Nat) (h0 : mem 0 < 256)
    (v : MVars ((Nat → Nat) × Option Nat))
    (hst : v.st = (mem, some (j + 1 + 1 + 1 + 1 + 1 + 1))) :
    (m_states_1_5 (flaky (ideal c)) i2c_addr v).state = 6 ∧
    (m_states_1_5 (flaky (ideal c)) i2c_addr v).N_addr = 2 ∧
    (m_states_1_5 (flaky (ideal c)) i2c_addr v).st = (mem, some j) := by
  unfold m_states_1_5
  obtain ⟨a1, a2⟩ := m_state1_flaky_pass c hb i2c_addr (j + 1 + 1 + 1 + 1) mem
    { v with ret := 0, state := 1 } rfl hst
  generalize m_state1 (flaky (ideal c)) i2c_addr { v with ret := 0, state := 1 } = v1 at a1 a2 ⊢
  obtain ⟨b1, b2, b3⟩ := m_state2_flaky_pass c hw hb i2c_addr (j + 1 + 1 + 1) mem v1 a1 a2
  generalize m_state2 (flaky (ideal c)) i2c_addr v1 = v2 at b1 b2 b3 ⊢
  obtain ⟨c1, c2, c3⟩ := m_state3_flaky_pass c hw i2c_addr (j + 1 + 1) _ mem v2 b1 b2 b3
  generalize m_state3 (flaky (ideal c)) i2c_addr v2 = v3 at c1 c2 c3 ⊢
  obtain ⟨d1, d2, d3, d4⟩ := m_state4_flaky_pass c hw hb i2c_addr (j + 1) _ _ v3 c1 c2 c3
  generalize m_state4 (flaky (ideal c)) i2c_addr v3 = v4 at d1 d2 d3 d4 ⊢
  obtain ⟨e1, e2, e3⟩ := m_state5_flaky_pass c hw i2c_addr j _ _ v4 d1 d2 d3
    (by rw [d4]; simp)
  refine ⟨e1, e2, ?_⟩
  rw [e3]
  congr 1
  have := restore_zero mem (fun i => if i = 0 then 1 else mem i) h0 (fun i hi => by simp [hi])
  rw [← this]
  funext i
  by_cases hi : i = 0
  · simp [hi]
  · simp [hi]

theorem m_task_flaky_ideal2_search (c : Chip) (hw : c.width = 2) (hb : 1 ≤ c.burst)
    (fuel i2c_addr k : Nat) (mem : Nat → Nat) (h0 : mem 0 < 256)
    (v : MVars ((Nat → Nat) × Option Nat)) (hst : v.st = (mem, some k)) (hk : 6 ≤ k)
    (hsafe : loss_safe c mem 10 128 (k - 6)) (hf : 10 ≤ fuel) :
    ∃ r, m_task (flaky (ideal c)) fuel i2c_addr v = some r ∧ r.st.1 = mem := by
  obtain ⟨j, hj⟩ : ∃ j, k = j + 1 + 1 + 1 + 1 + 1 + 1 := ⟨k - 6, by omega⟩
  have hsub : k - 6 = j := by omega
  rw [hsub] at hsafe
  subst hj
  obtain ⟨r, hr⟩ := m_task_returns_some (flaky (ideal c)) fuel i2c_addr v hf
  refine ⟨r, hr, ?_⟩
  obtain ⟨h6, hN, hs6⟩ := m_states_1_5_flaky_pass c hw hb i2c_addr j mem h0 v hst
  unfold m_task m_state6 at hr
  generalize m_states_1_5 (flaky (ideal c)) i2c_addr v = w at h6 hN hs6 hr
  rw [if_pos h6] at hr
  cases hscan : m_scan (flaky (ideal c)) i2c_addr fuel { w with L := 128, MODEL := 1 } with
  | none => rw [hscan] at hr; cases hr
  | some r0 =>
    rw [hscan, Option.map_some'] at hr
    cases hr
    rw [m_switch_st]
    exact m_scan_flaky_count c hw hb i2c_addr mem h0 fuel 10 0 j
      { w with L := 128, MODEL := 1 } r0 hN hs6 (by simp) (by omega) (by omega) hsafe hscan

theorem writeOk_fill (rx : Nat → Nat) (r : List Nat) :
    writeOk (fill rx r) r.length = writeOk (fill (fun _ => 0) r) r.length := by
  unfold writeOk fill
  by_cases h : r.length = 1
  · simp [h]
  · simp [h]

theorem read_acked_ok (rx : Nat → Nat) (r : List Nat) (h : read_acked r) :
    readOk (fill rx (r.take RX_BUFFER_SIZE)) (r.take RX_BUFFER_SIZE).length ≠ 0 := by
  rw [readOk_fill]; exact h

theorem write_acked_ok (rx : Nat → Nat) (r : List Nat) (h : write_acked r) :
    writeOk (fill rx (r.take 1)) (r.take 1).length ≠ 0 := by
  rw [writeOk_fill]; exact h

theorem read_acked_val (rx : Nat → Nat) (r : List Nat) (h : read_acked r) :
    fill rx (r.take RX_BUFFER_SIZE) 1 = r.getD 1 0 % 256 := by
  have h2 : 2 ≤ (r.take RX_BUFFER_SIZE).length := by
    unfold read_acked readOk at h
    split_ifs at h with hh
    · exact hh.1
    · exact absurd rfl h
  unfold fill
  rw [if_pos (by omega)]
  congr 1
  rw [List.getD_eq_getElem?_getD, List.getD_eq_getElem?_getD,
    List.getElem?_take_of_lt (by simp [RX_BUFFER_SIZE])]

theorem Read_scripted (resp : Nat → List Nat) (i2c_addr a : Nat) (rx : Nat → Nat)
    (log : List (List Nat)) :
    Read_from_eeprom (scripted resp) i2c_addr a rx log =
      (fill rx ((resp log.length).take RX_BUFFER_SIZE),
        ((resp log.length).take RX_BUFFER_SIZE).length, log ++ [frame_R i2c_addr a]) := rfl

theorem Write_scripted (resp : Nat → List Nat) (i2c_addr a x : Nat) (rx : Nat → Nat)
    (log : List (List Nat)) :
    Write_to_eeprom (scripted resp) i2c_addr a x rx log =
      (fill rx ((resp log.length).take 1),
        ((resp log.length).take 1).length, log ++ [frame_W i2c_addr a [x]]) := rfl

theorem read_scripted (resp : Nat → List Nat) (i2c_addr a : Nat) (rx : Nat → Nat)
    (log : List (List Nat)) :
    read_from_eeprom (scripted resp) i2c_addr a rx log =
      (fill rx ((resp log.length).take RX_BUFFER_SIZE),
        ((resp log.length).take RX_BUFFER_SIZE).length, log ++ [frame_r i2c_addr a]) := rfl

theorem write_scripted (resp : Nat → List Nat) (i2c_addr a x : Nat) (rx : Nat → Nat)
    (log : List (List Nat)) :
    write_to_eeprom (scripted resp) i2c_addr a x rx log =
      (fill rx ((resp log.length).take 1),
        ((resp log.length).take 1).length, log ++ [frame_w i2c_addr a [x]]) := rfl

/-- In a capacity probe whose two reads are acknowledged with equal first
data bytes, whose probe write is acknowledged and whose read back is
acknowledged, the fifth and last command is the write of the saved value to
address 0. -/
theorem TestIfSizeIs_restore_issued (resp : Nat → List Nat) (n i2c_addr addressing : Nat)
    (log : List (List Nat)) (hA : addressing = 1 ∨ addressing = 2)
    (h0 : read_acked (resp log.length)) (h1 : read_acked (resp (log.length + 1)))
    (heq : (resp (log.length + 1)).getD 1 0 % 256 = (resp log.length).getD 1 0 % 256)
    (h2 : write_acked (resp (log.length + 1 + 1)))
    (h3 : read_acked (resp (log.length + 1 + 1 + 1))) :
    (TestIfSizeIs (scripted resp) n i2c_addr addressing log).2 =
      log ++ [read_frame addressing i2c_addr 0,
        read_frame addressing i2c_addr (if addressing = 2 then n % 65536 else n),
        write_frame addressing i2c_addr 0 [(resp log.length).getD 1 0 % 256 + 1],
        read_frame addressing i2c_addr (if addressing = 2 then n % 65536 else n),
        write_frame addressing i2c_addr 0 [(resp log.length).getD 1 0 % 256]] := by
  rcases hA with rfl | rfl
  · simp only [TestIfSizeIs, if_true, read_scripted, write_scripted, List.length_append,
      List.length_singleton, read_acked_ok _ _ h0, read_acked_ok _ _ h1, read_acked_ok _ _ h3,
      write_acked_ok _ _ h2, read_acked_val _ _ h0, read_acked_val _ _ h1, heq, ne_eq,
      not_false_eq_true, read_frame, write_frame, OfNat.one_ne_ofNat, if_false]
    split_ifs <;> simp
  · simp only [TestIfSizeIs, if_true, Read_scripted, Write_scripted, List.length_append,
      List.length_singleton, read_acked_ok _ _ h0, read_acked_ok _ _ h1, read_acked_ok _ _ h3,
      write_acked_ok _ _ h2, read_acked_val _ _ h0, read_acked_val _ _ h1, heq, ne_eq,
      not_false_eq_true, read_frame, write_frame, OfNat.ofNat_ne_one, if_false]
    split_ifs <;> simp

/-- Claim C1 as amended. On the ideal 2-byte-addressed memory of capacity
`2 ^ e`, `7 ≤ e ≤ 16`, holding bytes, behind a link that loses exactly one
command, the `k`-th (from 0; the lost command does not reach the memory and
is not acknowledged): when the lost command is one of the first four (the
reads of states 1 and 2, the probe write of state 3), or one of the first
three commands of a capacity probe of state 6 (first read, second read,
probe write), `m_task` returns and the memory afterwards is the memory
before. Moreover, on any device, a capacity probe whose two reads are
acknowledged with equal data, whose probe write is acknowledged and whose
read back is acknowledged issues the write of the saved original value to
address 0 as its last command. -/
theorem m_task_one_loss_memory_kept (c : Chip) (e fuel i2c_addr k : Nat) (mem : Nat → Nat)
    (v : MVars ((Nat → Nat) × Option Nat))
    (hw : c.width = 2) (hb : 1 ≤ c.burst) (hcap : c.cap = 2 ^ e) (he7 : 7 ≤ e) (he : e ≤ 16)
    (hmem : ∀ a, mem a < 256) (hst : v.st = (mem, some k))
    (hk : k ≤ 3 ∨ (6 ≤ k ∧ loss_safe c mem 10 128 (k - 6))) (hf : 10 ≤ fuel) :
    (∃ r, m_task (flaky (ideal c)) fuel i2c_addr v = some r ∧ r.st.1 = mem) ∧
    (∀ (resp : Nat → List Nat) (n addressing : Nat) (log : List (List Nat)),
      addressing = 1 ∨ addressing = 2 →
      read_acked (resp log.length) → read_acked (resp (log.length + 1)) →
      (resp (log.length + 1)).getD 1 0 % 256 = (resp log.length).getD 1 0 % 256 →
      write_acked (resp (log.length + 1 + 1)) → read_acked (resp (log.length + 1 + 1 + 1)) →
      (TestIfSizeIs (scripted resp) n i2c_addr addressing log).2 =
        log ++ [read_frame addressing i2c_addr 0,
          read_frame addressing i2c_addr (if addressing = 2 then n % 65536 else n),
          write_frame addressing i2c_addr 0 [(resp log.length).getD 1 0 % 256 + 1],
          read_frame addressing i2c_addr (if addressing = 2 then n % 65536 else n),
          write_frame addressing i2c_addr 0 [(resp log.length).getD 1 0 % 256]]) := by
  refine ⟨?_, ?_⟩
  · rcases hk with h3 | ⟨h6, hsafe⟩
    · have hcases : k ≤ 1 ∨ k = 2 ∨ k = 3 := by omega
      rcases hcases with h | h | h
      · obtain ⟨r, hr, hrs⟩ := m_task_flaky_ideal2_early c e hw hb hcap he7 he fuel i2c_addr k
          mem (hmem 0) v hst h hf
        exact ⟨r, hr, by rw [hrs]⟩
      · subst h
        obtain ⟨r, hr, hrs⟩ := m_task_flaky_ideal2_state2 c hb fuel i2c_addr mem v hst
        exact ⟨r, hr, by rw [hrs]⟩
      · subst h
        obtain ⟨r, hr, hrs⟩ := m_task_flaky_ideal2_state3 c hb fuel i2c_addr mem v hst
        exact ⟨r, hr, by rw [hrs]⟩
    · exact m_task_flaky_ideal2_search c hw hb fuel i2c_addr k mem (hmem 0) v hst h6 hsafe hf
  · intro resp n addressing log hA h0 h1 heq h2 h3
    exact TestIfSizeIs_restore_issued resp n i2c_addr addressing log hA h0 h1 heq h2 h3

/-- Witness for the amended C1: the 512-byte memory holding 0 everywhere,
the probe write of the first capacity probe (command 8) lost. -/
theorem m_task_one_loss_memory_kept_witness :
    chip512.width = 2 ∧ 1 ≤ chip512.burst ∧ chip512.cap = 2 ^ 9 ∧ 7 ≤ 9 ∧ 9 ≤ 16 ∧
    (∀ a, (fun _ => 0 : Nat → Nat) a < 256) ∧
    (MVars.entry ((fun _ => 0 : Nat → Nat), some 8) 0 0 0 :
      MVars ((Nat → Nat) × Option Nat)).st = ((fun _ => 0), some 8) ∧
    (8 ≤ 3 ∨ (6 ≤ 8 ∧ loss_safe chip512 (fun _ => 0) 10 128 (8 - 6))) ∧ 10 ≤ 10 ∧
    ∃ r, m_task (flaky (ideal chip512)) 10 0x54
        (MVars.entry ((fun _ => 0 : Nat → Nat), some 8) 0 0 0) = some r ∧
      r.st.1 = (fun _ => 0) :=
  ⟨by decide, by decide, by decide, by decide, by decide,
    fun _ => (by decide : (0 : Nat) < 256), rfl,
    Or.inr ⟨by decide, by simp [loss_safe, probe_len]⟩, by decide,
    (m_task_one_loss_memory_kept chip512 9 10 0x54 8 (fun _ => 0)
      (MVars.entry ((fun _ => 0 : Nat → Nat), some 8) 0 0 0)
      (by decide) (by decide) (by decide) (by decide) (by decide)
      (fun _ => (by decide : (0 : Nat) < 256)) rfl
      (Or.inr ⟨by decide, by simp [loss_safe, probe_len]⟩) (by decide)).1⟩

/-! ## Return value of the download -/

set_option maxRecDepth 100000 in
/-- Claim C11, evaluated on aborted downloads. With read burst 24 and capacity
128 the third read is answered by NACK: `d_task` stops with 48 of the 128
bytes in the file and returns 1. With the unsupported address width 3 it
stops before the first read, the file empty, and returns 1 as well. In both
runs the status returned is 1, not 0. -/
theorem d_task_aborted_returns_one :
    ¬ read_acked (nackThird 2) ∧
    (∃ r, d_task (scripted nackThird) 10 0x50 1 128 24 (fun _ => 0) [] = some r ∧
      r.ret = 1 ∧ r.file.length = 48 ∧ r.N_bytes = 128) ∧
    (∃ r, d_task (scripted (fun _ => ack24)) 10 0x50 3 128 24 (fun _ => 0) [] = some r ∧
      r.ret = 1 ∧ r.file = [] ∧ r.st = [] ∧ r.N_addr = 3) := by
  refine ⟨by decide, ⟨_, rfl, ?_, ?_, ?_⟩, ⟨_, rfl, ?_, ?_, ?_, ?_⟩⟩ <;> decide

/-! ## Firmware dispatcher -/

theorem serve_cons {β : Type} (H : Board β) (s : Fw β) (op : Nat) (args : List Nat) :
    serve H s (op :: args) =
      usb_serial_flush_input (dispatch H
        { s with hw := idle_writepin H s.hw, rx := args, tx := [], task := op % 256 }) := by
  simp [serve, main_loop, usb_serial_available, usb_serial_getchar]

theorem serve_nil {β : Type} (H : Board β) (s : Fw β) :
    serve H s [] = { s with hw := idle_writepin H s.hw, rx := [], tx := [] } := by
  simp [serve, main_loop, usb_serial_available]

theorem dispatch_b {β : Type} (H : Board β) (s : Fw β) (h : s.task = 0x62) :
    dispatch H s = case_b s := by
  simp [dispatch, h]

theorem dispatch_r {β : Type} (H : Board β) (s : Fw β) (h : s.task = 0x72) :
    dispatch H s = case_r H s := by
  simp [dispatch, h]

theorem dispatch_R {β : Type} (H : Board β) (s : Fw β) (h : s.task = 0x52) :
    dispatch H s = case_R H s := by
  simp [dispatch, h]

theorem dispatch_w {β : Type} (H : Board β) (s : Fw β) (h : s.task = 0x77) :
    dispatch H s = case_w H s := by
  simp [dispatch, h]

theorem dispatch_W {β : Type} (H : Board β) (s : Fw β) (h : s.task = 0x57) :
    dispatch H s = case_W H s := by
  simp [dispatch, h]

theorem fetch_data_fields {β : Type} (offset : Nat) (todo : Nat) (s : Fw β) :
    (fetch_data offset todo s).hw = s.hw ∧ (fetch_data offset todo s).tx = s.tx ∧
    (fetch_data offset todo s).bytes_to_read = s.bytes_to_read ∧
    (fetch_data offset todo s).bytes_to_write = s.bytes_to_write ∧
    (fetch_data offset todo s).i2c_addr = s.i2c_addr ∧
    (fetch_data offset todo s).rx = s.rx.drop todo ∧
    (fetch_data offset todo s).i = s.i + todo := by
  induction todo generalizing s with
  | zero => simp [fetch_data]
  | succ n ih =>
    obtain ⟨h1, h2, h3, h4, h5, h6, h7⟩ := ih
      { (usb_serial_getchar s).2 with
        fru_data := (usb_serial_getchar s).1,
        i2c_buf := fun k => if k = offset + s.i then (usb_serial_getchar s).1
                            else s.i2c_buf k,
        i := s.i + 1 }
    simp only [fetch_data, h1, h2, h3, h4, h5, h6, h7]
    simp [usb_serial_getchar]
    omega

theorem scan_loop_fields {β : Type} (H : Board β) (todo : Nat) (s : Fw β) :
    (scan_loop H todo s).bytes_to_read = s.bytes_to_read ∧
    (scan_loop H todo s).rx = s.rx := by
  induction todo generalizing s with
  | zero => simp [scan_loop]
  | succ n ih =>
    simp only [scan_loop]
    constructor
    · rw [(ih _).1]; split_ifs <;> simp [usb_serial_putchar]
    · rw [(ih _).2]; split_ifs <;> simp [usb_serial_putchar]

theorem case_r_bytes_to_read {β : Type} (H : Board β) (s : Fw β) :
    (case_r H s).bytes_to_read = s.bytes_to_read := by
  unfold case_r
  split_ifs <;> rfl

theorem case_R_bytes_to_read {β : Type} (H : Board β) (s : Fw β) :
    (case_R H s).bytes_to_read = s.bytes_to_read := by
  unfold case_R
  split_ifs <;> rfl

theorem case_s_bytes_to_read {β : Type} (H : Board β) (s : Fw β) :
    (case_s H s).bytes_to_read = s.bytes_to_read := by
  unfold case_s
  simp only [usb_serial_putchar, (scan_loop_fields _ _ _).1]

theorem case_w_bytes_to_read {β : Type} (H : Board β) (s : Fw β) :
    (case_w H s).bytes_to_read = s.bytes_to_read := by
  unfold case_w
  split_ifs
  · simp only [(fetch_data_fields _ _ _).2.2.1]
    rfl
  · rfl

theorem case_W_bytes_to_read {β : Type} (H : Board β) (s : Fw β) :
    (case_W H s).bytes_to_read = s.bytes_to_read := by
  unfold case_W
  split_ifs
  · simp only [(fetch_data_fields _ _ _).2.2.1]
    rfl
  · rfl

/-- Only the command `b` changes the read-burst length. -/
theorem dispatch_bytes_to_read {β : Type} (H : Board β) (s : Fw β) (h : s.task ≠ 0x62) :
    (dispatch H s).bytes_to_read = s.bytes_to_read := by
  unfold dispatch
  rw [if_neg h]
  by_cases h1 : s.task = 0x66
  · rw [if_pos h1]; rfl
  rw [if_neg h1]
  by_cases h2 : s.task = 0x67
  · rw [if_pos h2]; rfl
  rw [if_neg h2]
  by_cases h3 : s.task = 0x70
  · rw [if_pos h3]; split_ifs <;> rfl
  rw [if_neg h3]
  by_cases h4 : s.task = 0x50
  · rw [if_pos h4]; split_ifs <;> rfl
  rw [if_neg h4]
  by_cases h5 : s.task = 0x72
  · rw [if_pos h5]; exact case_r_bytes_to_read H s
  rw [if_neg h5]
  by_cases h6 : s.task = 0x52
  · rw [if_pos h6]; exact case_R_bytes_to_read H s
  rw [if_neg h6]
  by_cases h7 : s.task = 0x73
  · rw [if_pos h7]; exact case_s_bytes_to_read H s
  rw [if_neg h7]
  by_cases h8 : s.task = 0x76
  · rw [if_pos h8]; rfl
  rw [if_neg h8]
  by_cases h9 : s.task = 0x77
  · rw [if_pos h9]; exact case_w_bytes_to_read H s
  rw [if_neg h9]
  by_cases h10 : s.task = 0x57
  · rw [if_pos h10]; exact case_W_bytes_to_read H s
  rw [if_neg h10]

/-- Claim C20. For every state of the dispatcher, in particular for every
first byte `task` (a command or not) and every further buffered input
`rest`, the transport input buffer is empty after one turn of the main
loop: what the command did not consume is discarded. -/
theorem main_loop_leaves_input_empty {β : Type} (H : Board β) (s : Fw β) :
    (main_loop H s).rx = [] ∧
    ∀ task rest, (serve H s (task :: rest)).rx = [] ∧
      usb_serial_available (serve H s (task :: rest)) = 0 := by
  refine ⟨?_, fun task rest => ?_⟩
  · unfold main_loop
    simp only [usb_serial_available]
    split_ifs with h
    · rfl
    · exact List.length_eq_zero.mp (Nat.eq_zero_of_not_pos h)
  · rw [serve_cons]
    simp [usb_serial_flush_input, usb_serial_available]

/-- Claim C15. A command with the wrong number of buffered argument bytes:
`r` with a count other than 2, `R` with a count other than 3, `w` with fewer
than 3, `W` with fewer than 4. The response is exactly the NACK byte 0x3F,
the hardware is left as the top of the main loop puts it (write pin at its
idle level: no bus transaction, no toggle of the write pin) and the
read-burst length is unchanged. -/
theorem wrong_argument_count_nack {β : Type} (H : Board β) (s : Fw β) (op : Nat)
    (args : List Nat)
    (h : (op = 0x72 ∧ args.length ≠ 2) ∨ (op = 0x52 ∧ args.length ≠ 3) ∨
         (op = 0x77 ∧ args.length < 3) ∨ (op = 0x57 ∧ args.length < 4)) :
    (serve H s (op :: args)).tx = [0x3F] ∧
    (serve H s (op :: args)).hw = idle_writepin H s.hw ∧
    (serve H s (op :: args)).bytes_to_read = s.bytes_to_read := by
  rw [serve_cons]
  rcases h with ⟨rfl, h⟩ | ⟨rfl, h⟩ | ⟨rfl, h⟩ | ⟨rfl, h⟩
  · rw [dispatch_r _ _ rfl]
    simp [case_r, usb_serial_available, h, usb_serial_putchar, usb_serial_flush_input, UART_NACK]
  · rw [dispatch_R _ _ rfl]
    simp [case_R, usb_serial_available, h, usb_serial_putchar, usb_serial_flush_input, UART_NACK]
  · rw [dispatch_w _ _ rfl]
    simp [case_w, usb_serial_available, Nat.not_le.mpr h, usb_serial_putchar,
      usb_serial_flush_input, UART_NACK]
  · rw [dispatch_W _ _ rfl]
    simp [case_W, usb_serial_available, Nat.not_le.mpr h, usb_serial_putchar,
      usb_serial_flush_input, UART_NACK]

/-- Witness for C15: `r` with a single argument byte on the simulated board
after power-on. -/
theorem wrong_argument_count_nack_witness :
    (((0x72 : Nat) = 0x72 ∧ [0x50].length ≠ 2) ∨ ((0x72 : Nat) = 0x52 ∧ [0x50].length ≠ 3) ∨
      ((0x72 : Nat) = 0x77 ∧ [0x50].length < 3) ∨ ((0x72 : Nat) = 0x57 ∧ [0x50].length < 4)) ∧
    (serve simBoard (Fw.power_on (simIdle true) 0) (0x72 :: [0x50])).tx = [0x3F] ∧
    (serve simBoard (Fw.power_on (simIdle true) 0) (0x72 :: [0x50])).hw =
      idle_writepin simBoard (Fw.power_on (simIdle true) 0).hw ∧
    (serve simBoard (Fw.power_on (simIdle true) 0) (0x72 :: [0x50])).bytes_to_read =
      (Fw.power_on (simIdle true) 0).bytes_to_read :=
  ⟨by decide, wrong_argument_count_nack simBoard (Fw.power_on (simIdle true) 0) 0x72 [0x50]
    (by decide)⟩

theorem serve_b_query {β : Type} (H : Board β) (s : Fw β) :
    (serve H s [0x62]).tx = [s.bytes_to_read % 256] ∧
    (serve H s [0x62]).bytes_to_read = s.bytes_to_read := by
  rw [serve_cons, dispatch_b _ _ rfl]
  simp [case_b, usb_serial_available, usb_serial_putchar, usb_serial_flush_input]

theorem serve_b_set {β : Type} (H : Board β) (s : Fw β) (b : Nat) (h1 : 1 ≤ b) (h2 : b ≤ 64) :
    (serve H s [0x62, b]).tx = [0x06, b] ∧ (serve H s [0x62, b]).bytes_to_read = b := by
  have hb : b % 256 = b := Nat.mod_eq_of_lt (by omega)
  rw [serve_cons, dispatch_b _ _ rfl]
  simp [case_b, usb_serial_available, usb_serial_putchar, usb_serial_flush_input,
    usb_serial_getchar, hb, h1, h2, I2C_MAX_READ, UART_ACK]

theorem serve_bytes_to_read {β : Type} (H : Board β) (s : Fw β) (c : List Nat)
    (h : ∀ x ∈ c.head?, x % 256 ≠ 0x62) :
    (serve H s c).bytes_to_read = s.bytes_to_read := by
  cases c with
  | nil => rw [serve_nil]
  | cons op args =>
    rw [serve_cons]
    show (dispatch H _).bytes_to_read = _
    rw [dispatch_bytes_to_read _ _ (h op (by simp))]

theorem foldl_serve_bytes_to_read {β : Type} (H : Board β) (cmds : List (List Nat))
    (s : Fw β) (h : ∀ c ∈ cmds, ∀ x ∈ c.head?, x % 256 ≠ 0x62) :
    (cmds.foldl (serve H) s).bytes_to_read = s.bytes_to_read := by
  induction cmds generalizing s with
  | nil => rfl
  | cons c cs ih =>
    rw [List.foldl_cons, ih _ (fun c' hc' => h c' (List.mem_cons_of_mem _ hc')),
      serve_bytes_to_read H s c (h c (List.mem_cons_self _ _))]

/-- Claim C16. For `1 ≤ b ≤ 64` the command `b` with the single argument
byte `b` is answered by `[0x06, b]`; after any number of further turns of
the main loop whose input does not start with the command `b` (other
commands, bytes that are no command, or no input), the command `b` without
argument is answered by `[b]`. -/
theorem read_burst_set_then_query {β : Type} (H : Board β) (s : Fw β) (b : Nat)
    (cmds : List (List Nat)) (h1 : 1 ≤ b) (h2 : b ≤ 64)
    (hc : ∀ c ∈ cmds, ∀ x ∈ c.head?, x % 256 ≠ 0x62) :
    (serve H s [0x62, b]).tx = [0x06, b] ∧
    (serve H (cmds.foldl (serve H) (serve H s [0x62, b])) [0x62]).tx = [b] := by
  refine ⟨(serve_b_set H s b h1 h2).1, ?_⟩
  rw [(serve_b_query H _).1, foldl_serve_bytes_to_read H cmds _ hc, (serve_b_set H s b h1 h2).2,
    Nat.mod_eq_of_lt (by omega)]

/-- Witness for C16: burst 16 set after power-on, then a read, a version
query, a byte that is no command and an idle turn, then the query. -/
theorem read_burst_set_then_query_witness :
    1 ≤ 16 ∧ 16 ≤ 64 ∧
    (∀ c ∈ [[0x72, 0x50, 0x00], [0x76], [0x00, 0x62], []], ∀ x ∈ c.head?, x % 256 ≠ 0x62) ∧
    (serve simBoard (Fw.power_on (simIdle true) 0) [0x62, 16]).tx = [0x06, 16] ∧
    (serve simBoard ([[0x72, 0x50, 0x00], [0x76], [0x00, 0x62], []].foldl (serve simBoard)
      (serve simBoard (Fw.power_on (simIdle true) 0) [0x62, 16])) [0x62]).tx = [16] :=
  ⟨by decide, by decide, by decide,
    read_burst_set_then_query simBoard (Fw.power_on (simIdle true) 0) 16
      [[0x72, 0x50, 0x00], [0x76], [0x00, 0x62], []] (by decide) (by decide) (by decide)⟩

/-- Claim C17. The command `b` with a single argument byte `i` outside
`[1, 64]` is answered by exactly the NACK byte 0x3F and sets the read-burst
length to 8: the query that follows is answered by `[8]`. -/
theorem read_burst_out_of_range {β : Type} (H : Board β) (s : Fw β) (i : Nat)
    (hi : i < 256) (h : i < 1 ∨ 64 < i) :
    (serve H s [0x62, i]).tx = [0x3F] ∧ (serve H s [0x62, i]).bytes_to_read = 8 ∧
    (serve H (serve H s [0x62, i]) [0x62]).tx = [8] := by
  have hb : i % 256 = i := Nat.mod_eq_of_lt hi
  have hn : ¬ (1 ≤ i ∧ i ≤ 64) := by omega
  have key : (serve H s [0x62, i]).tx = [0x3F] ∧ (serve H s [0x62, i]).bytes_to_read = 8 := by
    rw [serve_cons, dispatch_b _ _ rfl]
    simp [case_b, usb_serial_available, usb_serial_putchar, usb_serial_flush_input,
      usb_serial_getchar, hb, hn, I2C_MAX_READ, UART_NACK, I2C_DEFAULT_READ]
  refine ⟨key.1, key.2, ?_⟩
  rw [(serve_b_query H _).1, key.2]

/-- Witness for C17: burst 16 in force, then the argument 65. -/
theorem read_burst_out_of_range_witness :
    65 < 256 ∧ (65 < 1 ∨ 64 < 65) ∧
    (serve simBoard (serve simBoard (Fw.power_on (simIdle true) 0) [0x62, 16]) [0x62, 65]).tx
      = [0x3F] ∧
    (serve simBoard (serve simBoard (Fw.power_on (simIdle true) 0) [0x62, 16])
      [0x62, 65]).bytes_to_read = 8 ∧
    (serve simBoard (serve simBoard (serve simBoard (Fw.power_on (simIdle true) 0) [0x62, 16])
      [0x62, 65]) [0x62]).tx = [8] :=
  ⟨by decide, by decide,
    read_burst_out_of_range simBoard (serve simBoard (Fw.power_on (simIdle true) 0) [0x62, 16]) 65
      (by decide) (by decide)⟩

theorem fetch_data_buf {β : Type} (offset : Nat) (todo : Nat) (s : Fw β)
    (h : todo ≤ s.rx.length) (k : Nat) :
    (fetch_data offset todo s).i2c_buf k =
      if offset + s.i ≤ k ∧ k < offset + s.i + todo then s.rx.getD (k - (offset + s.i)) 0 % 256
      else s.i2c_buf k := by
  induction todo generalizing s with
  | zero =>
    simp only [fetch_data]
    rw [if_neg (by omega)]
  | succ n ih =>
    obtain ⟨hw, rx, tx, i, task, i2c_addr, btr, btw, msb, lsb, fd, buf⟩ := s
    cases rx with
    | nil => simp at h
    | cons x xs =>
      simp only [fetch_data, usb_serial_getchar, List.headD_cons, List.tail_cons]
      rw [ih _ (by simpa using h)]
      simp only
      by_cases h1 : offset + (i + 1) ≤ k ∧ k < offset + (i + 1) + n
      · rw [if_pos h1, if_pos (by omega)]
        obtain ⟨j, hj⟩ : ∃ j, k - (offset + i) = j + 1 := ⟨k - (offset + i) - 1, by omega⟩
        rw [hj, List.getD_cons_succ]
        congr 2
        omega
      · rw [if_neg h1]
        by_cases h2 : k = offset + i
        · rw [if_pos h2, if_pos (by omega), h2, Nat.sub_self, List.getD_cons_zero]
        · rw [if_neg h2, if_neg (by omega)]

theorem case_w_accept {β : Type} (H : Board β) (s : Fw β) (d a : Nat) (xs : List Nat)
    (h : s.rx = d :: a :: xs) (hn : 1 ≤ xs.length) (hn2 : xs.length ≤ 254) :
    (case_w H s).tx = s.tx ++ [0x06] ∧
    (case_w H s).bytes_to_write = xs.length ∧
    (case_w H s).hw = set_writepin H (i2c_write H (d % 256) (case_w H s).i2c_buf (1 + xs.length)
      (set_writepin H s.hw WR_TOGGLE)) WR_TOGGLE ∧
    (List.range (1 + xs.length)).map (case_w H s).i2c_buf = a % 256 :: xs.map (· % 256) := by
  have h3 : 3 ≤ usb_serial_available s := by simp [usb_serial_available, h]; omega
  have hl : (usb_serial_available s - 2) % 256 = xs.length := by
    simp [usb_serial_available, h]; omega
  have hm : (1 + xs.length) % 256 = 1 + xs.length := Nat.mod_eq_of_lt (by omega)
  unfold case_w
  rw [if_pos h3]
  simp only [hl, (fetch_data_fields _ _ _).1, (fetch_data_fields _ _ _).2.1,
    (fetch_data_fields _ _ _).2.2.2.1, (fetch_data_fields _ _ _).2.2.2.2.1, hm]
  refine ⟨by simp [usb_serial_putchar, usb_serial_getchar, UART_ACK], rfl, ?_, ?_⟩
  · simp [usb_serial_putchar, usb_serial_getchar, h, hm]
  · apply List.ext_getElem
    · simp; omega
    · intro k hk1 hk2
      simp only [List.getElem_map, List.getElem_range]
      rw [fetch_data_buf _ _ _ (by simp [usb_serial_putchar, usb_serial_getchar, h])]
      simp only [usb_serial_putchar, usb_serial_getchar, h, List.headD_cons, List.tail_cons,
        Nat.add_zero]
      rcases k with _ | k
      · simp
      · have hk : k < xs.length := by simpa using hk2
        rw [if_pos (by omega)]
        simp [List.getD_eq_getElem?_getD, hk]

theorem case_W_accept {β : Type} (H : Board β) (s : Fw β) (d m l : Nat) (xs : List Nat)
    (h : s.rx = d :: m :: l :: xs) (hn : 1 ≤ xs.length) (hn2 : xs.length ≤ 253) :
    (case_W H s).tx = s.tx ++ [0x06] ∧
    (case_W H s).bytes_to_write = xs.length ∧
    (case_W H s).hw = set_writepin H (i2c_write H (d % 256) (case_W H s).i2c_buf (2 + xs.length)
      (set_writepin H s.hw WR_TOGGLE)) WR_TOGGLE ∧
    (List.range (2 + xs.length)).map (case_W H s).i2c_buf =
      m % 256 :: l % 256 :: xs.map (· % 256) := by
  have h3 : 4 ≤ usb_serial_available s := by simp [usb_serial_available, h]; omega
  have hl : (usb_serial_available s - 3) % 256 = xs.length := by
    simp [usb_serial_available, h]; omega
  have hm : (2 + xs.length) % 256 = 2 + xs.length := Nat.mod_eq_of_lt (by omega)
  unfold case_W
  rw [if_pos h3]
  simp only [hl, (fetch_data_fields _ _ _).1, (fetch_data_fields _ _ _).2.1,
    (fetch_data_fields _ _ _).2.2.2.1, (fetch_data_fields _ _ _).2.2.2.2.1, hm]
  refine ⟨by simp [usb_serial_putchar, usb_serial_getchar, UART_ACK], rfl, ?_, ?_⟩
  · simp [usb_serial_putchar, usb_serial_getchar, h, hm]
  · apply List.ext_getElem
    · simp; omega
    · intro k hk1 hk2
      simp only [List.getElem_map, List.getElem_range]
      rw [fetch_data_buf _ _ _ (by simp [usb_serial_putchar, usb_serial_getchar, h])]
      simp only [usb_serial_putchar, usb_serial_getchar, h, List.headD_cons, List.tail_cons,
        Nat.add_zero]
      rcases k with _ | _ | k
      · simp
      · simp
      · have hk : k < xs.length := by simpa using hk2
        rw [if_pos (by omega)]
        simp [List.getD_eq_getElem?_getD, hk]
theorem serve_w_accept {β : Type} (H : Board β) (s : Fw β) (d a : Nat) (xs : List Nat)
    (hn : 1 ≤ xs.length) (hn2 : xs.length ≤ 254) :
    (serve H s (0x77 :: d :: a :: xs)).tx = [0x06] ∧
    (serve H s (0x77 :: d :: a :: xs)).bytes_to_write = xs.length ∧
    (serve H s (0x77 :: d :: a :: xs)).hw =
      set_writepin H (i2c_write H (d % 256) (serve H s (0x77 :: d :: a :: xs)).i2c_buf
        (1 + xs.length) (set_writepin H (idle_writepin H s.hw) WR_TOGGLE)) WR_TOGGLE ∧
    (List.range (1 + xs.length)).map (serve H s (0x77 :: d :: a :: xs)).i2c_buf =
      a % 256 :: xs.map (· % 256) := by
  rw [serve_cons, dispatch_w _ _ rfl]
  exact case_w_accept H _ d a xs rfl hn hn2

theorem serve_W_accept {β : Type} (H : Board β) (s : Fw β) (d m l : Nat) (xs : List Nat)
    (hn : 1 ≤ xs.length) (hn2 : xs.length ≤ 253) :
    (serve H s (0x57 :: d :: m :: l :: xs)).tx = [0x06] ∧
    (serve H s (0x57 :: d :: m :: l :: xs)).bytes_to_write = xs.length ∧
    (serve H s (0x57 :: d :: m :: l :: xs)).hw =
      set_writepin H (i2c_write H (d % 256) (serve H s (0x57 :: d :: m :: l :: xs)).i2c_buf
        (2 + xs.length) (set_writepin H (idle_writepin H s.hw) WR_TOGGLE)) WR_TOGGLE ∧
    (List.range (2 + xs.length)).map (serve H s (0x57 :: d :: m :: l :: xs)).i2c_buf =
      m % 256 :: l % 256 :: xs.map (· % 256) := by
  rw [serve_cons, dispatch_W _ _ rfl]
  exact case_W_accept H _ d m l xs rfl hn hn2

theorem writeOk_ack (rxbuffer : Nat → Nat) :
    writeOk (fill rxbuffer ([0x06].take 1)) ([0x06].take 1).length = 1 := by
  simp [writeOk, fill]

/-- Claim C13. The write path from the host functions to the bus. The
frames of `write_to_eeprom_burst` and `Write_to_eeprom_burst` for `n` data
bytes (`write_to_eeprom` and `Write_to_eeprom` are the case `n = 1`) are
`['w', d, a mod 256, x1..xn]` and `['W', d, a >> 8, a mod 256, x1..xn]`.
With `1 ≤ n ≤ 64` (so for `n` in 1, 8, 16, 32) and the frame buffered in
full, the dispatcher takes `n` as the data count, makes one `i2c_write` to
`d` between two toggles of the write pin, of the first `1 + n` (`2 + n`)
bytes of its buffer, which are the address byte(s) followed by `x1..xn`, and
the host classifies the response as ok by `writeOk`. -/
theorem write_path_end_to_end {β : Type} (H : Board β) (s : Fw β) (d a : Nat)
    (txbyte : Nat → Nat) (n : Nat) (rxbuffer : Nat → Nat) (h1 : 1 ≤ n) (h2 : n ≤ 64) :
    (frame_w d a ((List.range n).map txbyte) =
        0x77 :: d % 256 :: a % 256 :: (List.range n).map (fun i => txbyte i % 256) ∧
      write_to_eeprom (programmer H) d a (txbyte 0) rxbuffer s =
        write_to_eeprom_burst (programmer H) d a txbyte 1 rxbuffer s ∧
      (write_to_eeprom_burst (programmer H) d a txbyte n rxbuffer s).2.2.bytes_to_write = n ∧
      (write_to_eeprom_burst (programmer H) d a txbyte n rxbuffer s).2.2.hw =
        set_writepin H (i2c_write H (d % 256)
          (write_to_eeprom_burst (programmer H) d a txbyte n rxbuffer s).2.2.i2c_buf (1 + n)
          (set_writepin H (idle_writepin H s.hw) WR_TOGGLE)) WR_TOGGLE ∧
      (List.range (1 + n)).map
          (write_to_eeprom_burst (programmer H) d a txbyte n rxbuffer s).2.2.i2c_buf =
        a % 256 :: (List.range n).map (fun i => txbyte i % 256) ∧
      writeOk (write_to_eeprom_burst (programmer H) d a txbyte n rxbuffer s).1
        (write_to_eeprom_burst (programmer H) d a txbyte n rxbuffer s).2.1 ≠ 0) ∧
    (frame_W d a ((List.range n).map txbyte) =
        0x57 :: d % 256 :: a / 256 % 256 :: a % 256 ::
          (List.range n).map (fun i => txbyte i % 256) ∧
      Write_to_eeprom (programmer H) d a (txbyte 0) rxbuffer s =
        Write_to_eeprom_burst (programmer H) d a txbyte 1 rxbuffer s ∧
      (Write_to_eeprom_burst (programmer H) d a txbyte n rxbuffer s).2.2.bytes_to_write = n ∧
      (Write_to_eeprom_burst (programmer H) d a txbyte n rxbuffer s).2.2.hw =
        set_writepin H (i2c_write H (d % 256)
          (Write_to_eeprom_burst (programmer H) d a txbyte n rxbuffer s).2.2.i2c_buf (2 + n)
          (set_writepin H (idle_writepin H s.hw) WR_TOGGLE)) WR_TOGGLE ∧
      (List.range (2 + n)).map
          (Write_to_eeprom_burst (programmer H) d a txbyte n rxbuffer s).2.2.i2c_buf =
        a / 256 % 256 :: a % 256 :: (List.range n).map (fun i => txbyte i % 256) ∧
      writeOk (Write_to_eeprom_burst (programmer H) d a txbyte n rxbuffer s).1
        (Write_to_eeprom_burst (programmer H) d a txbyte n rxbuffer s).2.1 ≠ 0) := by
  have hlen : ((List.range n).map (fun i => txbyte i % 256)).length = n := by simp
  have hw := serve_w_accept H s (d % 256) (a % 256) ((List.range n).map (fun i => txbyte i % 256))
    (by omega) (by omega)
  have hW := serve_W_accept H s (d % 256) (a / 256 % 256) (a % 256)
    ((List.range n).map (fun i => txbyte i % 256)) (by omega) (by omega)
  have hfw : frame_w d a ((List.range n).map txbyte) =
      0x77 :: d % 256 :: a % 256 :: (List.range n).map (fun i => txbyte i % 256) := by
    simp [frame_w, Function.comp_def]
  have hfW : frame_W d a ((List.range n).map txbyte) =
      0x57 :: d % 256 :: a / 256 % 256 :: a % 256 ::
        (List.range n).map (fun i => txbyte i % 256) := by
    simp [frame_W, Function.comp_def]
  rw [hlen] at hw hW
  simp only [Nat.mod_mod, List.map_map] at hw hW
  have hmm : ((fun x => x % 256) ∘ fun i => txbyte i % 256) = fun i => txbyte i % 256 := by
    funext i; simp
  rw [hmm] at hw hW
  refine ⟨⟨hfw, rfl, ?_, ?_, ?_, ?_⟩, ⟨hfW, rfl, ?_, ?_, ?_, ?_⟩⟩
  · simp only [write_to_eeprom_burst, exchange, programmer, hfw]; exact hw.2.1
  · simp only [write_to_eeprom_burst, exchange, programmer, hfw]; exact hw.2.2.1
  · simp only [write_to_eeprom_burst, exchange, programmer, hfw]; exact hw.2.2.2
  · simp only [write_to_eeprom_burst, exchange, programmer, hfw, hw.1]
    rw [writeOk_ack]; decide
  · simp only [Write_to_eeprom_burst, exchange, programmer, hfW]; exact hW.2.1
  · simp only [Write_to_eeprom_burst, exchange, programmer, hfW]; exact hW.2.2.1
  · simp only [Write_to_eeprom_burst, exchange, programmer, hfW]; exact hW.2.2.2
  · simp only [Write_to_eeprom_burst, exchange, programmer, hfW, hW.1]
    rw [writeOk_ack]; decide

/-- Witness for C13: a burst of 8 bytes at address 0x0120 of device 0x50 on
the simulated board after power-on. -/
theorem write_path_end_to_end_witness :
    1 ≤ 8 ∧ 8 ≤ 64 ∧
    (write_to_eeprom_burst (programmer simBoard) 0x50 0x0120 (fun i => 0x10 + i) 8 (fun _ => 0)
      (Fw.power_on (simIdle true) 0)).2.2.bytes_to_write = 8 ∧
    (List.range (1 + 8)).map
        (write_to_eeprom_burst (programmer simBoard) 0x50 0x0120 (fun i => 0x10 + i) 8
          (fun _ => 0) (Fw.power_on (simIdle true) 0)).2.2.i2c_buf =
      0x0120 % 256 :: (List.range 8).map (fun i => (0x10 + i) % 256) ∧
    writeOk (Write_to_eeprom_burst (programmer simBoard) 0x50 0x0120 (fun i => 0x10 + i) 8
        (fun _ => 0) (Fw.power_on (simIdle true) 0)).1
      (Write_to_eeprom_burst (programmer simBoard) 0x50 0x0120 (fun i => 0x10 + i) 8
        (fun _ => 0) (Fw.power_on (simIdle true) 0)).2.1 ≠ 0 :=
  ⟨by decide, by decide,
    (write_path_end_to_end simBoard (Fw.power_on (simIdle true) 0) 0x50 0x0120
      (fun i => 0x10 + i) 8 (fun _ => 0) (by decide) (by decide)).1.2.2.1,
    (write_path_end_to_end simBoard (Fw.power_on (simIdle true) 0) 0x50 0x0120
      (fun i => 0x10 + i) 8 (fun _ => 0) (by decide) (by decide)).1.2.2.2.2.1,
    (write_path_end_to_end simBoard (Fw.power_on (simIdle true) 0) 0x50 0x0120
      (fun i => 0x10 + i) 8 (fun _ => 0) (by decide) (by decide)).2.2.2.2.2.2⟩

theorem case_w_tx {β : Type} (H : Board β) (s : Fw β) (h : 3 ≤ s.rx.length) :
    (case_w H s).tx = s.tx ++ [0x06] := by
  unfold case_w
  rw [if_pos (by simpa [usb_serial_available] using h)]
  simp only [(fetch_data_fields _ _ _).2.1]
  simp [usb_serial_putchar, usb_serial_getchar, UART_ACK]

theorem case_W_tx {β : Type} (H : Board β) (s : Fw β) (h : 4 ≤ s.rx.length) :
    (case_W H s).tx = s.tx ++ [0x06] := by
  unfold case_W
  rw [if_pos (by simpa [usb_serial_available] using h)]
  simp only [(fetch_data_fields _ _ _).2.1]
  simp [usb_serial_putchar, usb_serial_getchar, UART_ACK]

/-- Counterexample to C14: the frame of `write_to_eeprom` for the byte 0x11
at address 0 of device 0x50, on the simulated board after power-on. The
response is the single byte ACK; it is not two bytes long. -/
theorem write_response_has_no_second_byte :
    3 ≤ (frame_w 0x50 0x00 [0x11]).tail.length ∧
    (serve simBoard (Fw.power_on (simIdle true) 0) (frame_w 0x50 0x00 [0x11])).tx = [0x06] ∧
    (serve simBoard (Fw.power_on (simIdle true) 0) (frame_w 0x50 0x00 [0x11])).tx.length ≠ 2 := by
  decide

/-- Claim C14, amended. For every `w` command with at least 3 buffered
argument bytes and every `W` command with at least 4, the response of the
dispatcher is exactly the one byte ACK 0x06; no second byte follows. -/
theorem write_response_is_single_ack {β : Type} (H : Board β) (s : Fw β) (op : Nat)
    (args : List Nat)
    (h : (op = 0x77 ∧ 3 ≤ args.length) ∨ (op = 0x57 ∧ 4 ≤ args.length)) :
    (serve H s (op :: args)).tx = [0x06] ∧ (serve H s (op :: args)).tx.length = 1 := by
  have key : (serve H s (op :: args)).tx = [0x06] := by
    rw [serve_cons]
    rcases h with ⟨rfl, h⟩ | ⟨rfl, h⟩
    · rw [dispatch_w _ _ rfl]
      exact case_w_tx H _ h
    · rw [dispatch_W _ _ rfl]
      exact case_W_tx H _ h
  rw [key]
  exact ⟨rfl, rfl⟩

/-- Witness for the amended C14: `W` with device address, two address bytes
and two data bytes. -/
theorem write_response_is_single_ack_witness :
    (((0x57 : Nat) = 0x77 ∧ 3 ≤ [0x50, 0x01, 0x20, 0xAA, 0xBB].length) ∨
      ((0x57 : Nat) = 0x57 ∧ 4 ≤ [0x50, 0x01, 0x20, 0xAA, 0xBB].length)) ∧
    (serve simBoard (Fw.power_on (simIdle true) 0) (0x57 :: [0x50, 0x01, 0x20, 0xAA, 0xBB])).tx
      = [0x06] ∧
    (serve simBoard (Fw.power_on (simIdle true) 0)
      (0x57 :: [0x50, 0x01, 0x20, 0xAA, 0xBB])).tx.length = 1 :=
  ⟨by decide, write_response_is_single_ack simBoard (Fw.power_on (simIdle true) 0) 0x57
    [0x50, 0x01, 0x20, 0xAA, 0xBB] (by decide)⟩

/-- Counterexample to C18: read burst 16 is set, then the command `b`
arrives with the two argument bytes 5 and 6. The response is NACK, but the
read-burst length is still 16 and not 8, as the query that follows
shows. -/
theorem b_with_two_arguments_keeps_burst :
    (serve simBoard (Fw.power_on (simIdle true) 0) [0x62, 16]).bytes_to_read = 16 ∧
    (serve simBoard (serve simBoard (Fw.power_on (simIdle true) 0) [0x62, 16])
      [0x62, 5, 6]).tx = [0x3F] ∧
    (serve simBoard (serve simBoard (Fw.power_on (simIdle true) 0) [0x62, 16])
      [0x62, 5, 6]).bytes_to_read ≠ 8 ∧
    (serve simBoard (serve simBoard (serve simBoard (Fw.power_on (simIdle true) 0) [0x62, 16])
      [0x62, 5, 6]) [0x62]).tx = [16] := by
  decide

/-- Claim C18, amended. The command `b` with more than one buffered
argument byte is answered by exactly the NACK byte 0x3F and leaves the
read-burst length as it was: the query that follows returns the old
value. -/
theorem read_burst_too_many_arguments {β : Type} (H : Board β) (s : Fw β) (args : List Nat)
    (h : 1 < args.length) :
    (serve H s (0x62 :: args)).tx = [0x3F] ∧
    (serve H s (0x62 :: args)).bytes_to_read = s.bytes_to_read ∧
    (serve H (serve H s (0x62 :: args)) [0x62]).tx = [s.bytes_to_read % 256] := by
  have key : (serve H s (0x62 :: args)).tx = [0x3F] ∧
      (serve H s (0x62 :: args)).bytes_to_read = s.bytes_to_read := by
    rw [serve_cons, dispatch_b _ _ rfl]
    have h1 : args.length ≠ 1 := by omega
    have h0 : args.length ≠ 0 := by omega
    simp [case_b, usb_serial_available, usb_serial_putchar, usb_serial_flush_input, h1, h0,
      UART_NACK, List.length_eq_zero.not.mp h0]
  refine ⟨key.1, key.2, ?_⟩
  rw [(serve_b_query H _).1, key.2]

/-- Witness for the amended C18: burst 16 in force, two argument bytes. -/
theorem read_burst_too_many_arguments_witness :
    1 < [5, 6].length ∧
    (serve simBoard (serve simBoard (Fw.power_on (simIdle true) 0) [0x62, 16])
      (0x62 :: [5, 6])).tx = [0x3F] ∧
    (serve simBoard (serve simBoard (Fw.power_on (simIdle true) 0) [0x62, 16])
      (0x62 :: [5, 6])).bytes_to_read =
      (serve simBoard (Fw.power_on (simIdle true) 0) [0x62, 16]).bytes_to_read ∧
    (serve simBoard (serve simBoard (serve simBoard (Fw.power_on (simIdle true) 0) [0x62, 16])
      (0x62 :: [5, 6])) [0x62]).tx =
      [(serve simBoard (Fw.power_on (simIdle true) 0) [0x62, 16]).bytes_to_read % 256] :=
  ⟨by decide, read_burst_too_many_arguments simBoard
    (serve simBoard (Fw.power_on (simIdle true) 0) [0x62, 16]) [5, 6] (by decide)⟩

theorem i2c_read_bytes_spec {β : Type} (H : Board β) (length : Nat) (todo i : Nat)
    (buffer : Nat → Nat) (b : β) :
    ((i2c_read_bytes H length todo i buffer b).1 = 1 →
      ∀ k, i ≤ k → k < i + todo → (i2c_read_bytes H length todo i buffer b).2.1 k < 256) ∧
    (∀ k, k < i → (i2c_read_bytes H length todo i buffer b).2.1 k = buffer k) := by
  induction todo generalizing i buffer b with
  | zero =>
    refine ⟨fun _ k h1 h2 => by omega, fun k _ => rfl⟩
  | succ n ih =>
    simp only [i2c_read_bytes]
    generalize (if i + 1 = length then 0x84 else 0xC4) = c
    by_cases hw : (i2c_read_wait H 50001 (H.setTWCR b c)).1 = true
    · rw [if_pos hw]
      obtain ⟨ih1, ih2⟩ := ih (i + 1)
        (fun k => if k = i then H.TWDR (i2c_read_wait H 50001 (H.setTWCR b c)).2 % 256
          else buffer k)
        (i2c_read_wait H 50001 (H.setTWCR b c)).2
      refine ⟨fun h k h1 h2 => ?_, fun k hk => ?_⟩
      · by_cases hki : k = i
        · rw [ih2 k (by omega), if_pos hki]
          exact Nat.mod_lt _ (by decide)
        · exact ih1 h k (by omega) (by omega)
      · rw [ih2 k (by omega), if_neg (by omega)]
    · rw [if_neg hw]
      exact ⟨fun h => absurd h Nat.zero_ne_one, fun k _ => rfl⟩

theorem i2c_read_lt {β : Type} (H : Board β) (address : Nat) (buffer : Nat → Nat)
    (length : Nat) (b : β) (h : (i2c_read H address buffer length b).1 = 1) (k : Nat)
    (hk : k < length) : (i2c_read H address buffer length b).2.1 k < 256 :=
  (i2c_read_bytes_spec H length length 0 buffer _).1 h k (Nat.zero_le _) (by omega)

theorem case_r_accept {β : Type} (H : Board β) (s : Fw β) (d a : Nat) (h : s.rx = [d, a]) :
    (case_r H s).tx = s.tx ++ 0x06 :: (List.range s.bytes_to_read).map
      (fun k => (bus_r H s.hw s.i2c_buf d a s.bytes_to_read).2.1 k % 256) ∧
    (case_r H s).hw = set_writepin H (bus_r H s.hw s.i2c_buf d a s.bytes_to_read).2.2 WR_TOGGLE ∧
    (case_r H s).i2c_buf = (bus_r H s.hw s.i2c_buf d a s.bytes_to_read).2.1 := by
  have h2 : usb_serial_available s = 2 := by simp [usb_serial_available, h]
  unfold case_r bus_r with_addr1
  rw [if_pos h2]
  simp [send_i2c_buf, usb_serial_putchar, usb_serial_getchar, h, UART_ACK]

theorem case_R_accept {β : Type} (H : Board β) (s : Fw β) (d m l : Nat) (h : s.rx = [d, m, l]) :
    (case_R H s).tx = s.tx ++ 0x06 :: (List.range s.bytes_to_read).map
      (fun k => (bus_R H s.hw s.i2c_buf d m l s.bytes_to_read).2.1 k % 256) ∧
    (case_R H s).hw = set_writepin H (bus_R H s.hw s.i2c_buf d m l s.bytes_to_read).2.2 WR_TOGGLE ∧
    (case_R H s).i2c_buf = (bus_R H s.hw s.i2c_buf d m l s.bytes_to_read).2.1 := by
  have h2 : usb_serial_available s = 3 := by simp [usb_serial_available, h]
  unfold case_R bus_R with_addr2
  rw [if_pos h2]
  simp [send_i2c_buf, usb_serial_putchar, usb_serial_getchar, h, UART_ACK]

theorem serve_r_accept {β : Type} (H : Board β) (s : Fw β) (d a : Nat) :
    (serve H s [0x72, d, a]).tx = 0x06 :: (List.range s.bytes_to_read).map
      (fun k => (bus_r H (idle_writepin H s.hw) s.i2c_buf d a s.bytes_to_read).2.1 k % 256) ∧
    (serve H s [0x72, d, a]).hw =
      set_writepin H (bus_r H (idle_writepin H s.hw) s.i2c_buf d a s.bytes_to_read).2.2
        WR_TOGGLE := by
  rw [serve_cons, dispatch_r _ _ rfl]
  obtain ⟨h1, h2, _⟩ := case_r_accept H
    { s with hw := idle_writepin H s.hw, rx := [d, a], tx := [], task := 0x72 % 256 } d a rfl
  exact ⟨by simpa [usb_serial_flush_input] using h1, by simpa [usb_serial_flush_input] using h2⟩

theorem serve_R_accept {β : Type} (H : Board β) (s : Fw β) (d m l : Nat) :
    (serve H s [0x52, d, m, l]).tx = 0x06 :: (List.range s.bytes_to_read).map
      (fun k => (bus_R H (idle_writepin H s.hw) s.i2c_buf d m l s.bytes_to_read).2.1 k % 256) ∧
    (serve H s [0x52, d, m, l]).hw =
      set_writepin H (bus_R H (idle_writepin H s.hw) s.i2c_buf d m l s.bytes_to_read).2.2
        WR_TOGGLE := by
  rw [serve_cons, dispatch_R _ _ rfl]
  obtain ⟨h1, h2, _⟩ := case_R_accept H
    { s with hw := idle_writepin H s.hw, rx := [d, m, l], tx := [], task := 0x52 % 256 } d m l rfl
  exact ⟨by simpa [usb_serial_flush_input] using h1, by simpa [usb_serial_flush_input] using h2⟩

theorem readOk_ack_cons (rxbuffer : Nat → Nat) (l : List Nat) (h1 : 1 ≤ l.length)
    (h2 : l.length < RX_BUFFER_SIZE) :
    readOk (fill rxbuffer ((0x06 :: l).take RX_BUFFER_SIZE))
      ((0x06 :: l).take RX_BUFFER_SIZE).length = 1 + l.length := by
  have ht : (0x06 :: l).take RX_BUFFER_SIZE = 0x06 :: l := by
    apply List.take_of_length_le
    simp; omega
  rw [ht]
  simp [readOk, fill, h1]
  omega

theorem bus_r_mod {β : Type} (H : Board β) (b : β) (i2c_buf : Nat → Nat) (d a n : Nat) :
    bus_r H b i2c_buf (d % 256) (a % 256) n = bus_r H b i2c_buf d a n := by
  unfold bus_r with_addr1
  simp only [Nat.mod_mod]

theorem bus_R_mod {β : Type} (H : Board β) (b : β) (i2c_buf : Nat → Nat) (d a n : Nat) :
    bus_R H b i2c_buf (d % 256) (a / 256 % 256) (a % 256) n = bus_R H b i2c_buf d (a / 256) a n := by
  unfold bus_R with_addr2
  simp only [Nat.mod_mod]

theorem map_mod_of_lt (f : Nat → Nat) (n : Nat) (h : ∀ k, k < n → f k < 256) :
    (List.range n).map (fun k => f k % 256) = (List.range n).map f := by
  apply List.map_congr_left
  intro k hk
  exact Nat.mod_eq_of_lt (h k (List.mem_range.mp hk))

/-- Claim C12. The read path from the host functions to the bus. The frames
of `read_from_eeprom` and `Read_from_eeprom` are `['r', d, a mod 256]` and
`['R', d, (a >> 8) mod 256, a mod 256]`. With the frame buffered in full
and the read-burst length `N` in `[1, 64]`, the dispatcher does `bus_r`
(`bus_R`) between two toggles of the write pin: one `i2c_write` to `d` of
the 1 (2, MSB first) address bytes, then one `i2c_read` of `N` bytes. When
`i2c_read` returns 1 the response is ACK 0x06 followed by the `N` bytes it
stored, in order; the response has `1 + N` bytes and `readOk` on the host
classifies it as ok. -/
theorem read_path_end_to_end {β : Type} (H : Board β) (s : Fw β) (d a : Nat)
    (rxbuffer : Nat → Nat) (h1 : 1 ≤ s.bytes_to_read) (h2 : s.bytes_to_read ≤ 64) :
    (frame_r d a = [0x72, d % 256, a % 256] ∧
      with_addr1 s.i2c_buf a 0 = a % 256 ∧
      (read_from_eeprom (programmer H) d a rxbuffer s).2.2.hw =
        set_writepin H (bus_r H (idle_writepin H s.hw) s.i2c_buf d a s.bytes_to_read).2.2
          WR_TOGGLE ∧
      ((bus_r H (idle_writepin H s.hw) s.i2c_buf d a s.bytes_to_read).1 = 1 →
        (serve H s (frame_r d a)).tx = 0x06 :: (List.range s.bytes_to_read).map
          (bus_r H (idle_writepin H s.hw) s.i2c_buf d a s.bytes_to_read).2.1) ∧
      (serve H s (frame_r d a)).tx.length = 1 + s.bytes_to_read ∧
      readOk (read_from_eeprom (programmer H) d a rxbuffer s).1
        (read_from_eeprom (programmer H) d a rxbuffer s).2.1 = 1 + s.bytes_to_read) ∧
    (frame_R d a = [0x52, d % 256, a / 256 % 256, a % 256] ∧
      with_addr2 s.i2c_buf (a / 256) a 0 = a / 256 % 256 ∧
      with_addr2 s.i2c_buf (a / 256) a 1 = a % 256 ∧
      (Read_from_eeprom (programmer H) d a rxbuffer s).2.2.hw =
        set_writepin H
          (bus_R H (idle_writepin H s.hw) s.i2c_buf d (a / 256) a s.bytes_to_read).2.2
          WR_TOGGLE ∧
      ((bus_R H (idle_writepin H s.hw) s.i2c_buf d (a / 256) a s.bytes_to_read).1 = 1 →
        (serve H s (frame_R d a)).tx = 0x06 :: (List.range s.bytes_to_read).map
          (bus_R H (idle_writepin H s.hw) s.i2c_buf d (a / 256) a s.bytes_to_read).2.1) ∧
      (serve H s (frame_R d a)).tx.length = 1 + s.bytes_to_read ∧
      readOk (Read_from_eeprom (programmer H) d a rxbuffer s).1
        (Read_from_eeprom (programmer H) d a rxbuffer s).2.1 = 1 + s.bytes_to_read) := by
  have hr := serve_r_accept H s (d % 256) (a % 256)
  have hR := serve_R_accept H s (d % 256) (a / 256 % 256) (a % 256)
  rw [bus_r_mod] at hr
  rw [bus_R_mod] at hR
  have hfr : frame_r d a = [0x72, d % 256, a % 256] := rfl
  have hfR : frame_R d a = [0x52, d % 256, a / 256 % 256, a % 256] := rfl
  refine ⟨⟨hfr, rfl, ?_, ?_, ?_, ?_⟩, ⟨hfR, rfl, rfl, ?_, ?_, ?_, ?_⟩⟩
  · simp only [read_from_eeprom, exchange, programmer, hfr]; exact hr.2
  · intro hok
    rw [hfr, hr.1, map_mod_of_lt (bus_r H (idle_writepin H s.hw) s.i2c_buf d a s.bytes_to_read).2.1
      s.bytes_to_read (fun k hk => i2c_read_lt H _ _ _ _ hok k hk)]
  · rw [hfr, hr.1]; simp; omega
  · simp only [read_from_eeprom, exchange, programmer, hfr, hr.1]
    rw [readOk_ack_cons _ _ (by simpa using h1) (by simp [RX_BUFFER_SIZE]; omega)]
    simp
  · simp only [Read_from_eeprom, exchange, programmer, hfR]; exact hR.2
  · intro hok
    rw [hfR, hR.1, map_mod_of_lt
      (bus_R H (idle_writepin H s.hw) s.i2c_buf d (a / 256) a s.bytes_to_read).2.1
      s.bytes_to_read (fun k hk => i2c_read_lt H _ _ _ _ hok k hk)]
  · rw [hfR, hR.1]; simp; omega
  · simp only [Read_from_eeprom, exchange, programmer, hfR, hR.1]
    rw [readOk_ack_cons _ _ (by simpa using h1) (by simp [RX_BUFFER_SIZE]; omega)]
    simp

/-- Witness for C12: the read of address 0x0120 of device 0x50 on the
simulated board after power-on (read burst 8). -/
theorem read_path_end_to_end_witness :
    1 ≤ (Fw.power_on (simIdle true) 0).bytes_to_read ∧
    (Fw.power_on (simIdle true) 0).bytes_to_read ≤ 64 ∧
    (serve simBoard (Fw.power_on (simIdle true) 0) (frame_R 0x50 0x0120)).tx.length =
      1 + (Fw.power_on (simIdle true) 0).bytes_to_read ∧
    readOk (read_from_eeprom (programmer simBoard) 0x50 0x0120 (fun _ => 0)
        (Fw.power_on (simIdle true) 0)).1
      (read_from_eeprom (programmer simBoard) 0x50 0x0120 (fun _ => 0)
        (Fw.power_on (simIdle true) 0)).2.1 = 1 + (Fw.power_on (simIdle true) 0).bytes_to_read :=
  ⟨by decide, by decide,
    (read_path_end_to_end simBoard (Fw.power_on (simIdle true) 0) 0x50 0x0120 (fun _ => 0)
      (by decide) (by decide)).2.2.2.2.2.2.1,
    (read_path_end_to_end simBoard (Fw.power_on (simIdle true) 0) 0x50 0x0120 (fun _ => 0)
      (by decide) (by decide)).1.2.2.2.2.2⟩

theorem i2c_read_wait_sim (n : Nat) (b : Sim) :
    i2c_read_wait simBoard n b = (decide (0 < n) && b.ready, b) := by
  induction n with
  | zero => simp [i2c_read_wait]
  | succ n ih =>
    have hrd : simBoard.readTWCR b = (if b.ready then 0x80 else 0x00, b) := rfl
    simp only [i2c_read_wait, hrd, ih]
    cases hb : b.ready <;> simp

theorem set_writepin_sim_ready (b : Sim) (state : Nat) :
    (set_writepin simBoard b state).ready = b.ready := by
  unfold set_writepin
  split_ifs <;> rfl

theorem i2c_write_sim_ready (address : Nat) (buffer : Nat → Nat) (length : Nat) (b : Sim) :
    (i2c_write simBoard address buffer length b).ready = b.ready := by
  have hf : ∀ (l : List Nat) (c : Sim),
      (l.foldl (fun b i => i2c_writeByte simBoard (buffer i) b) c).ready = c.ready := by
    intro l
    induction l with
    | nil => intro c; rfl
    | cons x xs ih => intro c; rw [List.foldl_cons, ih]; rfl
  have hs : ∀ (c : Sim) (x : Nat), (simBoard.setTWCR c x).ready = c.ready := fun _ _ => rfl
  unfold i2c_write i2c_stopCondition
  rw [hs, hf]
  rfl

theorem i2c_read_sim_stuck (address : Nat) (buffer : Nat → Nat) (n : Nat) (b : Sim)
    (h : b.ready = false) (hn : 0 < n) :
    (i2c_read simBoard address buffer n b).1 = 0 ∧
    (i2c_read simBoard address buffer n b).2.1 = buffer := by
  obtain ⟨m, rfl⟩ : ∃ m, n = m + 1 := ⟨n - 1, by omega⟩
  have hr : (simBoard.setTWCR (i2c_writeByte simBoard (2 * address + 1)
      (i2c_startCondition simBoard b)) (if 0 + 1 = m + 1 then 0x84 else 0xC4)).ready = false := h
  unfold i2c_read
  simp only [i2c_read_bytes, i2c_read_wait_sim, hr]
  simp

theorem bus_r_sim_stuck (b : Sim) (i2c_buf : Nat → Nat) (d a n : Nat)
    (h : b.ready = false) (hn : 0 < n) :
    (bus_r simBoard b i2c_buf d a n).1 = 0 ∧
    (bus_r simBoard b i2c_buf d a n).2.1 = with_addr1 i2c_buf a := by
  unfold bus_r
  exact i2c_read_sim_stuck _ _ n _
    (by rw [i2c_write_sim_ready, set_writepin_sim_ready]; exact h) hn

theorem serve_r_stale {β : Type} (H : Board β) (s : Fw β) (d a : Nat)
    (h : (bus_r H (idle_writepin H s.hw) s.i2c_buf d a s.bytes_to_read).2.1 =
      with_addr1 s.i2c_buf a) :
    (serve H s [0x72, d, a]).tx =
      0x06 :: (List.range s.bytes_to_read).map (fun k => with_addr1 s.i2c_buf a k % 256) := by
  rw [(serve_r_accept H s d a).1, h]

/-- Claim C19, evaluated on a bus read that times out. On the simulated
board whose bus never completes a byte, the command `r` for address 3 of
device 0x50 after power-on: `i2c_read` returns 0, yet the response is ACK
followed by 8 bytes (the address byte and the former content of the
buffer), 9 bytes as for a read that worked, and `readOk` classifies it as
ok. -/
theorem read_timeout_still_acknowledged :
    (bus_r simBoard (idle_writepin simBoard (simIdle false)) (fun _ => 0) 0x50 0x03 8).1 = 0 ∧
    (serve simBoard (Fw.power_on (simIdle false) 0) (frame_r 0x50 0x03)).tx =
      [0x06, 0x03, 0, 0, 0, 0, 0, 0, 0] ∧
    (serve simBoard (Fw.power_on (simIdle false) 0) (frame_r 0x50 0x03)).tx.length = 1 + 8 ∧
    read_acked (serve simBoard (Fw.power_on (simIdle false) 0) (frame_r 0x50 0x03)).tx := by
  have hrdy : (idle_writepin simBoard (simIdle false)).ready = false := by decide
  have hstuck := bus_r_sim_stuck (idle_writepin simBoard (simIdle false)) (fun _ => 0)
    0x50 0x03 8 hrdy (by decide)
  have hrdy2 : (idle_writepin simBoard (Fw.power_on (simIdle false) 0).hw).ready = false := by
    decide
  have hstuck2 := bus_r_sim_stuck (idle_writepin simBoard (Fw.power_on (simIdle false) 0).hw)
    (Fw.power_on (simIdle false) 0).i2c_buf 0x50 0x03
    (Fw.power_on (simIdle false) 0).bytes_to_read hrdy2 (by decide)
  have htx : (serve simBoard (Fw.power_on (simIdle false) 0) (frame_r 0x50 0x03)).tx =
      [0x06, 0x03, 0, 0, 0, 0, 0, 0, 0] := by
    have hf : frame_r 0x50 0x03 = [0x72, 0x50, 0x03] := by decide
    rw [hf, serve_r_stale simBoard _ 0x50 0x03 hstuck2.2]
    decide
  refine ⟨hstuck.1, htx, ?_, ?_⟩
  · rw [htx]; rfl
  · rw [htx]; decide

/-! ## Host: response classification, options, port detection -/

/-- Counterexample to C27: a response of the single byte ACK 0x06 has been
received, so at least one byte was received and the first byte is ACK, but
`readOk` returns 0. -/
theorem readOk_rejects_lone_ack :
    1 ≤ ([0x06].take RX_BUFFER_SIZE).length ∧
    fill (fun _ => 0) ([0x06].take RX_BUFFER_SIZE) 0 = 0x06 ∧
    readOk (fill (fun _ => 0) ([0x06].take RX_BUFFER_SIZE)) ([0x06].take RX_BUFFER_SIZE).length
      = 0 := by
  decide

/-- Claim C27, amended. `readOk` classifies a received response as ok
(returns non-zero, namely the number of bytes received) if and only if at
least two bytes were received and the first byte is ACK 0x06, and as failed
(returns 0) otherwise; for a response `r` received into the buffer this
means that `r` has at least two bytes and starts with ACK. -/
theorem readOk_iff_two_bytes_and_ack (rxbuffer : Nat → Nat) (read_N : Nat) (r : List Nat) :
    (readOk rxbuffer read_N ≠ 0 ↔ 2 ≤ read_N ∧ rxbuffer 0 = 0x06) ∧
    (readOk rxbuffer read_N ≠ 0 → readOk rxbuffer read_N = read_N) ∧
    (read_acked r ↔ 2 ≤ r.length ∧ r.getD 0 0 % 256 = 0x06) := by
  refine ⟨?_, ?_, ?_⟩
  · unfold readOk
    split_ifs with h
    · exact ⟨fun _ => h, fun _ => by omega⟩
    · exact ⟨fun h0 => absurd rfl h0, fun h1 => absurd h1 h⟩
  · unfold readOk
    split_ifs with h
    · exact fun _ => rfl
    · exact fun h0 => absurd rfl h0
  · unfold read_acked readOk
    rcases r with _ | ⟨x, _ | ⟨y, l⟩⟩
    · simp
    · simp [RX_BUFFER_SIZE]
    · simp [RX_BUFFER_SIZE, fill]

/-- Claim C23. For every integer argument `n` the option `-r` stores `n`
in `read_burst` when `n` is one of 1, 8, 16, 24, 32, 40, 48, 56, 64 and the
default 8 otherwise, and the option `-w` stores `n` in `write_burst` when
`n` is one of 1, 8, 16, 32 and the default 8 otherwise; an illegal value is
replaced by 8 and by no other legal value. -/
theorem burst_options_legal_or_default (n : Int) :
    (main_opt_r n = if n ∈ legal_read_bursts then n.toNat else 8) ∧
    (main_opt_w n = if n ∈ legal_write_bursts then n.toNat else 8) ∧
    (n ∉ legal_read_bursts → main_opt_r n = 8) ∧
    (n ∉ legal_write_bursts → main_opt_w n = 8) := by
  have hr : main_opt_r n = if n ∈ legal_read_bursts then n.toNat else 8 := by
    unfold main_opt_r legal_read_bursts
    by_cases h : (0 < n ∧ n ≤ 64 ∧ Int.tmod n 8 = 0) ∨ n = 1
    · rw [if_pos h]
      have hm : n ∈ [(1 : Int), 8, 16, 24, 32, 40, 48, 56, 64] := by
        simp only [List.mem_cons, List.mem_singleton, List.not_mem_nil, or_false]
        rcases h with ⟨h0, h1, h2⟩ | h
        · rw [Int.tmod_eq_emod (by omega) (by omega)] at h2
          omega
        · omega
      rw [if_pos hm]
      have : 0 < n ∧ n ≤ 64 := by
        simp only [List.mem_cons, List.mem_singleton, List.not_mem_nil, or_false] at hm
        omega
      omega
    · rw [if_neg h]
      have hm : n ∉ [(1 : Int), 8, 16, 24, 32, 40, 48, 56, 64] := by
        simp only [List.mem_cons, List.mem_singleton, List.not_mem_nil, or_false]
        intro hm
        apply h
        rcases hm with rfl | rfl | rfl | rfl | rfl | rfl | rfl | rfl | rfl <;> decide
      rw [if_neg hm]
  have hw : main_opt_w n = if n ∈ legal_write_bursts then n.toNat else 8 := by
    unfold main_opt_w legal_write_bursts
    simp only [List.mem_cons, List.mem_singleton, List.not_mem_nil, or_false]
    split_ifs with h
    · omega
    · rfl
  refine ⟨hr, hw, fun h => ?_, fun h => ?_⟩
  · rw [hr, if_neg h]
  · rw [hw, if_neg h]

/-- With fuel for the ten candidates `m_task` returns; when it returns 1 the
capacity search was entered from state 6 and ended in state 7, and the
width and capacity reported are those of the search. -/
theorem m_task_success {σ : Type} (T : Link σ) (fuel i2c_addr : Nat) (v : MVars σ)
    (hf : 10 ≤ fuel) :
    ∃ r r6, m_task T fuel i2c_addr v = some r ∧
      m_state6 T fuel i2c_addr (m_states_1_5 T i2c_addr v) = some r6 ∧
      (r.ret = 1 →
        (m_states_1_5 T i2c_addr v).state = 6 ∧ r6.state = 7 ∧ r.N_bytes = r6.N_bytes ∧
        r.N_addr = (m_states_1_5 T i2c_addr v).N_addr ∧ r.st = r6.st ∧
        ∃ k, k < 10 ∧ r.N_bytes = 128 * 2 ^ k) := by
  obtain ⟨h1, h6, _, _⟩ := m_states_1_5_frame T i2c_addr v
  unfold m_task m_state6
  generalize m_states_1_5 T i2c_addr v = w at h1 h6 ⊢
  by_cases hs : w.state = 6
  · obtain ⟨r, hr, ha, _, hcase⟩ := m_scan_returns T i2c_addr fuel 0
      { w with L := 128, MODEL := 1 } (by simp) (by omega) (by omega) hs
    rw [if_pos hs, hr, Option.map_some']
    refine ⟨_, r, rfl, rfl, ?_⟩
    rcases hcase with ⟨h7, hn, k, _, hk, hL⟩ | ⟨hs6, hn⟩
    · have hsw : m_switch i2c_addr r = { r with ret := 1 } := by
        simp [m_switch, h7]
      rw [hsw]
      intro _
      exact ⟨hs, h7, rfl, ha, rfl, k, hk, by rw [← hL]; exact hn⟩
    · have hsw : m_switch i2c_addr r = { r with N_addr := N_addr_default i2c_addr, ret := 0 } := by
        simp [m_switch, hs6]
      rw [hsw]
      intro h
      exact absurd h Nat.zero_ne_one
  · rw [if_neg hs, Option.map_some']
    refine ⟨_, w, rfl, rfl, ?_⟩
    have hsw : m_switch i2c_addr w = { w with N_addr := N_addr_default i2c_addr, ret := 0 } := by
      have : w.state = 1 ∨ w.state = 2 ∨ w.state = 3 ∨ w.state = 4 ∨ w.state = 5 ∨ w.state = 6 := by
        omega
      simp [m_switch, this]
    rw [hsw]
    intro h
    exact absurd h Nat.zero_ne_one

theorem capacity_hint_pow (filesize : Nat) (h : filesize ≠ 0) :
    capacity_hint filesize = 2 ^ Nat.clog 2 filesize ∧ filesize ≤ capacity_hint filesize ∧
    capacity_hint filesize < 2 * filesize := by
  unfold capacity_hint
  rw [if_neg h]
  refine ⟨rfl, Nat.le_pow_clog (by decide) _, ?_⟩
  by_cases h1 : filesize = 1
  · subst h1; simp
  · have hlt := Nat.pow_pred_clog_lt_self (b := 2) (by decide) (x := filesize) (by omega)
    have hpos : 0 < Nat.clog 2 filesize := Nat.clog_pos (by decide) (by omega)
    obtain ⟨e, he⟩ : ∃ e, Nat.clog 2 filesize = e + 1 := ⟨Nat.clog 2 filesize - 1, by omega⟩
    rw [he] at hlt ⊢
    rw [pow_succ]
    simp only [Nat.pred_eq_sub_one, Nat.add_sub_cancel] at hlt
    omega

/-- Counterexample to C24: the option `-L 384` is accepted and stores 384 in
`N_bytes`, which is not a power of two; a file of one byte gives the
capacity hint 1, below 128. -/
theorem capacity_384_is_accepted :
    main_opt_L 384 = 384 ∧ main_opt_l 3072 = 384 ∧ (¬ ∃ e, e ≤ 16 ∧ 2 ^ e = 384) ∧
    capacity_hint 1 = 1 := by
  refine ⟨by decide, by decide, by decide, ?_⟩
  simp [capacity_hint]

/-- Claim C24, amended. Every non-zero value the size options `-l` and `-L`
store in `N_bytes` is a multiple of 128 between 128 and 65536, and every
such multiple is stored by `-L`; the defaults chosen by `d_task` for widths
0, 1, 2 on entry are 256 or 4096; the capacity hint `u_task` computes for
a non-empty file of at most 1048576 bytes is the smallest power of two not
below the file size, so at most 64 for files of up to 64 bytes and more
than 65536 for files larger than 65536 bytes; the value set by a
successful `m_task` is a power of two between 128 and 65536. -/
theorem stored_capacities :
    (∀ n : Int, main_opt_l n ≠ 0 →
      128 ∣ main_opt_l n ∧ 128 ≤ main_opt_l n ∧ main_opt_l n ≤ 65536) ∧
    (∀ n : Int, main_opt_L n ≠ 0 →
      128 ∣ main_opt_L n ∧ 128 ≤ main_opt_L n ∧ main_opt_L n ≤ 65536) ∧
    (∀ m : Nat, 1 ≤ m → m ≤ 512 → main_opt_L (128 * m) = 128 * m ∧
      main_opt_l (1024 * m) = 128 * m) ∧
    (∀ i2c_addr N_addr : Nat, N_addr = 0 ∨ N_addr = 1 ∨ N_addr = 2 →
      bytes_or_default (width_or_default i2c_addr N_addr) 0 = 2 ^ 8 ∨
      bytes_or_default (width_or_default i2c_addr N_addr) 0 = 2 ^ 12) ∧
    (∀ filesize : Nat, filesize ≠ 0 → filesize ≤ 1048576 →
      capacity_hint filesize = 2 ^ Nat.clog 2 filesize ∧ filesize ≤ capacity_hint filesize ∧
      capacity_hint filesize < 2 * filesize ∧
      (filesize ≤ 64 → capacity_hint filesize ≤ 64) ∧
      (65536 < filesize → 65536 < capacity_hint filesize)) ∧
    (∀ (σ : Type) (T : Link σ) (fuel i2c_addr : Nat) (v : MVars σ), 10 ≤ fuel →
      ∃ r, m_task T fuel i2c_addr v = some r ∧
        (r.ret = 1 → ∃ k, k < 10 ∧ r.N_bytes = 2 ^ (7 + k) ∧ 128 ≤ r.N_bytes ∧
          r.N_bytes ≤ 65536)) := by
  refine ⟨fun n h => ?_, fun n h => ?_, fun m h1 h2 => ?_, fun i2c_addr N_addr h => ?_,
    fun filesize h _ => ?_, fun σ T fuel i2c_addr v hf => ?_⟩
  · unfold main_opt_l at h ⊢
    split_ifs at h ⊢ with hc
    · obtain ⟨h0, h1, h2⟩ := hc
      rw [Int.tmod_eq_emod (by omega) (by omega)] at h2
      rw [Int.tdiv_eq_ediv (by omega) (by omega)]
      omega
    · exact absurd rfl h
  · unfold main_opt_L at h ⊢
    split_ifs at h ⊢ with hc
    · obtain ⟨h0, h1, h2⟩ := hc
      rw [Int.tmod_eq_emod (by omega) (by omega)] at h2
      omega
    · exact absurd rfl h
  · unfold main_opt_L main_opt_l
    have hL : (0 : Int) < 128 * (m : Int) ∧ 128 * (m : Int) ≤ 65536 ∧
        Int.tmod (128 * (m : Int)) 128 = 0 := by
      refine ⟨by omega, by omega, ?_⟩
      rw [Int.tmod_eq_emod (by omega) (by omega)]
      omega
    have hl : (0 : Int) < 1024 * (m : Int) ∧ 1024 * (m : Int) ≤ 524288 ∧
        Int.tmod (1024 * (m : Int)) 1024 = 0 := by
      refine ⟨by omega, by omega, ?_⟩
      rw [Int.tmod_eq_emod (by omega) (by omega)]
      omega
    push_cast
    rw [if_pos hL, if_pos hl, Int.tdiv_eq_ediv (by omega) (by omega)]
    omega
  · unfold bytes_or_default width_or_default N_addr_default
    rcases h with rfl | rfl | rfl
    · simp only [if_true]
      have : i2c_addr % 256 / 4 % 2 = 0 ∨ i2c_addr % 256 / 4 % 2 = 1 := by omega
      rcases this with h | h <;> simp [h]
    · simp
    · simp
  · obtain ⟨h1, h2, h3⟩ := capacity_hint_pow filesize h
    refine ⟨h1, h2, h3, fun h64 => ?_, fun hbig => by omega⟩
    rw [h1]
    have : Nat.clog 2 filesize ≤ 6 := by
      have := Nat.clog_mono_right 2 h64
      have h6 : Nat.clog 2 64 = 6 := by
        rw [show (64 : Nat) = 2 ^ 6 by norm_num, Nat.clog_pow 2 6 (by decide)]
      omega
    calc 2 ^ Nat.clog 2 filesize ≤ 2 ^ 6 := Nat.pow_le_pow_right (by decide) this
      _ = 64 := by norm_num
  · obtain ⟨r, r6, hr, _, hone⟩ := m_task_success T fuel i2c_addr v hf
    refine ⟨r, hr, fun h => ?_⟩
    obtain ⟨_, _, _, _, _, k, hk, hN⟩ := hone h
    have hp : 128 * 2 ^ k = 2 ^ (7 + k) := by rw [pow_add]; norm_num
    have hle : 2 ^ k ≤ 2 ^ 9 := Nat.pow_le_pow_right (by decide) (by omega)
    have hge : 1 ≤ 2 ^ k := Nat.one_le_two_pow
    refine ⟨k, hk, by rw [hN, hp], by omega, ?_⟩
    rw [hN]
    norm_num at hle
    omega

/-- Witness for the amended C24: the option `-L 384` and a file of 300
bytes. -/
theorem stored_capacities_witness :
    main_opt_L 384 ≠ 0 ∧ (300 : Nat) ≠ 0 ∧ (300 : Nat) ≤ 1048576 ∧
    (128 ∣ main_opt_L 384 ∧ 128 ≤ main_opt_L 384 ∧ main_opt_L 384 ≤ 65536) ∧
    300 ≤ capacity_hint 300 ∧ capacity_hint 300 < 2 * 300 :=
  ⟨by decide, by decide, by decide, stored_capacities.2.1 384 (by decide),
    (stored_capacities.2.2.2.2.1 300 (by decide) (by decide)).2.1,
    (stored_capacities.2.2.2.2.1 300 (by decide) (by decide)).2.2.1⟩

theorem dispatch_s {β : Type} (H : Board β) (s : Fw β) (h : s.task = 0x73) :
    dispatch H s = case_s H s := by
  simp [dispatch, h]

theorem dispatch_v {β : Type} (H : Board β) (s : Fw β) (h : s.task = 0x76) :
    dispatch H s = case_v s := by
  simp [dispatch, h]

theorem serve_v {β : Type} (H : Board β) (s : Fw β) (rest : List Nat) :
    (serve H s (0x76 :: rest)).tx = [0x01, 0x01, 0x01, 0xFF] := by
  rw [serve_cons, dispatch_v _ _ rfl]
  simp [case_v, usb_serial_putchar, usb_serial_flush_input, FRU_PROGRAMMER_FW_REL_MAJ,
    FRU_PROGRAMMER_FW_REL_MIN, FRU_PROGRAMMER_FW_BUILD, UART_END]

/-- Claim C22. `init_serial_port` on an opened port returns 1 exactly when
the response received after sending `v` has 4 bytes and its fourth byte is
0xFF; it returns 0 for every other response and for a port that cannot be
opened. The response of the dispatcher to `v` is the three version bytes
followed by 0xFF, for every board and state, and `init_serial_port` accepts
it. -/
theorem version_check_accepts_firmware {σ : Type} (T : Link σ) (rxbuffer : Nat → Nat)
    (s : σ) :
    ((init_serial_port T true rxbuffer s).1 = 1 ↔
      ((T.xfer s [0x76] RX_BUFFER_SIZE).1.take RX_BUFFER_SIZE).length = 4 ∧
      ((T.xfer s [0x76] RX_BUFFER_SIZE).1.take RX_BUFFER_SIZE).getD 3 0 % 256 = 0xFF) ∧
    ((init_serial_port T true rxbuffer s).1 = 0 ∨ (init_serial_port T true rxbuffer s).1 = 1) ∧
    init_serial_port T false rxbuffer s = (0, s) ∧
    (∀ (β : Type) (H : Board β) (f : Fw β),
      (serve H f [0x76]).tx = [FRU_PROGRAMMER_FW_REL_MAJ, FRU_PROGRAMMER_FW_REL_MIN,
        FRU_PROGRAMMER_FW_BUILD, 0xFF] ∧
      (init_serial_port (programmer H) true rxbuffer f).1 = 1) := by
  refine ⟨?_, ?_, rfl, fun β H f => ⟨serve_v H f [], ?_⟩⟩
  · unfold init_serial_port exchange
    simp only [if_true]
    generalize (T.xfer s [0x76] RX_BUFFER_SIZE).1.take RX_BUFFER_SIZE = l
    split_ifs with h
    · refine ⟨fun _ => ⟨h.1, ?_⟩, fun _ => rfl⟩
      have h2 := h.2
      rw [h.1] at h2
      simpa [fill, h.1] using h2
    · refine ⟨fun h0 => by simp at h0, fun h1 => absurd ⟨h1.1, ?_⟩ h⟩
      rw [h1.1]
      simpa [fill, h1.1] using h1.2
  · unfold init_serial_port
    simp only [if_true]
    split_ifs
    · exact Or.inr rfl
    · exact Or.inl rfl
  · unfold init_serial_port exchange programmer
    simp only [if_true, serve_v H f []]
    simp [fill, RX_BUFFER_SIZE]

theorem ior_80 : ∀ i, i < 8 → I2C_EEPROM_ADDR_7BIT ||| i = 0x50 + i := by
  decide

theorem scan_loop_tx {β : Type} (H : Board β) (b : β) :
    ∀ (todo i : Nat) (s : Fw β), s.i = i → s.hw = scan_hw H b i → i + todo ≤ 8 →
      (scan_loop H todo s).tx =
        s.tx ++ ((List.range' i todo).filter (scan_ack H b)).map (fun j => 0x50 + j) := by
  intro todo
  induction todo with
  | zero => intro i s _ _ _; simp [scan_loop]
  | succ n ih =>
    intro i s hi hhw hle
    simp only [scan_loop]
    rw [ih (i + 1) _ (by simp [hi]) (by
      show (if _ then _ else _ : Fw β).hw = _
      rw [hi, hhw]
      split_ifs <;> rfl) (by omega)]
    rw [List.range'_succ, List.filter_cons]
    have hack : scan_ack H b i = decide ((i2c_scan H (I2C_EEPROM_ADDR_7BIT ||| s.i) s.hw).1 = 1) := by
      rw [hi, hhw]; rfl
    by_cases h : (i2c_scan H (I2C_EEPROM_ADDR_7BIT ||| s.i) s.hw).1 = 1
    · rw [hack, if_pos h]
      simp only [h, decide_True, if_true, List.map_cons]
      have h80 : (I2C_EEPROM_ADDR_7BIT ||| s.i) % 256 = 0x50 + i := by
        rw [hi, ior_80 i (by omega)]
        exact Nat.mod_eq_of_lt (by omega)
      simp [usb_serial_putchar, h80]
    · rw [hack, if_neg h]
      simp only [h, decide_False]
      simp

theorem serve_s {β : Type} (H : Board β) (s : Fw β) (rest : List Nat) :
    (serve H s (0x73 :: rest)).tx =
      ((List.range 8).filter (scan_ack H (idle_writepin H s.hw))).map (fun j => 0x50 + j) ++
        [0xFF] := by
  rw [serve_cons, dispatch_s _ _ rfl]
  unfold case_s
  simp only [usb_serial_flush_input, usb_serial_putchar]
  rw [scan_loop_tx H (idle_writepin H s.hw) 8 0 _ rfl rfl (by decide)]
  simp [List.range_eq_range', UART_END]

theorem i2c_scan_ackBoard (ack : Nat → Bool) (a : Nat) (b : Sim) (ha : a < 128) :
    (i2c_scan (ackBoard ack) a b).1 = if ack a then 1 else 0 := by
  have hst : ((ackBoard ack).waitTWINT ((ackBoard ack).setTWCR ((ackBoard ack).setTWDR
      (i2c_startCondition (ackBoard ack) b) (2 * a % 256)) 0x84)).addressed = a := by
    simp only [ackBoard, simBoard, i2c_startCondition, Sim.addressed]
    simp [List.filter_append, List.filter_cons]
    omega
  unfold i2c_scan
  have hT : ∀ c : Sim, (ackBoard ack).TWSR c = if ack c.addressed then 0x18 else 0x20 :=
    fun _ => rfl
  rw [hT, hst]
  have e1 : (32 &&& 248 : Nat) = 32 := by decide
  have e2 : (24 &&& 248 : Nat) = 24 := by decide
  cases ack a <;> simp [e1, e2]

theorem scan_ack_ackBoard (ack : Nat → Bool) (b : Sim) (i : Nat) (hi : i < 8) :
    scan_ack (ackBoard ack) b i = ack (0x50 + i) := by
  unfold scan_ack
  rw [ior_80 i hi, i2c_scan_ackBoard ack _ _ (by omega)]
  cases ack (0x50 + i) <;> simp

theorem filter_range_length_le (p : Nat → Bool) (n : Nat) :
    ((List.range n).filter p).length ≤ n := by
  have := List.length_filter_le p (List.range n)
  simpa using this

/-- Claim C21. For every board and state, the response to `s` is the list
of the addresses `0x50 + i`, `i` from 0 to 7 in ascending order, whose scan
is acknowledged (`i2c_scan` returns 1), followed by the one byte 0xFF. It
has between 1 and 9 bytes, its last byte is 0xFF, the bytes before it lie
in 0x50..0x57 (so none is 0xFF) and are strictly ascending. On the
simulated bus on which exactly the addresses in `ack` acknowledge this is
the list of the addresses `0x50 .. 0x57` in `ack`, followed by 0xFF. -/
theorem scan_response {β : Type} (H : Board β) (s : Fw β) (rest : List Nat) :
    (serve H s (0x73 :: rest)).tx =
      ((List.range 8).filter (scan_ack H (idle_writepin H s.hw))).map (fun i => 0x50 + i) ++
        [0xFF] ∧
    1 ≤ (serve H s (0x73 :: rest)).tx.length ∧ (serve H s (0x73 :: rest)).tx.length ≤ 9 ∧
    (serve H s (0x73 :: rest)).tx.getLast? = some 0xFF ∧
    (∀ x ∈ (serve H s (0x73 :: rest)).tx.dropLast, 0x50 ≤ x ∧ x ≤ 0x57 ∧ x ≠ 0xFF) ∧
    (serve H s (0x73 :: rest)).tx.dropLast.Pairwise (· < ·) ∧
    (∀ (ack : Nat → Bool) (f : Fw Sim),
      (serve (ackBoard ack) f (0x73 :: rest)).tx =
        ([0x50, 0x51, 0x52, 0x53, 0x54, 0x55, 0x56, 0x57].filter ack) ++ [0xFF]) := by
  have key := serve_s H s rest
  refine ⟨key, ?_, ?_, ?_, ?_, ?_, fun ack f => ?_⟩
  · rw [key]; simp
  · rw [key]
    have := filter_range_length_le (scan_ack H (idle_writepin H s.hw)) 8
    simp only [List.length_append, List.length_map, List.length_singleton]
    omega
  · rw [key]; simp
  · rw [key, List.dropLast_concat]
    intro x hx
    obtain ⟨i, hi, rfl⟩ := List.mem_map.mp hx
    have h8 : i < 8 := List.mem_range.mp (List.mem_filter.mp hi).1
    omega
  · rw [key, List.dropLast_concat]
    apply List.Pairwise.map (R := (· < ·))
    · intro a b hab
      show 0x50 + a < 0x50 + b
      omega
    · exact List.Pairwise.filter _ (List.pairwise_lt_range 8)
  · rw [serve_s]
    have hf : (List.range 8).filter (scan_ack (ackBoard ack) (idle_writepin (ackBoard ack) f.hw)) =
        (List.range 8).filter (fun i => ack (0x50 + i)) := by
      apply List.filter_congr
      intro i hi
      exact scan_ack_ackBoard ack _ i (List.mem_range.mp hi)
    rw [hf]
    simp only [List.range, List.range.loop, List.filter_cons, List.filter_nil]
    congr 1
    cases ack 0x50 <;> cases ack 0x51 <;> cases ack 0x52 <;> cases ack 0x53 <;>
      cases ack 0x54 <;> cases ack 0x55 <;> cases ack 0x56 <;> cases ack 0x57 <;> rfl

theorem i2c_read_bytes_above {β : Type} (H : Board β) (length : Nat) (todo i : Nat)
    (buffer : Nat → Nat) (b : β) (k : Nat) (hk : i + todo ≤ k) :
    (i2c_read_bytes H length todo i buffer b).2.1 k = buffer k := by
  induction todo generalizing i buffer b with
  | zero => rfl
  | succ n ih =>
    simp only [i2c_read_bytes]
    generalize (if i + 1 = length then 0x84 else 0xC4) = c
    by_cases hw : (i2c_read_wait H 50001 (H.setTWCR b c)).1 = true
    · rw [if_pos hw, ih (i + 1) _ _ (by omega), if_neg (by omega)]
    · rw [if_neg hw]

theorem case_b_invariant {β : Type} (s : Fw β) (h1 : 1 ≤ s.bytes_to_read)
    (h2 : s.bytes_to_read ≤ 64) :
    1 ≤ (case_b s).bytes_to_read ∧ (case_b s).bytes_to_read ≤ 64 := by
  simp only [case_b]
  split_ifs with ha hr h0
  · simp only [usb_serial_putchar, I2C_MAX_READ] at hr ⊢
    exact hr
  · simp [usb_serial_putchar, I2C_DEFAULT_READ]
  · simpa [usb_serial_putchar] using ⟨h1, h2⟩
  · simpa [usb_serial_putchar] using ⟨h1, h2⟩

theorem serve_invariant {β : Type} (H : Board β) (s : Fw β) (c : List Nat)
    (h1 : 1 ≤ s.bytes_to_read) (h2 : s.bytes_to_read ≤ 64) :
    1 ≤ (serve H s c).bytes_to_read ∧ (serve H s c).bytes_to_read ≤ 64 := by
  cases c with
  | nil => rw [serve_nil]; exact ⟨h1, h2⟩
  | cons op args =>
    by_cases hb : op % 256 = 0x62
    · rw [serve_cons]
      show 1 ≤ (dispatch H _).bytes_to_read ∧ (dispatch H _).bytes_to_read ≤ 64
      rw [dispatch_b _ _ hb]
      exact case_b_invariant _ h1 h2
    · rw [serve_bytes_to_read H s (op :: args) (by
        intro x hx
        simp only [List.head?_cons, Option.mem_def, Option.some.injEq] at hx
        rw [← hx]; exact hb)]
      exact ⟨h1, h2⟩

theorem foldl_serve_invariant {β : Type} (H : Board β) (cmds : List (List Nat)) (s : Fw β)
    (h1 : 1 ≤ s.bytes_to_read) (h2 : s.bytes_to_read ≤ 64) :
    1 ≤ (cmds.foldl (serve H) s).bytes_to_read ∧ (cmds.foldl (serve H) s).bytes_to_read ≤ 64 := by
  induction cmds generalizing s with
  | nil => exact ⟨h1, h2⟩
  | cons c cs ih =>
    rw [List.foldl_cons]
    exact ih _ (serve_invariant H s c h1 h2).1 (serve_invariant H s c h1 h2).2

/-- Claim C29. From the power-on value 8, after any sequence of turns of the
main loop with arbitrary input, the read-burst length lies in `[1, 64]`,
below the size 67 of the bus buffer. So `i2c_read` for `r` and `R` leaves
the buffer from index `bytes_to_read` on untouched, and the response to
`r` and `R` is ACK followed by the `bytes_to_read` buffer bytes of index 0
to `bytes_to_read - 1`, at most 65 bytes. A turn whose input does not
start with the command `b` leaves the read-burst length unchanged. -/
theorem read_burst_invariant {β : Type} (H : Board β) (b : β) (g : Nat)
    (cmds : List (List Nat)) :
    (Fw.power_on b g).bytes_to_read = 8 ∧
    1 ≤ (cmds.foldl (serve H) (Fw.power_on b g)).bytes_to_read ∧
    (cmds.foldl (serve H) (Fw.power_on b g)).bytes_to_read ≤ 64 ∧
    (cmds.foldl (serve H) (Fw.power_on b g)).bytes_to_read < I2C_BUFFERSIZE ∧
    (∀ (address : Nat) (buffer : Nat → Nat) (hw : β) (k : Nat),
      (cmds.foldl (serve H) (Fw.power_on b g)).bytes_to_read ≤ k →
      (i2c_read H address buffer (cmds.foldl (serve H) (Fw.power_on b g)).bytes_to_read hw).2.1 k
        = buffer k) ∧
    (∀ d a : Nat,
      (serve H (cmds.foldl (serve H) (Fw.power_on b g)) [0x72, d, a]).tx.length =
        1 + (cmds.foldl (serve H) (Fw.power_on b g)).bytes_to_read ∧
      (serve H (cmds.foldl (serve H) (Fw.power_on b g)) [0x72, d, a]).tx.length ≤ 65) ∧
    (∀ d m l : Nat,
      (serve H (cmds.foldl (serve H) (Fw.power_on b g)) [0x52, d, m, l]).tx.length =
        1 + (cmds.foldl (serve H) (Fw.power_on b g)).bytes_to_read ∧
      (serve H (cmds.foldl (serve H) (Fw.power_on b g)) [0x52, d, m, l]).tx.length ≤ 65) ∧
    (∀ c : List Nat, (∀ x ∈ c.head?, x % 256 ≠ 0x62) →
      (serve H (cmds.foldl (serve H) (Fw.power_on b g)) c).bytes_to_read =
        (cmds.foldl (serve H) (Fw.power_on b g)).bytes_to_read) := by
  have h0 : (Fw.power_on b g).bytes_to_read = 8 := rfl
  obtain ⟨h1, h2⟩ := foldl_serve_invariant H cmds (Fw.power_on b g) (by rw [h0]; decide)
    (by rw [h0]; decide)
  generalize cmds.foldl (serve H) (Fw.power_on b g) = s at h1 h2 ⊢
  refine ⟨h0, h1, h2, by unfold I2C_BUFFERSIZE; omega, fun address buffer hw k hk => ?_,
    fun d a => ?_, fun d m l => ?_, fun c hc => serve_bytes_to_read H s c hc⟩
  · exact i2c_read_bytes_above H _ _ 0 buffer _ k (by omega)
  · rw [(serve_r_accept H s d a).1]
    simp only [List.length_cons, List.length_map, List.length_range]
    omega
  · rw [(serve_R_accept H s d m l).1]
    simp only [List.length_cons, List.length_map, List.length_range]
    omega

/-- Witness for C29: after power-on the burst is set to 64, a read, a `b`
with argument 200 and a `b` with two arguments follow; a version query
leaves the value alone. -/
theorem read_burst_invariant_witness :
    (∀ x ∈ [0x76].head?, x % 256 ≠ 0x62) ∧
    (serve simBoard ([[0x62, 64], [0x72, 0x50, 0x00], [0x62, 200], [0x62, 1, 2]].foldl
      (serve simBoard) (Fw.power_on (simIdle true) 0)) [0x76]).bytes_to_read =
      ([[0x62, 64], [0x72, 0x50, 0x00], [0x62, 200], [0x62, 1, 2]].foldl
        (serve simBoard) (Fw.power_on (simIdle true) 0)).bytes_to_read :=
  ⟨by decide, (read_burst_invariant simBoard (simIdle true) 0
    [[0x62, 64], [0x72, 0x50, 0x00], [0x62, 200], [0x62, 1, 2]]).2.2.2.2.2.2.2 [0x76] (by decide)⟩

/-! ## Address width of the transfers -/

theorem width_or_default_valid (i2c_addr N_addr : Nat)
    (hN : N_addr = 0 ∨ N_addr = 1 ∨ N_addr = 2) :
    width_or_default i2c_addr N_addr = 1 ∨ width_or_default i2c_addr N_addr = 2 := by
  unfold width_or_default N_addr_default
  rcases hN with rfl | rfl | rfl
  · simp only [if_true]; omega
  · simp
  · simp

theorem d_loop_eq_reads {σ : Type} (T : Link σ) (i2c_addr N_addr N_bytes rb : Nat)
    (hN : N_addr = 1 ∨ N_addr = 2) :
    ∀ (fuel addr : Nat) (rx : Nat → Nat) (fp : List Nat) (s : σ),
      d_loop T i2c_addr N_addr N_bytes rb fuel addr rx fp s =
        d_loop_reads T i2c_addr N_addr N_bytes rb fuel addr rx fp s := by
  intro fuel
  induction fuel with
  | zero =>
    intro addr rx fp s
    rw [d_loop, d_loop_reads]
  | succ n ih =>
    intro addr rx fp s
    rw [d_loop, d_loop_reads]
    by_cases h : addr < N_bytes
    · simp only [if_pos h]
      rcases hN with rfl | rfl
      · simp only [OfNat.ofNat_ne_one, if_false, if_true, read_from_eeprom, read_frame, ih]
        rfl
      · simp only [if_true, Read_from_eeprom, read_frame, ih]
    · simp only [if_neg h]

theorem d_loop_returns {σ : Type} (T : Link σ) (i2c_addr N_addr N_bytes rb : Nat)
    (hB : N_bytes + rb ≤ 2 ^ 32) :
    ∀ (fuel addr : Nat) (rx : Nat → Nat) (fp : List Nat) (s : σ),
      N_bytes ≤ addr + fuel * rb →
      ∃ r, d_loop T i2c_addr N_addr N_bytes rb fuel addr rx fp s = some r := by
  intro fuel
  induction fuel with
  | zero =>
    intro addr rx fp s h
    rw [d_loop, if_neg (by omega)]
    exact ⟨_, rfl⟩
  | succ n ih =>
    intro addr rx fp s h
    rw [d_loop]
    by_cases ha : addr < N_bytes
    · have hmod : (addr + rb) % 2 ^ 32 = addr + rb := Nat.mod_eq_of_lt (by omega)
      have hnext : N_bytes ≤ addr + rb + n * rb := by
        have : (n + 1) * rb = n * rb + rb := Nat.succ_mul n rb
        omega
      simp only [if_pos ha, hmod]
      split_ifs
      · exact ih _ _ _ _ hnext
      · exact ⟨_, rfl⟩
      · exact ih _ _ _ _ hnext
      · exact ⟨_, rfl⟩
      · exact ⟨_, rfl⟩
    · rw [if_neg ha]
      exact ⟨_, rfl⟩

theorem u_loop_eq_writes {σ : Type} (T : Link σ) (i2c_addr N_addr wb filesize : Nat)
    (hN : N_addr = 1 ∨ N_addr = 2) :
    ∀ (l : List Nat) (v : UVars σ),
      u_loop T i2c_addr N_addr wb filesize l v =
        u_loop_writes T i2c_addr N_addr wb filesize l v := by
  intro l
  induction l with
  | nil => intro v; rfl
  | cons c rest ih =>
    intro v
    rcases hN with rfl | rfl
    · simp only [u_loop, u_loop_writes, OfNat.ofNat_ne_one, if_false, if_true,
        write_to_eeprom_burst, write_to_eeprom, write_frame, ih]
      rfl
    · simp only [u_loop, u_loop_writes, if_true, Write_to_eeprom_burst, Write_to_eeprom,
        write_frame, ih]

/-- Claim C25. For every device address and every address width 0, 1 or 2
on entry: the width `d_task` and `u_task` (file opened) leave behind is 1
or 2, the entry value when that is 1 or 2, and for 0 it is 2 when bit 2 of
the device address is set and 1 otherwise. `d_task` returns for every read
burst of at least 1 (capacity and burst below `2 ^ 32`). With this width
the loops of both tasks run as the loops from which the branches for an
invalid width are left out: every pass sends the read, respectively the
write command of the width. The option `-a` stores 0, 1 or 2 for every
argument. -/
theorem width_after_transfer {σ : Type} (T : Link σ)
    (i2c_addr N_addr N_bytes read_burst write_burst : Nat) (bytes : List Nat)
    (writebuffer rxbuffer : Nat → Nat) (s : σ) (hN : N_addr = 0 ∨ N_addr = 1 ∨ N_addr = 2) :
    (width_or_default i2c_addr N_addr = 1 ∨ width_or_default i2c_addr N_addr = 2) ∧
    (N_addr ≠ 0 → width_or_default i2c_addr N_addr = N_addr) ∧
    (N_addr = 0 →
      width_or_default i2c_addr N_addr = if i2c_addr % 256 / 4 % 2 = 1 then 2 else 1) ∧
    (∀ fuel r, d_task T fuel i2c_addr N_addr N_bytes read_burst rxbuffer s = some r →
      r.N_addr = width_or_default i2c_addr N_addr) ∧
    (1 ≤ read_burst → N_bytes + read_burst + 4096 ≤ 2 ^ 32 →
      ∃ fuel r, d_task T fuel i2c_addr N_addr N_bytes read_burst rxbuffer s = some r) ∧
    (u_task T i2c_addr N_addr N_bytes write_burst (some bytes) writebuffer rxbuffer s).N_addr =
      width_or_default i2c_addr N_addr ∧
    (∀ (fuel addr B : Nat) (rx : Nat → Nat) (fp : List Nat) (s1 : σ),
      d_loop T i2c_addr (width_or_default i2c_addr N_addr) B read_burst fuel addr rx fp s1 =
        d_loop_reads T i2c_addr (width_or_default i2c_addr N_addr) B read_burst fuel addr rx
          fp s1) ∧
    (∀ (filesize : Nat) (l : List Nat) (v : UVars σ),
      u_loop T i2c_addr (width_or_default i2c_addr N_addr) write_burst filesize l v =
        u_loop_writes T i2c_addr (width_or_default i2c_addr N_addr) write_burst filesize l v) ∧
    (∀ n : Int, main_opt_a n = 0 ∨ main_opt_a n = 1 ∨ main_opt_a n = 2) := by
  have hw := width_or_default_valid i2c_addr N_addr hN
  refine ⟨hw, fun h => ?_, fun h => ?_, fun fuel r h => ?_, fun hrb hB => ?_, rfl,
    fun fuel addr B rx fp s1 => d_loop_eq_reads T i2c_addr _ B read_burst hw fuel addr rx fp s1,
    fun filesize l v => u_loop_eq_writes T i2c_addr _ write_burst filesize hw l v,
    fun n => ?_⟩
  · unfold width_or_default
    rw [if_neg h]
  · unfold width_or_default N_addr_default
    rw [if_pos h]
    have : i2c_addr % 256 / 4 % 2 = 0 ∨ i2c_addr % 256 / 4 % 2 = 1 := by omega
    rcases this with h0 | h1
    · rw [h0]; rfl
    · rw [h1]; rfl
  · unfold d_task at h
    cases hd : d_loop T i2c_addr (width_or_default i2c_addr N_addr)
        (bytes_or_default (width_or_default i2c_addr N_addr) N_bytes) read_burst fuel 0
        rxbuffer [] s with
    | none => rw [hd] at h; simp at h
    | some p =>
      rw [hd, Option.map_some'] at h
      rw [← Option.some.inj h]
  · have hle : bytes_or_default (width_or_default i2c_addr N_addr) N_bytes ≤ N_bytes + 4096 := by
      unfold bytes_or_default
      split_ifs <;> omega
    obtain ⟨p, hp⟩ := d_loop_returns T i2c_addr (width_or_default i2c_addr N_addr)
      (bytes_or_default (width_or_default i2c_addr N_addr) N_bytes) read_burst (by omega)
      (bytes_or_default (width_or_default i2c_addr N_addr) N_bytes) 0 rxbuffer [] s
      (by
        have : bytes_or_default (width_or_default i2c_addr N_addr) N_bytes * 1 ≤
            bytes_or_default (width_or_default i2c_addr N_addr) N_bytes * read_burst :=
          Nat.mul_le_mul_left _ hrb
        omega)
    refine ⟨bytes_or_default (width_or_default i2c_addr N_addr) N_bytes, ?_⟩
    unfold d_task
    rw [hp, Option.map_some']
    exact ⟨_, rfl⟩
  · unfold main_opt_a
    split_ifs
    · exact Or.inr (Or.inl rfl)
    · exact Or.inr (Or.inr rfl)
    · exact Or.inl rfl

/-- Witness for C25: width 0 on entry, device address 0x54 (bit 2 set),
download of the default capacity over the ideal 512-byte memory. -/
theorem width_after_transfer_witness :
    ((0 : Nat) = 0 ∨ (0 : Nat) = 1 ∨ (0 : Nat) = 2) ∧
    (width_or_default 0x54 0 = 1 ∨ width_or_default 0x54 0 = 2) ∧
    ((0 : Nat) = 0 → width_or_default 0x54 0 = if 0x54 % 256 / 4 % 2 = 1 then 2 else 1) ∧
    (u_task (ideal chip512) 0x54 0 0 8 (some sampleFile) (fun _ => 0) (fun _ => 0)
      (fun _ => 0)).N_addr = width_or_default 0x54 0 :=
  ⟨by decide,
    (width_after_transfer (ideal chip512) 0x54 0 0 8 8 sampleFile (fun _ => 0) (fun _ => 0)
      (fun _ => 0) (by decide)).1,
    (width_after_transfer (ideal chip512) 0x54 0 0 8 8 sampleFile (fun _ => 0) (fun _ => 0)
      (fun _ => 0) (by decide)).2.2.1,
    (width_after_transfer (ideal chip512) 0x54 0 0 8 8 sampleFile (fun _ => 0) (fun _ => 0)
      (fun _ => 0) (by decide)).2.2.2.2.2.1⟩

/-! ## The capacity probe command by command -/

theorem read_nacked_ok (rx : Nat → Nat) (r : List Nat) (h : ¬ read_acked r) :
    readOk (fill rx (r.take RX_BUFFER_SIZE)) (r.take RX_BUFFER_SIZE).length = 0 := by
  rw [readOk_fill]
  exact not_not.mp h

theorem write_nacked_ok (rx : Nat → Nat) (r : List Nat) (h : ¬ write_acked r) :
    writeOk (fill rx (r.take 1)) (r.take 1).length = 0 := by
  rw [writeOk_fill]
  exact not_not.mp h

theorem TestIfSizeIs_scripted1 (resp : Nat → List Nat) (n i2c_addr : Nat) :
    (TestIfSizeIs (scripted resp) n i2c_addr 1 []).2 =
      (probe_commands 1 i2c_addr n (data_byte (resp 0))).take (probe_issued resp) ∧
    ((TestIfSizeIs (scripted resp) n i2c_addr 1 []).1 = 1 ↔
      read_acked (resp 0) ∧ read_acked (resp 1) ∧ data_byte (resp 1) = data_byte (resp 0) ∧
      write_acked (resp 2) ∧ read_acked (resp 3) ∧ write_acked (resp 4) ∧
      data_byte (resp 3) = (data_byte (resp 0) + 1) % 256) ∧
    ((TestIfSizeIs (scripted resp) n i2c_addr 1 []).1 = 0 ∨
      (TestIfSizeIs (scripted resp) n i2c_addr 1 []).1 = 1) := by
  unfold probe_issued probe_commands data_byte
  by_cases h0 : read_acked (resp 0)
  swap
  · simp only [TestIfSizeIs, if_true, read_scripted, write_scripted, Read_scripted, Write_scripted,
    List.length_append, List.length_singleton, List.length_nil, List.nil_append, zero_add,
    Nat.reduceAdd, ne_eq, not_false_eq_true, not_true_eq_false, if_false, Nat.mod_mod,
    OfNat.one_ne_ofNat, OfNat.ofNat_ne_one,
      read_nacked_ok _ _ h0]
    simp [h0, read_frame]
  by_cases h1 : read_acked (resp 1)
  swap
  · simp only [TestIfSizeIs, if_true, read_scripted, write_scripted, Read_scripted, Write_scripted,
    List.length_append, List.length_singleton, List.length_nil, List.nil_append, zero_add,
    Nat.reduceAdd, ne_eq, not_false_eq_true, not_true_eq_false, if_false, Nat.mod_mod,
    OfNat.one_ne_ofNat, OfNat.ofNat_ne_one,
      read_acked_ok _ _ h0, read_nacked_ok _ _ h1]
    simp [h0, h1, read_frame]
  by_cases heq : (resp 1).getD 1 0 % 256 = (resp 0).getD 1 0 % 256
  swap
  · simp only [TestIfSizeIs, if_true, read_scripted, write_scripted, Read_scripted, Write_scripted,
    List.length_append, List.length_singleton, List.length_nil, List.nil_append, zero_add,
    Nat.reduceAdd, ne_eq, not_false_eq_true, not_true_eq_false, if_false, Nat.mod_mod,
    OfNat.one_ne_ofNat, OfNat.ofNat_ne_one,
      read_acked_ok _ _ h0, read_acked_ok _ _ h1, read_acked_val _ _ h0,
      read_acked_val _ _ h1, heq]
    simp [h0, h1, heq, read_frame]
  by_cases h2 : write_acked (resp 2)
  swap
  · simp only [TestIfSizeIs, if_true, read_scripted, write_scripted, Read_scripted, Write_scripted,
    List.length_append, List.length_singleton, List.length_nil, List.nil_append, zero_add,
    Nat.reduceAdd, ne_eq, not_false_eq_true, not_true_eq_false, if_false, Nat.mod_mod,
    OfNat.one_ne_ofNat, OfNat.ofNat_ne_one,
      read_acked_ok _ _ h0, read_acked_ok _ _ h1, read_acked_val _ _ h0,
      read_acked_val _ _ h1, heq, write_nacked_ok _ _ h2]
    simp [h0, h1, heq, h2, read_frame, write_frame]
  by_cases h3 : read_acked (resp 3)
  swap
  · simp only [TestIfSizeIs, if_true, read_scripted, write_scripted, Read_scripted, Write_scripted,
    List.length_append, List.length_singleton, List.length_nil, List.nil_append, zero_add,
    Nat.reduceAdd, ne_eq, not_false_eq_true, not_true_eq_false, if_false, Nat.mod_mod,
    OfNat.one_ne_ofNat, OfNat.ofNat_ne_one,
      read_acked_ok _ _ h0, read_acked_ok _ _ h1, read_acked_val _ _ h0,
      read_acked_val _ _ h1, heq, write_acked_ok _ _ h2, read_nacked_ok _ _ h3]
    simp [h0, h1, heq, h2, h3, read_frame, write_frame]
  by_cases h4 : write_acked (resp 4)
  swap
  · simp only [TestIfSizeIs, if_true, read_scripted, write_scripted, Read_scripted, Write_scripted,
    List.length_append, List.length_singleton, List.length_nil, List.nil_append, zero_add,
    Nat.reduceAdd, ne_eq, not_false_eq_true, not_true_eq_false, if_false, Nat.mod_mod,
    OfNat.one_ne_ofNat, OfNat.ofNat_ne_one,
      read_acked_ok _ _ h0, read_acked_ok _ _ h1, read_acked_ok _ _ h3,
      read_acked_val _ _ h0, read_acked_val _ _ h1, heq, write_acked_ok _ _ h2,
      write_nacked_ok _ _ h4]
    simp [h0, h1, heq, h2, h3, h4, read_frame, write_frame]
  simp only [TestIfSizeIs, if_true, read_scripted, write_scripted, Read_scripted, Write_scripted,
    List.length_append, List.length_singleton, List.length_nil, List.nil_append, zero_add,
    Nat.reduceAdd, ne_eq, not_false_eq_true, not_true_eq_false, if_false, Nat.mod_mod,
    OfNat.one_ne_ofNat, OfNat.ofNat_ne_one,
    read_acked_ok _ _ h0, read_acked_ok _ _ h1, read_acked_ok _ _ h3, read_acked_val _ _ h0,
    read_acked_val _ _ h1, read_acked_val _ _ h3, heq, write_acked_ok _ _ h2,
    write_acked_ok _ _ h4, h0, h1, h2, h3, h4, or_self, true_and]
  split_ifs with hv
  · simpa [read_frame, write_frame] using hv
  · simpa [read_frame, write_frame] using hv

theorem TestIfSizeIs_scripted2 (resp : Nat → List Nat) (n i2c_addr : Nat) :
    (TestIfSizeIs (scripted resp) n i2c_addr 2 []).2 =
      (probe_commands 2 i2c_addr n (data_byte (resp 0))).take (probe_issued resp) ∧
    ((TestIfSizeIs (scripted resp) n i2c_addr 2 []).1 = 1 ↔
      read_acked (resp 0) ∧ read_acked (resp 1) ∧ data_byte (resp 1) = data_byte (resp 0) ∧
      write_acked (resp 2) ∧ read_acked (resp 3) ∧ write_acked (resp 4) ∧
      data_byte (resp 3) = (data_byte (resp 0) + 1) % 256) ∧
    ((TestIfSizeIs (scripted resp) n i2c_addr 2 []).1 = 0 ∨
      (TestIfSizeIs (scripted resp) n i2c_addr 2 []).1 = 1) := by
  unfold probe_issued probe_commands data_byte
  by_cases h0 : read_acked (resp 0)
  swap
  · simp only [TestIfSizeIs, if_true, read_scripted, write_scripted, Read_scripted, Write_scripted,
    List.length_append, List.length_singleton, List.length_nil, List.nil_append, zero_add,
    Nat.reduceAdd, ne_eq, not_false_eq_true, not_true_eq_false, if_false, Nat.mod_mod,
    OfNat.one_ne_ofNat, OfNat.ofNat_ne_one,
      read_nacked_ok _ _ h0]
    simp [h0, read_frame]
  by_cases h1 : read_acked (resp 1)
  swap
  · simp only [TestIfSizeIs, if_true, read_scripted, write_scripted, Read_scripted, Write_scripted,
    List.length_append, List.length_singleton, List.length_nil, List.nil_append, zero_add,
    Nat.reduceAdd, ne_eq, not_false_eq_true, not_true_eq_false, if_false, Nat.mod_mod,
    OfNat.one_ne_ofNat, OfNat.ofNat_ne_one,
      read_acked_ok _ _ h0, read_nacked_ok _ _ h1]
    simp [h0, h1, read_frame]
  by_cases heq : (resp 1).getD 1 0 % 256 = (resp 0).getD 1 0 % 256
  swap
  · simp only [TestIfSizeIs, if_true, read_scripted, write_scripted, Read_scripted, Write_scripted,
    List.length_append, List.length_singleton, List.length_nil, List.nil_append, zero_add,
    Nat.reduceAdd, ne_eq, not_false_eq_true, not_true_eq_false, if_false, Nat.mod_mod,
    OfNat.one_ne_ofNat, OfNat.ofNat_ne_one,
      read_acked_ok _ _ h0, read_acked_ok _ _ h1, read_acked_val _ _ h0,
      read_acked_val _ _ h1, heq]
    simp [h0, h1, heq, read_frame]
  by_cases h2 : write_acked (resp 2)
  swap
  · simp only [TestIfSizeIs, if_true, read_scripted, write_scripted, Read_scripted, Write_scripted,
    List.length_append, List.length_singleton, List.length_nil, List.nil_append, zero_add,
    Nat.reduceAdd, ne_eq, not_false_eq_true, not_true_eq_false, if_false, Nat.mod_mod,
    OfNat.one_ne_ofNat, OfNat.ofNat_ne_one,
      read_acked_ok _ _ h0, read_acked_ok _ _ h1, read_acked_val _ _ h0,
      read_acked_val _ _ h1, heq, write_nacked_ok _ _ h2]
    simp [h0, h1, heq, h2, read_frame, write_frame]
  by_cases h3 : read_acked (resp 3)
  swap
  · simp only [TestIfSizeIs, if_true, read_scripted, write_scripted, Read_scripted, Write_scripted,
    List.length_append, List.length_singleton, List.length_nil, List.nil_append, zero_add,
    Nat.reduceAdd, ne_eq, not_false_eq_true, not_true_eq_false, if_false, Nat.mod_mod,
    OfNat.one_ne_ofNat, OfNat.ofNat_ne_one,
      read_acked_ok _ _ h0, read_acked_ok _ _ h1, read_acked_val _ _ h0,
      read_acked_val _ _ h1, heq, write_acked_ok _ _ h2, read_nacked_ok _ _ h3]
    simp [h0, h1, heq, h2, h3, read_frame, write_frame]
  by_cases h4 : write_acked (resp 4)
  swap
  · simp only [TestIfSizeIs, if_true, read_scripted, write_scripted, Read_scripted, Write_scripted,
    List.length_append, List.length_singleton, List.length_nil, List.nil_append, zero_add,
    Nat.reduceAdd, ne_eq, not_false_eq_true, not_true_eq_false, if_false, Nat.mod_mod,
    OfNat.one_ne_ofNat, OfNat.ofNat_ne_one,
      read_acked_ok _ _ h0, read_acked_ok _ _ h1, read_acked_ok _ _ h3,
      read_acked_val _ _ h0, read_acked_val _ _ h1, heq, write_acked_ok _ _ h2,
      write_nacked_ok _ _ h4]
    simp [h0, h1, heq, h2, h3, h4, read_frame, write_frame]
  simp only [TestIfSizeIs, if_true, read_scripted, write_scripted, Read_scripted, Write_scripted,
    List.length_append, List.length_singleton, List.length_nil, List.nil_append, zero_add,
    Nat.reduceAdd, ne_eq, not_false_eq_true, not_true_eq_false, if_false, Nat.mod_mod,
    OfNat.one_ne_ofNat, OfNat.ofNat_ne_one,
    read_acked_ok _ _ h0, read_acked_ok _ _ h1, read_acked_ok _ _ h3, read_acked_val _ _ h0,
    read_acked_val _ _ h1, read_acked_val _ _ h3, heq, write_acked_ok _ _ h2,
    write_acked_ok _ _ h4, h0, h1, h2, h3, h4, or_self, true_and]
  split_ifs with hv
  · simpa [read_frame, write_frame] using hv
  · simpa [read_frame, write_frame] using hv

/-- Claim C26. A capacity probe for candidate `n` with address width 1 or 2,
the `j`-th command being answered by `resp j`: the commands issued are the
first `probe_issued resp` of the five commands read of address 0, read of
address `n`, write of `v + 1` to address 0, read of address `n`, write of
`v` to address 0, where `v` is the first data byte of the first response;
the write is reached only when both reads are acknowledged with equal first
data bytes. The result is 1 exactly when all five commands are
acknowledged, the two reads agree and the read back is `(v + 1) mod 256`;
in every other case it is 0. For any other address width the result is 0
and no command is issued. -/
theorem TestIfSizeIs_order_and_verdict (resp : Nat → List Nat) (n i2c_addr addressing : Nat)
    (hA : addressing = 1 ∨ addressing = 2) :
    (TestIfSizeIs (scripted resp) n i2c_addr addressing []).2 =
      (probe_commands addressing i2c_addr n (data_byte (resp 0))).take (probe_issued resp) ∧
    ((TestIfSizeIs (scripted resp) n i2c_addr addressing []).1 = 1 ↔
      read_acked (resp 0) ∧ read_acked (resp 1) ∧ data_byte (resp 1) = data_byte (resp 0) ∧
      write_acked (resp 2) ∧ read_acked (resp 3) ∧ write_acked (resp 4) ∧
      data_byte (resp 3) = (data_byte (resp 0) + 1) % 256) ∧
    ((TestIfSizeIs (scripted resp) n i2c_addr addressing []).1 = 0 ∨
      (TestIfSizeIs (scripted resp) n i2c_addr addressing []).1 = 1) ∧
    (1 ≤ probe_issued resp ∧ probe_issued resp ≤ 5) ∧
    (3 ≤ probe_issued resp ↔
      read_acked (resp 0) ∧ read_acked (resp 1) ∧ data_byte (resp 1) = data_byte (resp 0)) ∧
    (∀ v, probe_commands 1 i2c_addr n v =
      [[0x72, i2c_addr % 256, 0], [0x72, i2c_addr % 256, n % 256],
       [0x77, i2c_addr % 256, 0, (v + 1) % 256], [0x72, i2c_addr % 256, n % 256],
       [0x77, i2c_addr % 256, 0, v % 256]]) ∧
    (∀ v, probe_commands 2 i2c_addr n v =
      [[0x52, i2c_addr % 256, 0, 0], [0x52, i2c_addr % 256, n / 256 % 256, n % 256],
       [0x57, i2c_addr % 256, 0, 0, (v + 1) % 256],
       [0x52, i2c_addr % 256, n / 256 % 256, n % 256],
       [0x57, i2c_addr % 256, 0, 0, v % 256]]) ∧
    (∀ a, a ≠ 1 → a ≠ 2 → ∀ log, TestIfSizeIs (scripted resp) n i2c_addr a log = (0, log)) := by
  have h12 : (TestIfSizeIs (scripted resp) n i2c_addr addressing []).2 =
        (probe_commands addressing i2c_addr n (data_byte (resp 0))).take (probe_issued resp) ∧
      ((TestIfSizeIs (scripted resp) n i2c_addr addressing []).1 = 1 ↔
        read_acked (resp 0) ∧ read_acked (resp 1) ∧ data_byte (resp 1) = data_byte (resp 0) ∧
        write_acked (resp 2) ∧ read_acked (resp 3) ∧ write_acked (resp 4) ∧
        data_byte (resp 3) = (data_byte (resp 0) + 1) % 256) ∧
      ((TestIfSizeIs (scripted resp) n i2c_addr addressing []).1 = 0 ∨
        (TestIfSizeIs (scripted resp) n i2c_addr addressing []).1 = 1) := by
    rcases hA with rfl | rfl
    · exact TestIfSizeIs_scripted1 resp n i2c_addr
    · exact TestIfSizeIs_scripted2 resp n i2c_addr
  refine ⟨h12.1, h12.2.1, h12.2.2, ?_, ?_, fun v => ?_, fun v => ?_, fun a h1 h2 log => ?_⟩
  · unfold probe_issued
    split_ifs <;> omega
  · unfold probe_issued
    by_cases h0 : read_acked (resp 0) <;> by_cases h1 : read_acked (resp 1) <;>
      by_cases heq : data_byte (resp 1) = data_byte (resp 0) <;>
      by_cases h2 : write_acked (resp 2) <;> by_cases h3 : read_acked (resp 3) <;>
      simp [h0, h1, heq, h2, h3]
  · simp [probe_commands, read_frame, write_frame, frame_r, frame_w]
  · simp [probe_commands, read_frame, write_frame, frame_R, frame_W]
    omega
  · unfold TestIfSizeIs
    rw [if_neg h1, if_neg h2]

/-- Witness for C26: 1-byte addressing, candidate 128, every command
acknowledged, every read answered with the data byte 0xAB. -/
theorem TestIfSizeIs_order_and_verdict_witness :
    ((1 : Nat) = 1 ∨ (1 : Nat) = 2) ∧
    (TestIfSizeIs (scripted (fun j => if j = 2 ∨ j = 4 then [0x06] else ack24)) 128 0x50 1 []).2 =
      (probe_commands 1 0x50 128
        (data_byte ((fun j => if j = 2 ∨ j = 4 then [0x06] else ack24) 0))).take
        (probe_issued (fun j => if j = 2 ∨ j = 4 then [0x06] else ack24)) ∧
    probe_issued (fun j => if j = 2 ∨ j = 4 then [0x06] else ack24) = 5 :=
  ⟨by decide,
    (TestIfSizeIs_order_and_verdict (fun j => if j = 2 ∨ j = 4 then [0x06] else ack24)
      128 0x50 1 (by decide)).1, by decide⟩

/-! ## Probes that wrap to address 0 -/

theorem probe_wraps1 {σ : Type} (T : Link σ) (i2c_addr : Nat) (cell : σ → Nat)
    (h : remembers0 T i2c_addr 1 cell) (n : Nat) (hn : n % 256 = 0) (s : σ) :
    (TestIfSizeIs T n i2c_addr 1 s).1 = 1 := by
  obtain ⟨hread, hzero, hwrite⟩ := h
  have e1 : ∀ (a : Nat) (rx : Nat → Nat) (s : σ), read_from_eeprom T i2c_addr a rx s =
      exchange T s (read_frame 1 i2c_addr a) RX_BUFFER_SIZE rx := fun _ _ _ => rfl
  have e2 : ∀ (x : Nat) (rx : Nat → Nat) (s : σ), write_to_eeprom T i2c_addr 0 x rx s =
      exchange T s (write_frame 1 i2c_addr 0 [x]) 1 rx := fun _ _ _ => rfl
  have hfn : read_frame 1 i2c_addr n = read_frame 1 i2c_addr 0 := by
    simp [read_frame, frame_r, hn]
  unfold TestIfSizeIs
  simp only [if_true, e1, e2, hfn]
  have fa1 := (hread s 0 (fun _ => 0)).1
  have fa3 := hzero s (fun _ => 0)
  have fa2 := (hread s 0 (fun _ => 0)).2
  generalize exchange T s (read_frame 1 i2c_addr 0) RX_BUFFER_SIZE (fun _ => 0) = a
    at fa1 fa2 fa3 ⊢
  have fb1 := (hread a.2.2 0 a.1).1
  have fb3 := hzero a.2.2 a.1
  generalize exchange T a.2.2 (read_frame 1 i2c_addr 0) RX_BUFFER_SIZE a.1 = b at fb1 fb3 ⊢
  rw [if_pos fa1, if_pos fb1, if_pos (by rw [fb3, fa2, fa3])]
  have fc1 := (hwrite b.2.2 (a.1 1 + 1) b.1).1
  have fc2 := (hwrite b.2.2 (a.1 1 + 1) b.1).2
  generalize exchange T b.2.2 (write_frame 1 i2c_addr 0 [a.1 1 + 1]) 1 b.1 = c at fc1 fc2 ⊢
  have fd1 := (hread c.2.2 0 c.1).1
  have fd3 := hzero c.2.2 c.1
  generalize exchange T c.2.2 (read_frame 1 i2c_addr 0) RX_BUFFER_SIZE c.1 = d at fd1 fd3 ⊢
  have fe1 := (hwrite d.2.2 (a.1 1) d.1).1
  generalize exchange T d.2.2 (write_frame 1 i2c_addr 0 [a.1 1]) 1 d.1 = e at fe1 ⊢
  rw [if_pos fc1, if_pos fd1, if_pos fe1, if_pos (by rw [fd3, fc2, Nat.mod_mod])]

theorem probe_wraps2 {σ : Type} (T : Link σ) (i2c_addr : Nat) (cell : σ → Nat)
    (h : remembers0 T i2c_addr 2 cell) (n : Nat) (hn : n % 65536 = 0) (s : σ) :
    (TestIfSizeIs T n i2c_addr 2 s).1 = 1 := by
  obtain ⟨hread, hzero, hwrite⟩ := h
  have e1 : ∀ (a : Nat) (rx : Nat → Nat) (s : σ), Read_from_eeprom T i2c_addr a rx s =
      exchange T s (read_frame 2 i2c_addr a) RX_BUFFER_SIZE rx := fun _ _ _ => rfl
  have e2 : ∀ (x : Nat) (rx : Nat → Nat) (s : σ), Write_to_eeprom T i2c_addr 0 x rx s =
      exchange T s (write_frame 2 i2c_addr 0 [x]) 1 rx := fun _ _ _ => rfl
  unfold TestIfSizeIs
  simp only [if_true, OfNat.ofNat_ne_one, if_false, hn, e1, e2]
  have fa1 := (hread s 0 (fun _ => 0)).1
  have fa3 := hzero s (fun _ => 0)
  have fa2 := (hread s 0 (fun _ => 0)).2
  generalize exchange T s (read_frame 2 i2c_addr 0) RX_BUFFER_SIZE (fun _ => 0) = a
    at fa1 fa2 fa3 ⊢
  have fb1 := (hread a.2.2 0 a.1).1
  have fb3 := hzero a.2.2 a.1
  generalize exchange T a.2.2 (read_frame 2 i2c_addr 0) RX_BUFFER_SIZE a.1 = b at fb1 fb3 ⊢
  rw [if_pos fa1, if_pos fb1, if_pos (by rw [fb3, fa2, fa3])]
  have fc1 := (hwrite b.2.2 (a.1 1 + 1) b.1).1
  have fc2 := (hwrite b.2.2 (a.1 1 + 1) b.1).2
  generalize exchange T b.2.2 (write_frame 2 i2c_addr 0 [a.1 1 + 1]) 1 b.1 = c at fc1 fc2 ⊢
  have fd1 := (hread c.2.2 0 c.1).1
  have fd3 := hzero c.2.2 c.1
  generalize exchange T c.2.2 (read_frame 2 i2c_addr 0) RX_BUFFER_SIZE c.1 = d at fd1 fd3 ⊢
  have fe1 := (hwrite d.2.2 (a.1 1) d.1).1
  generalize exchange T d.2.2 (write_frame 2 i2c_addr 0 [a.1 1]) 1 d.1 = e at fe1 ⊢
  rw [if_pos fc1, if_pos fd1, if_pos fe1, if_pos (by rw [fd3, fc2, Nat.mod_mod])]

theorem ideal_remembers0 (c : Chip) (hw : c.width = 1) (hb : 1 ≤ c.burst) (i2c_addr : Nat) :
    remembers0 (ideal c) i2c_addr 1 (fun mem => mem 0 % 256) := by
  refine ⟨fun mem a rx => ⟨read_ideal_ok c hb i2c_addr a rx mem, ?_⟩, fun mem rx => ?_,
    fun mem x rx => ⟨write_ideal_ok c i2c_addr 0 x rx mem, ?_⟩⟩
  · show (read_from_eeprom (ideal c) i2c_addr a rx mem).2.2 0 % 256 = mem 0 % 256
    rw [read_ideal_st]
  · show (read_from_eeprom (ideal c) i2c_addr 0 rx mem).1 1 = mem 0 % 256
    rw [read_ideal_val c hw hb]
    simp
  · show (write_to_eeprom (ideal c) i2c_addr 0 x rx mem).2.2 0 % 256 = x % 256
    rw [write_ideal_st c hw]
    simp

theorem m_state6_wraps1 {σ : Type} (T : Link σ) (i2c_addr fuel : Nat) (cell : σ → Nat)
    (h : remembers0 T i2c_addr 1 cell) (hf : 10 ≤ fuel) (v : MVars σ) (hs : v.state = 6)
    (hN : v.N_addr = 1) :
    ∃ r, m_state6 T fuel i2c_addr v = some r ∧ r.state = 7 ∧
      (r.N_bytes = 128 ∨ r.N_bytes = 256) := by
  have hp1 : probe_result T i2c_addr 1 v.st 1 = 1 :=
    probe_wraps1 T i2c_addr cell h (128 * 2 ^ 1) (by norm_num) _
  obtain ⟨r, hr, hcase⟩ := m_scan_first_hit T i2c_addr 1 v.st fuel 0
    { v with L := 128, MODEL := 1 } (by simp) (by omega) (by omega) hs hN rfl
    (fun i hi => absurd hi (Nat.not_lt_zero i))
  unfold m_state6
  rw [if_pos hs, hr]
  refine ⟨r, rfl, ?_⟩
  rcases hcase with ⟨k, _, h7, hB, _, hall⟩ | ⟨_, _, hall⟩
  · refine ⟨h7, ?_⟩
    have hk : k = 0 ∨ k = 1 := by
      by_contra hne
      have := hall 1 (by omega)
      rw [hp1] at this
      exact absurd this (by decide)
    rcases hk with rfl | rfl
    · left; rw [hB]; norm_num
    · right; rw [hB]; norm_num
  · have := hall 1 (by decide)
    rw [hp1] at this
    exact absurd this (by decide)

theorem m_state6_wraps2 {σ : Type} (T : Link σ) (i2c_addr fuel : Nat) (cell : σ → Nat)
    (h : remembers0 T i2c_addr 2 cell) (hf : 10 ≤ fuel) (v : MVars σ) (hs : v.state = 6)
    (hN : v.N_addr = 2) :
    ∃ r, m_state6 T fuel i2c_addr v = some r ∧ r.state = 7 ∧ r.N_bytes ≤ 65536 := by
  have hp9 : probe_result T i2c_addr 2 v.st 9 = 1 :=
    probe_wraps2 T i2c_addr cell h (128 * 2 ^ 9) (by norm_num) _
  obtain ⟨r, hr, hcase⟩ := m_scan_first_hit T i2c_addr 2 v.st fuel 0
    { v with L := 128, MODEL := 1 } (by simp) (by omega) (by omega) hs hN rfl
    (fun i hi => absurd hi (Nat.not_lt_zero i))
  unfold m_state6
  rw [if_pos hs, hr]
  refine ⟨r, rfl, ?_⟩
  rcases hcase with ⟨k, hk, h7, hB, _, _⟩ | ⟨_, _, hall⟩
  · refine ⟨h7, ?_⟩
    rw [hB]
    have : 2 ^ k ≤ 2 ^ 9 := Nat.pow_le_pow_right (by decide) (by omega)
    norm_num at this
    omega
  · have := hall 9 (by decide)
    rw [hp9] at this
    exact absurd this (by decide)

/-- Claim C30. With 1-byte addressing the read frame carries the probe
address modulo 256, so a probe of a multiple of 256 is the probe of address
0, and with 2-byte addressing a probe of a multiple of 65536 is the probe
of address 0. On a device that acknowledges the reads and the writes to
address 0 and returns from address 0 the byte last written there, the probe
of 256 (of 65536) returns 1; so the capacity search entered with width 1
ends in state 7 with 128 or 256, `m_task` returning 1 with width 1 reports
at most 256, and the search entered with width 2 ends in state 7 with at
most 65536. -/
theorem wrapped_probe_bounds_search {σ : Type} (T : Link σ) (i2c_addr fuel : Nat)
    (cell : σ → Nat) (v : MVars σ) (hf : 10 ≤ fuel) :
    (∀ n, n % 256 = 0 → frame_r i2c_addr n = frame_r i2c_addr 0) ∧
    (∀ n s, n % 256 = 0 → TestIfSizeIs T n i2c_addr 1 s = TestIfSizeIs T 0 i2c_addr 1 s) ∧
    (∀ n s, n % 65536 = 0 → TestIfSizeIs T n i2c_addr 2 s = TestIfSizeIs T 0 i2c_addr 2 s) ∧
    (remembers0 T i2c_addr 1 cell →
      (∀ s, (TestIfSizeIs T 256 i2c_addr 1 s).1 = 1) ∧
      (v.state = 6 → v.N_addr = 1 →
        ∃ r, m_state6 T fuel i2c_addr v = some r ∧ r.state = 7 ∧
          (r.N_bytes = 128 ∨ r.N_bytes = 256)) ∧
      (∃ r, m_task T fuel i2c_addr v = some r ∧
        (r.ret = 1 → r.N_addr = 1 → r.N_bytes = 128 ∨ r.N_bytes = 256))) ∧
    (remembers0 T i2c_addr 2 cell →
      (∀ s, (TestIfSizeIs T 65536 i2c_addr 2 s).1 = 1) ∧
      (v.state = 6 → v.N_addr = 2 →
        ∃ r, m_state6 T fuel i2c_addr v = some r ∧ r.state = 7 ∧ r.N_bytes ≤ 65536)) := by
  have hfr : ∀ n, n % 256 = 0 → frame_r i2c_addr n = frame_r i2c_addr 0 := by
    intro n hn
    simp [frame_r, hn]
  refine ⟨hfr, fun n s hn => ?_, fun n s hn => ?_, fun h => ⟨fun s => ?_, fun hs hN => ?_, ?_⟩,
    fun h => ⟨fun s => ?_, fun hs hN => ?_⟩⟩
  · have hr : ∀ (rx : Nat → Nat) (s : σ), read_from_eeprom T i2c_addr n rx s =
        read_from_eeprom T i2c_addr 0 rx s := by
      intro rx s
      unfold read_from_eeprom
      rw [hfr n hn]
    unfold TestIfSizeIs
    simp only [if_true, hr]
  · unfold TestIfSizeIs
    simp only [if_true, OfNat.ofNat_ne_one, if_false, hn, Nat.zero_mod]
  · exact probe_wraps1 T i2c_addr cell h 256 (by decide) s
  · exact m_state6_wraps1 T i2c_addr fuel cell h hf v hs hN
  · obtain ⟨r, r6, hr, hr6, hone⟩ := m_task_success T fuel i2c_addr v hf
    refine ⟨r, hr, fun h1 hN => ?_⟩
    obtain ⟨hs, _, hB, hA, _, _⟩ := hone h1
    obtain ⟨r', hr', _, hB'⟩ := m_state6_wraps1 T i2c_addr fuel cell h hf
      (m_states_1_5 T i2c_addr v) hs (by rw [← hA]; exact hN)
    rw [hr6] at hr'
    rw [hB, Option.some.inj hr']
    exact hB'
  · exact probe_wraps2 T i2c_addr cell h 65536 (by decide) s
  · exact m_state6_wraps2 T i2c_addr fuel cell h hf v hs hN

/-- Witness for C30: the ideal 1-byte-addressed memory of 1024 bytes. The
probe of 256 returns 1 and `m_task` reports at most 256. -/
theorem wrapped_probe_bounds_search_witness :
    10 ≤ 10 ∧ remembers0 (ideal chip1024) 0x50 1 (fun mem => mem 0 % 256) ∧
    (∀ s, (TestIfSizeIs (ideal chip1024) 256 0x50 1 s).1 = 1) ∧
    (∃ r, m_task (ideal chip1024) 10 0x50 (MVars.entry (fun _ => 0) 0 0 0) = some r ∧
      (r.ret = 1 → r.N_addr = 1 → r.N_bytes = 128 ∨ r.N_bytes = 256)) :=
  ⟨by decide, ideal_remembers0 chip1024 (by decide) (by decide) 0x50,
    ((wrapped_probe_bounds_search (ideal chip1024) 0x50 10 (fun mem => mem 0 % 256)
      (MVars.entry (fun _ => 0) 0 0 0) (by decide)).2.2.2.1
        (ideal_remembers0 chip1024 (by decide) (by decide) 0x50)).1,
    ((wrapped_probe_bounds_search (ideal chip1024) 0x50 10 (fun mem => mem 0 % 256)
      (MVars.entry (fun _ => 0) 0 0 0) (by decide)).2.2.2.1
        (ideal_remembers0 chip1024 (by decide) (by decide) 0x50)).2.2⟩

/-! ## The bounded wait of `i2c_read` -/

theorem flagBoard_poll (fs fa : Nat → Bool) (fb : Nat → Nat → Bool) (data : Nat → Nat)
    (b : Twi) :
    (((flagBoard fs fa fb data).readTWCR b).1 &&& 128 ≠ 0 ↔ flag_at fs fa fb b.w b.k = true) ∧
    ((flagBoard fs fa fb data).readTWCR b).2 = { b with k := b.k + 1 } := by
  refine ⟨?_, rfl⟩
  show ((if flag_at fs fa fb b.w b.k then 0x80 else 0x00 : Nat) &&& 128 ≠ 0) ↔ _
  cases flag_at fs fa fb b.w b.k <;> decide

theorem i2c_read_wait_flagBoard (fs fa : Nat → Bool) (fb : Nat → Nat → Bool)
    (data : Nat → Nat) :
    ∀ (n : Nat) (b : Twi),
      (i2c_read_wait (flagBoard fs fa fb data) n b).2.w = b.w ∧
      (i2c_read_wait (flagBoard fs fa fb data) n b).2.requests = b.requests ∧
      (i2c_read_wait (flagBoard fs fa fb data) n b).2.counts = b.counts ∧
      (i2c_read_wait (flagBoard fs fa fb data) n b).2.k ≤ b.k + n ∧
      ((i2c_read_wait (flagBoard fs fa fb data) n b).1 = false ↔
        ∀ j, j < n → flag_at fs fa fb b.w (b.k + j) = false) := by
  intro n
  induction n with
  | zero =>
    intro b
    simp [i2c_read_wait]
  | succ n ih =>
    intro b
    obtain ⟨hp, hq⟩ := flagBoard_poll fs fa fb data b
    simp only [i2c_read_wait]
    by_cases hf : flag_at fs fa fb b.w b.k = true
    · rw [if_pos (hp.mpr hf), hq]
      refine ⟨rfl, rfl, rfl, by simp, ?_⟩
      simp only [Bool.true_eq_false, false_iff, not_forall]
      exact ⟨0, by omega, by simpa using hf⟩
    · rw [if_neg (fun h => hf (hp.mp h)), hq]
      obtain ⟨h1, h2, h3, h4, h5⟩ := ih { b with k := b.k + 1 }
      refine ⟨h1, h2, h3, by simp only at h4; omega, ?_⟩
      rw [h5]
      simp only
      constructor
      · intro h j hj
        rcases j with _ | j
        · simpa using hf
        · have := h j (by omega)
          rw [show b.k + (j + 1) = b.k + 1 + j by omega]
          exact this
      · intro h j hj
        have := h (j + 1) (by omega)
        rw [show b.k + 1 + j = b.k + (j + 1) by omega]
        exact this

theorem byte_flag (fs fa : Nat → Bool) (fb : Nat → Nat → Bool) (i k : Nat) :
    flag_at fs fa fb (2 + i + 1) k = fb i k := by
  unfold flag_at
  rw [if_neg (by omega), if_neg (by omega)]
  congr 1
  omega

/-- One pass of the byte loop of `i2c_read` on the board whose flag follows a
given course, entered for byte `i`. -/
theorem i2c_read_bytes_flagBoard_step (fs fa : Nat → Bool) (fb : Nat → Nat → Bool)
    (data : Nat → Nat) (length todo i : Nat) (buffer : Nat → Nat) (b : Twi)
    (hw : b.w = 2 + i) :
    ∃ b1 : Twi, b1.w = 2 + (i + 1) ∧ b1.k ≤ 50001 ∧
      b1.requests = b.requests ++ [byte_request length i] ∧ b1.counts = b.counts ++ [b.k] ∧
      (((∀ k, k < 50001 → fb i k = false) ∧ b1.k = 50001 ∧
        i2c_read_bytes (flagBoard fs fa fb data) length (todo + 1) i buffer b =
          (0, buffer, b1)) ∨
       ((∃ k, k < 50001 ∧ fb i k = true) ∧
        i2c_read_bytes (flagBoard fs fa fb data) length (todo + 1) i buffer b =
          i2c_read_bytes (flagBoard fs fa fb data) length todo (i + 1)
            (fun j => if j = i then data i % 256 else buffer j) b1)) := by
  obtain ⟨w, k0, rq, ct⟩ := b
  simp only at hw
  subst hw
  have hset : (flagBoard fs fa fb data).setTWCR ⟨2 + i, k0, rq, ct⟩
      (if i + 1 = length then 0x84 else 0xC4) =
      ⟨2 + i + 1, 0, rq ++ [byte_request length i], ct ++ [k0]⟩ := rfl
  obtain ⟨h1, h2, h3, h4, h5⟩ := i2c_read_wait_flagBoard fs fa fb data 50001
    ⟨2 + i + 1, 0, rq ++ [byte_request length i], ct ++ [k0]⟩
  simp only [byte_flag, Nat.zero_add] at h1 h2 h3 h4 h5
  rw [i2c_read_bytes, hset]
  have hk : ∀ n (c : Twi), (i2c_read_wait (flagBoard fs fa fb data) n c).1 = false →
      (i2c_read_wait (flagBoard fs fa fb data) n c).2.k = c.k + n := by
    intro n
    induction n with
    | zero => intro c _; rfl
    | succ n ih =>
      intro c hc
      obtain ⟨hp, hq⟩ := flagBoard_poll fs fa fb data c
      simp only [i2c_read_wait] at hc ⊢
      by_cases hf : flag_at fs fa fb c.w c.k = true
      · rw [if_pos (hp.mpr hf)] at hc
        exact absurd hc Bool.noConfusion
      · rw [if_neg (fun h => hf (hp.mp h)), hq] at hc ⊢
        rw [ih _ hc]
        simp only
        omega
  generalize hR : i2c_read_wait (flagBoard fs fa fb data) 50001
    ⟨2 + i + 1, 0, rq ++ [byte_request length i], ct ++ [k0]⟩ = R at h1 h2 h3 h4 h5 ⊢
  have hdata : (flagBoard fs fa fb data).TWDR R.2 = data i := by
    show data (R.2.w - 3) = data i
    rw [h1]
    congr 1
    omega
  refine ⟨R.2, by rw [h1]; omega, h4, h2, h3, ?_⟩
  by_cases hr : R.1 = true
  · right
    rw [if_pos hr, hdata]
    refine ⟨?_, rfl⟩
    by_contra hne
    have hall : ∀ j, j < 50001 → fb i j = false := by
      intro j hj
      by_contra hj2
      exact hne ⟨j, hj, by simpa using hj2⟩
    rw [h5.mpr hall] at hr
    exact absurd hr (by decide)
  · left
    have hfalse : R.1 = false := by simpa using hr
    rw [if_neg hr]
    refine ⟨h5.mp hfalse, ?_, rfl⟩
    have := hk 50001 ⟨2 + i + 1, 0, rq ++ [byte_request length i], ct ++ [k0]⟩
      (by rw [hR]; exact hfalse)
    rw [hR] at this
    simpa using this

/-- The byte loop of `i2c_read` on the board whose flag follows a given
course, entered for byte `i` with `todo` bytes to come. -/
theorem i2c_read_bytes_flagBoard (fs fa : Nat → Bool) (fb : Nat → Nat → Bool)
    (data : Nat → Nat) (length : Nat) :
    ∀ (todo i : Nat) (buffer : Nat → Nat) (b : Twi), b.w = 2 + i →
      ∃ r, i2c_read_bytes (flagBoard fs fa fb data) length todo i buffer b = r ∧
        (r.1 = 0 ∨ r.1 = 1) ∧
        (r.1 = 0 ↔ ∃ j, i ≤ j ∧ j < i + todo ∧ ∀ k, k < 50001 → fb j k = false) ∧
        (r.1 = 1 → ∀ j, i ≤ j → j < i + todo → r.2.1 j = data j % 256) ∧
        (∀ j, j < i → r.2.1 j = buffer j) ∧
        r.2.2.k ≤ 50001 ∧
        (∃ qs, r.2.2.counts = b.counts ++ b.k :: qs ∧ ∀ q ∈ qs, q ≤ 50001) ∧
        (∃ m, m ≤ todo ∧
          r.2.2.requests = b.requests ++ (List.range' i m).map (byte_request length) ++
            (if r.1 = 1 then [0x94] else []) ∧
          (r.1 = 1 → m = todo)) := by
  intro todo
  induction todo with
  | zero =>
    intro i buffer b _
    refine ⟨_, rfl, Or.inr rfl, ?_, fun _ j h1 h2 => by omega, fun _ _ => rfl, Nat.zero_le _,
      ⟨[], rfl, fun q hq => by simp at hq⟩, ⟨0, le_refl _, by simp [i2c_read_bytes,
        i2c_stopCondition, flagBoard], fun _ => rfl⟩⟩
    constructor
    · intro h
      exact absurd h (by simp [i2c_read_bytes])
    · rintro ⟨j, h1, h2, _⟩
      omega
  | succ n ih =>
    intro i buffer b hw
    obtain ⟨b1, hw1, hk1, hrq, hct, hcase⟩ :=
      i2c_read_bytes_flagBoard_step fs fa fb data length n i buffer b hw
    rcases hcase with ⟨hstuck, hk, heq⟩ | ⟨⟨k, hk, hflag⟩, heq⟩
    · refine ⟨_, heq, Or.inl rfl, ⟨fun _ => ⟨i, le_refl _, by omega, hstuck⟩, fun _ => rfl⟩,
        fun h => absurd h Nat.zero_ne_one, fun _ _ => rfl, hk1,
        ⟨[], by simp [hct], fun q hq => by simp at hq⟩,
        ⟨1, by omega, by simp [hrq], fun h => absurd h Nat.zero_ne_one⟩⟩
    · obtain ⟨r, hr, h01, hiff, hdat, hpre, hkr, ⟨qs, hqs, hqle⟩, ⟨m, hm, hreq, hmt⟩⟩ :=
        ih (i + 1) (fun j => if j = i then data i % 256 else buffer j) b1 hw1
      refine ⟨r, by rw [heq, hr], h01, ?_, ?_, ?_, hkr, ?_, ?_⟩
      · rw [hiff]
        constructor
        · rintro ⟨j, h1, h2, h3⟩
          exact ⟨j, by omega, by omega, h3⟩
        · rintro ⟨j, h1, h2, h3⟩
          have hji : j ≠ i := by
            rintro rfl
            rw [h3 k hk] at hflag
            exact absurd hflag (by decide)
          exact ⟨j, by omega, by omega, h3⟩
      · intro h1 j hj1 hj2
        by_cases hji : j = i
        · rw [hpre j (by omega), if_pos hji, hji]
        · exact hdat h1 j (by omega) (by omega)
      · intro j hj
        rw [hpre j (by omega), if_neg (by omega)]
      · refine ⟨b1.k :: qs, ?_, ?_⟩
        · rw [hqs, hct]
          simp
        · intro q hq
          rcases List.mem_cons.mp hq with rfl | hq
          · exact hk1
          · exact hqle q hq
      · refine ⟨m + 1, by omega, ?_, fun h => by rw [hmt h]⟩
        rw [hreq, hrq, List.range'_succ]
        simp

theorem wait_TWINT_ends (fs fa : Nat → Bool) (fb : Nat → Nat → Bool) (data : Nat → Nat) :
    ∀ (k : Nat) (b : Twi), flag_at fs fa fb b.w (b.k + k) = true →
      ∃ b1 : Twi, b1.w = b.w ∧ b1.requests = b.requests ∧ b1.counts = b.counts ∧
        ∀ fuel, k < fuel → wait_TWINT (flagBoard fs fa fb data) fuel b = some b1 := by
  intro k
  induction k with
  | zero =>
    intro b hf
    obtain ⟨hp, hq⟩ := flagBoard_poll fs fa fb data b
    refine ⟨{ b with k := b.k + 1 }, rfl, rfl, rfl, fun fuel hfuel => ?_⟩
    obtain ⟨f, rfl⟩ : ∃ f, fuel = f + 1 := ⟨fuel - 1, by omega⟩
    rw [wait_TWINT, if_pos (hp.mpr (by simpa using hf)), hq]
  | succ n ih =>
    intro b hf
    obtain ⟨hp, hq⟩ := flagBoard_poll fs fa fb data b
    by_cases h0 : flag_at fs fa fb b.w b.k = true
    · refine ⟨{ b with k := b.k + 1 }, rfl, rfl, rfl, fun fuel hfuel => ?_⟩
      obtain ⟨f, rfl⟩ : ∃ f, fuel = f + 1 := ⟨fuel - 1, by omega⟩
      rw [wait_TWINT, if_pos (hp.mpr h0), hq]
    · obtain ⟨b1, h1, h2, h3, h4⟩ := ih { b with k := b.k + 1 }
        (by rw [show b.k + 1 + n = b.k + (n + 1) by omega]; exact hf)
      refine ⟨b1, h1, h2, h3, fun fuel hfuel => ?_⟩
      obtain ⟨f, rfl⟩ : ∃ f, fuel = f + 1 := ⟨fuel - 1, by omega⟩
      rw [wait_TWINT, if_neg (fun h => h0 (hp.mp h)), hq]
      exact h4 f (by omega)

theorem wait_TWINT_never (fs fa : Nat → Bool) (fb : Nat → Nat → Bool) (data : Nat → Nat) :
    ∀ (fuel : Nat) (b : Twi), (∀ k, flag_at fs fa fb b.w k = false) →
      wait_TWINT (flagBoard fs fa fb data) fuel b = none := by
  intro fuel
  induction fuel with
  | zero => intro b _; rfl
  | succ n ih =>
    intro b h
    obtain ⟨hp, hq⟩ := flagBoard_poll fs fa fb data b
    have hno : ¬ ((flagBoard fs fa fb data).readTWCR b).1 &&& 128 ≠ 0 := by
      intro hc
      have := hp.mp hc
      rw [h b.k] at this
      exact absurd this Bool.noConfusion
    rw [wait_TWINT, if_neg hno, hq]
    exact ih _ h

/-- When the two waits end in the state the board gives for them, the run
read by read is `i2c_read`. -/
theorem i2c_read_polled_eq {β : Type} (H : Board β) (fuel address : Nat) (buffer : Nat → Nat)
    (length : Nat) (b : β)
    (h1 : wait_TWINT H fuel (H.setTWCR b 0xA4) = some (H.waitTWINT (H.setTWCR b 0xA4)))
    (h2 : wait_TWINT H fuel (H.setTWCR (H.setTWDR (H.waitTWINT (H.setTWCR b 0xA4))
        ((2 * address + 1) % 256)) 0x84) =
      some (H.waitTWINT (H.setTWCR (H.setTWDR (H.waitTWINT (H.setTWCR b 0xA4))
        ((2 * address + 1) % 256)) 0x84))) :
    i2c_read_polled H fuel address buffer length b = some (i2c_read H address buffer length b) := by
  unfold i2c_read_polled
  rw [h1]
  simp only
  rw [h2]
  rfl

/-- Counterexample to C28: the completion flag stays clear after the start
condition. However many reads of `TWCR` are allowed, `i2c_read` for 8 bytes
does not return: it never leaves the wait of `i2c_startCondition`. -/
theorem i2c_read_hangs_in_start_condition :
    ¬ ∃ fuel, (i2c_read_polled (flagBoard (fun _ => false) (fun _ => true) (fun _ _ => true)
      (fun _ => 0)) fuel 0x50 (fun _ => 0) 8 Twi.idle).isSome = true := by
  rintro ⟨fuel, h⟩
  have hn : wait_TWINT (flagBoard (fun _ => false) (fun _ => true) (fun _ _ => true)
      (fun _ => 0)) fuel ((flagBoard (fun _ => false) (fun _ => true) (fun _ _ => true)
      (fun _ => 0)).setTWCR Twi.idle 0xA4) = none :=
    wait_TWINT_never _ _ _ _ fuel _ (fun k => rfl)
  unfold i2c_read_polled at h
  rw [hn] at h
  exact absurd h Bool.noConfusion

/-- Claim C28, amended. Let the completion flag follow any course in which
it is seen set after the start condition and after the address byte (the
two waits that have no bound). Then `i2c_read` returns, for every length,
and the result does not depend on the fuel once the two waits fit in it.
It reads `TWCR` at most 50001 times per requested byte. It returns 0
exactly when for some byte the flag is clear at all of the 50001 reads
after the request, and 1 otherwise, with byte `i` of the bus at index `i`
of the buffer for all `i < length`; a read of length 0 returns 1, a timeout
0. Acknowledge is requested (`TWEA`, value 0xC4) for every byte but the
last (value 0x84), and the stop condition (0x94) is sent after a complete
read only. When the unbounded waits end as the board says, this run is
`i2c_read` of the dispatcher model. -/
theorem i2c_read_bounded_per_byte (fs fa : Nat → Bool) (fb : Nat → Nat → Bool)
    (data : Nat → Nat) (address : Nat) (buffer : Nat → Nat) (length : Nat)
    (hs : ∃ k, fs k = true) (ha : ∃ k, fa k = true) :
    (∃ fuel0 r,
      (∀ fuel, fuel0 ≤ fuel →
        i2c_read_polled (flagBoard fs fa fb data) fuel address buffer length Twi.idle = some r) ∧
      (r.1 = 0 ∨ r.1 = 1) ∧
      (r.1 = 0 ↔ ∃ i, i < length ∧ ∀ k, k < 50001 → fb i k = false) ∧
      (r.1 = 1 → ∀ i, i < length → r.2.1 i = data i % 256) ∧
      (length = 0 → r.1 = 1) ∧
      r.2.2.k ≤ 50001 ∧ (∀ q ∈ r.2.2.counts.drop 3, q ≤ 50001) ∧
      (∃ m, m ≤ length ∧
        r.2.2.requests = [0xA4, 0x84] ++ (List.range m).map (byte_request length) ++
          (if r.1 = 1 then [0x94] else []) ∧
        (r.1 = 1 → m = length))) ∧
    (∀ i, byte_request length i = if i + 1 = length then 0x84 else 0xC4) ∧
    (∀ (β : Type) (H : Board β) (fuel : Nat) (b : β),
      wait_TWINT H fuel (H.setTWCR b 0xA4) = some (H.waitTWINT (H.setTWCR b 0xA4)) →
      wait_TWINT H fuel (H.setTWCR (H.setTWDR (H.waitTWINT (H.setTWCR b 0xA4))
          ((2 * address + 1) % 256)) 0x84) =
        some (H.waitTWINT (H.setTWCR (H.setTWDR (H.waitTWINT (H.setTWCR b 0xA4))
          ((2 * address + 1) % 256)) 0x84)) →
      i2c_read_polled H fuel address buffer length b =
        some (i2c_read H address buffer length b)) := by
  refine ⟨?_, fun i => rfl, fun β H fuel b h1 h2 =>
    i2c_read_polled_eq H fuel address buffer length b h1 h2⟩
  obtain ⟨ks, hks⟩ := hs
  obtain ⟨ka, hka⟩ := ha
  have hset0 : (flagBoard fs fa fb data).setTWCR Twi.idle 0xA4 = ⟨1, 0, [0xA4], [0]⟩ := rfl
  obtain ⟨b1, hw1, hr1, hc1, hwait1⟩ := wait_TWINT_ends fs fa fb data ks ⟨1, 0, [0xA4], [0]⟩
    (by simpa [flag_at] using hks)
  have hset1 : (flagBoard fs fa fb data).setTWCR
      ((flagBoard fs fa fb data).setTWDR b1 ((2 * address + 1) % 256)) 0x84 =
      ⟨2, 0, [0xA4, 0x84], [0, b1.k]⟩ := by
    show (⟨b1.w + 1, 0, b1.requests ++ [0x84], b1.counts ++ [b1.k]⟩ : Twi) = _
    rw [hw1, hr1, hc1]
    rfl
  obtain ⟨b2, hw2, hr2, hc2, hwait2⟩ := wait_TWINT_ends fs fa fb data ka
    ⟨2, 0, [0xA4, 0x84], [0, b1.k]⟩ (by simpa [flag_at] using hka)
  obtain ⟨r, hr, h01, hiff, hdat, _, hk, ⟨qs, hqs, hqle⟩, ⟨m, hm, hreq, hmt⟩⟩ :=
    i2c_read_bytes_flagBoard fs fa fb data length length 0 buffer b2 (by rw [hw2])
  refine ⟨max ks ka + 1, r, fun fuel hfuel => ?_, h01, ?_, ?_, ?_, hk, ?_, ⟨m, hm, ?_, hmt⟩⟩
  · unfold i2c_read_polled
    rw [hset0, hwait1 fuel (by omega)]
    simp only
    rw [hset1, hwait2 fuel (by omega)]
    simp only
    rw [hr]
  · rw [hiff]
    constructor
    · rintro ⟨j, _, h2, h3⟩
      exact ⟨j, by omega, h3⟩
    · rintro ⟨j, h2, h3⟩
      exact ⟨j, Nat.zero_le _, by omega, h3⟩
  · intro h1 i hi
    exact hdat h1 i (Nat.zero_le _) (by omega)
  · intro h0
    rcases h01 with h | h
    · obtain ⟨i, hi, _⟩ := hiff.mp h
      omega
    · exact h
  · rw [hqs, hc2]
    simpa using hqle
  · rw [hreq, hr2, List.range_eq_range']

theorem i2c_read_bounded_per_byte_witness :
    (∃ fuel0 r,
      (∀ fuel, fuel0 ≤ fuel →
        i2c_read_polled (flagBoard (fun k => decide (k = 2)) (fun k => decide (k = 0))
          (fun _ k => decide (k = 1)) (fun i => i + 7)) fuel 0x50 (fun _ => 0) 8 Twi.idle =
          some r) ∧
      (r.1 = 0 ∨ r.1 = 1) ∧
      (r.1 = 0 ↔ ∃ i, i < 8 ∧ ∀ k, k < 50001 → (fun _ k => decide (k = 1)) i k = false) ∧
      (r.1 = 1 → ∀ i, i < 8 → r.2.1 i = (fun i => i + 7) i % 256) ∧
      ((8 : Nat) = 0 → r.1 = 1) ∧
      r.2.2.k ≤ 50001 ∧ (∀ q ∈ r.2.2.counts.drop 3, q ≤ 50001) ∧
      (∃ m, m ≤ 8 ∧
        r.2.2.requests = [0xA4, 0x84] ++ (List.range m).map (byte_request 8) ++
          (if r.1 = 1 then [0x94] else []) ∧
        (r.1 = 1 → m = 8))) ∧
    (∀ i, byte_request 8 i = if i + 1 = 8 then 0x84 else 0xC4) ∧
    (∀ (β : Type) (H : Board β) (fuel : Nat) (b : β),
      wait_TWINT H fuel (H.setTWCR b 0xA4) = some (H.waitTWINT (H.setTWCR b 0xA4)) →
      wait_TWINT H fuel (H.setTWCR (H.setTWDR (H.waitTWINT (H.setTWCR b 0xA4))
          ((2 * 0x50 + 1) % 256)) 0x84) =
        some (H.waitTWINT (H.setTWCR (H.setTWDR (H.waitTWINT (H.setTWCR b 0xA4))
          ((2 * 0x50 + 1) % 256)) 0x84)) →
      i2c_read_polled H fuel 0x50 (fun _ => 0) 8 b =
        some (i2c_read H 0x50 (fun _ => 0) 8 b)) :=
  i2c_read_bounded_per_byte (fun k => decide (k = 2)) (fun k => decide (k = 0))
    (fun _ k => decide (k = 1)) (fun i => i + 7) 0x50 (fun _ => 0) 8
    ⟨2, by decide⟩ ⟨0, by decide⟩

end FmcFru
